import Mathlib

/-!
# ShortRegexpString: a shallow embedding of `regexp.go`

Go strings are byte sequences: a string is a list of byte values (`Nat`, each
below 256 for a real Go string), `len` is the number of bytes and indexing is
by byte.  Slices of strings are lists.  A call that the Go run time would abort
(`slice bounds out of range`, `index out of range`) yields `Outcome.panic`.
-/

namespace SortOrder

/-- A Go string: its bytes. -/
abbrev Str := List Nat

/-- The bytes of an ASCII string literal. -/
def ascii (s : String) : Str := s.toList.map Char.toNat

/-- The result of running Go code: a value, a run-time panic, or the recursion
budget of the embedding ran out. -/
inductive Outcome (α : Type) where
  | ok (a : α)
  | panic
  | outOfFuel
  deriving DecidableEq, Repr

namespace Outcome

/-- Sequencing: a panic or an exhausted budget ends the run. -/
def bind {α β : Type} : Outcome α → (α → Outcome β) → Outcome β
  | ok a, f => f a
  | panic, _ => panic
  | outOfFuel, _ => outOfFuel

/-- Apply a function to the value of a run. -/
def map {α β : Type} (f : α → β) : Outcome α → Outcome β
  | ok a => ok (f a)
  | panic => panic
  | outOfFuel => outOfFuel

end Outcome

instance : Monad Outcome where
  pure := Outcome.ok
  bind := Outcome.bind

/-! ## Library functions the source calls (Go standard library) -/

/-- The bytes `regexp.QuoteMeta` escapes: the characters of the Go string
literal backslash . + * ? ( ) | [ ] { } ^ $ . -/
def special (b : Nat) : Bool :=
  b ∈ [92, 46, 43, 42, 63, 40, 41, 124, 91, 93, 123, 125, 94, 36]

/-- Go `regexp.QuoteMeta`: a backslash (92) goes before every special byte. -/
def QuoteMeta (s : Str) : Str :=
  s.flatMap fun b => if special b then [92, b] else [b]

/-- Go `strings.HasPrefix`: `len(s) >= len(p) && s[:len(p)] == p`. -/
def hasPrefix (s p : Str) : Bool :=
  decide (p.length ≤ s.length) && decide (s.take p.length = p)

/-- Go `strings.HasSuffix`: `len(s) >= len(p) && s[len(s)-len(p):] == p`. -/
def hasSuffix (s p : Str) : Bool :=
  decide (p.length ≤ s.length) && decide (s.drop (s.length - p.length) = p)

/-- Go `a < b` on strings: byte-wise lexicographic order. -/
def strLess : Str → Str → Bool
  | [], [] => false
  | [], _ :: _ => true
  | _ :: _, [] => false
  | x :: a, y :: b => if x < y then true else if y < x then false else strLess a b

/-- Go `strings.Join(vs, "|")`; 124 is the byte of the bar. -/
def joinBar (vs : List Str) : Str := [124].intercalate vs

/-- Go `utf8.RuneError`. -/
def RuneError : Nat := 0xFFFD

/-- Go `utf8.RuneStart(b)`: `b&0xC0 != 0x80`, that is, `b` is not a
continuation byte 0x80..0xBF. -/
def RuneStart (b : Nat) : Bool := !(decide (0x80 ≤ b) && decide (b < 0xC0))

/-- Go `utf8.DecodeRuneInString`: the first code point of `s` and its width,
`(RuneError, 1)` for an invalid encoding, `(RuneError, 0)` for the empty string.
The masks and shifts of the Go code are written with `%` and `*`; the bit
fields combined by `|` there are disjoint, so `|` is `+`. -/
def DecodeRuneInString (s : Str) : Nat × Nat :=
  match s with
  | [] => (RuneError, 0)
  | s0 :: t =>
    if s0 < 0x80 then (s0, 1)
    else if s0 < 0xC2 ∨ 0xF4 < s0 then (RuneError, 1)
    else
      let sz := if s0 < 0xE0 then 2 else if s0 < 0xF0 then 3 else 4
      let lo := if s0 = 0xE0 then 0xA0 else if s0 = 0xF0 then 0x90 else 0x80
      let hi := if s0 = 0xED then 0x9F else if s0 = 0xF4 then 0x8F else 0xBF
      if s.length < sz then (RuneError, 1)
      else
        match t with
        | [] => (RuneError, 1)
        | s1 :: t1 =>
          if s1 < lo ∨ hi < s1 then (RuneError, 1)
          else if sz ≤ 2 then (s0 % 32 * 64 + s1 % 64, 2)
          else
            match t1 with
            | [] => (RuneError, 1)
            | s2 :: t2 =>
              if s2 < 0x80 ∨ 0xBF < s2 then (RuneError, 1)
              else if sz ≤ 3 then (s0 % 16 * 4096 + s1 % 64 * 64 + s2 % 64, 3)
              else
                match t2 with
                | [] => (RuneError, 1)
                | s3 :: _ =>
                  if s3 < 0x80 ∨ 0xBF < s3 then (RuneError, 1)
                  else (s0 % 8 * 262144 + s1 % 64 * 4096 + s2 % 64 * 64 + s3 % 64, 4)

/-- Insertion step of Go `sort.insertionSort`: the new element `x` sits at the
right end of the sorted part and is swapped leftwards while it is less than its
left neighbour.  The sorted part is passed reversed (right neighbour first). -/
def sortInsert {α : Type} (less : α → α → Bool) (x : α) : List α → List α
  | [] => [x]
  | y :: ys => if less x y then y :: sortInsert less x ys else x :: y :: ys

/-- Go `sort.Sort` (in place), modelled as the insertion sort that the `sort`
package runs on slices of at most 12 elements (at most 6 before Go 1.19, which
adds a pass with gap 6 from 7 elements on).  For an order that is a strict
total order on the elements every correct sort returns this same list.  On a
longer slice with an order that is not a strict total order on its elements
(`reverseStrings.Less` on strings that are not valid UTF-8) `sort.Sort` may
leave another rearrangement than this one; the theorems that are stated for
all inputs therefore take the reverse sort as a parameter
(`ShortRegexpStringWith`). -/
def goSort {α : Type} (less : α → α → Bool) (vs : List α) : List α :=
  (vs.foldl (fun acc x => sortInsert less x acc) []).reverse

/-- A Go slice expression `l[lo:hi]`; it panics unless `0 <= lo <= hi <= len(l)`. -/
def slice {α : Type} (l : List α) (lo hi : Int) : Outcome (List α) :=
  if 0 ≤ lo ∧ lo ≤ hi ∧ hi ≤ (l.length : Int) then
    .ok ((l.drop lo.toNat).take (hi.toNat - lo.toNat))
  else .panic

/-- A Go index expression `l[i]`; it panics unless `i < len(l)`. -/
def index {α : Type} (l : List α) (i : Nat) : Outcome α :=
  match l.get? i with
  | some a => .ok a
  | none => .panic

/-! ## regexp.go -/

/-- One round of the loop of `removeDups`, lines 122-125, on the backing array
`st.1` with `insertPos` being `st.2`. -/
def removeDupsStep (st : List Str × Nat) (i : Nat) : List Str × Nat :=
  if st.1.getD (i - 1) [] ≠ st.1.getD i [] then
    (st.1.set st.2 (st.1.getD i []), st.2 + 1)
  else st

/-- Source `removeDups`, lines 119-128, on the backing array: the loop writes
`vs[insertPos] = vs[i]` in place; the result is the array afterwards and
`insertPos`.  `i` runs over `1 .. len(vs)-1`. -/
def removeDupsInPlace (vs : List Str) : List Str × Nat :=
  (List.range' 1 (vs.length - 1)).foldl removeDupsStep (vs, 1)

/-- Source `removeDups`: the returned slice `vs[:insertPos]`.  The source is
only called on slices of at least two elements; on the empty slice, where the
source panics at `vs[:insertPos]` with `insertPos` 1, this gives the empty
list. -/
def removeDups (vs : List Str) : List Str :=
  (removeDupsInPlace vs).1.take (removeDupsInPlace vs).2

/-- Source `dup`: a copy has the same contents. -/
def dup (vs : List Str) : List Str := vs

/-- Source `commonSs`: where to find a common substring (`end` is `stop`
here, `end` being reserved). -/
structure commonSs where
  start : Nat
  stop : Nat
  deriving DecidableEq, Repr

/-- The loop of source `findFirst`, lines 289-297, with `l` and `h` as in the
source.  The first argument bounds the number of iterations: `h - l - 1` is
`len(vs)` at the start and shrinks in every iteration, so `len(vs)` rounds are
enough.  `l + h` is never negative inside the loop, so `/` rounds as in Go. -/
def findFirstLoop (vs : List Str) (predicate : Str → Bool) : Nat → Int → Int → Int
  | 0, _, h => h
  | n + 1, l, h =>
    if l + 1 < h then
      let m := (l + h) / 2
      if predicate (vs.getD m.toNat []) then findFirstLoop vs predicate n l m
      else findFirstLoop vs predicate n m h
    else h

/-- Source `findFirst`. -/
def findFirst (vs : List Str) (predicate : Str → Bool) : Nat :=
  (findFirstLoop vs predicate vs.length (-1) vs.length).toNat

/-- Source `prefixStart`. -/
def prefixStart (vs : List Str) (pfx : Str) : Nat :=
  if pfx = [] then 0 else findFirst vs fun s => hasPrefix s pfx

/-- Source `prefixEnd`. -/
def prefixEnd (vs : List Str) (pfx : Str) : Nat :=
  if pfx = [] then vs.length else findFirst vs fun s => !hasPrefix s pfx

/-- Source `suffixStart`. -/
def suffixStart (vs : List Str) (sfx : Str) : Nat :=
  if sfx = [] then 0 else findFirst vs fun s => hasSuffix s sfx

/-- Source `suffixEnd`. -/
def suffixEnd (vs : List Str) (sfx : Str) : Nat :=
  if sfx = [] then vs.length else findFirst vs fun s => !hasSuffix s sfx

/-- The inner loop of `commonPrefixes`, lines 158-163: the number `k` of
leading bytes on which the two strings agree. -/
def commonPrefixLen : Str → Str → Nat
  | x :: a, y :: b => if x ≠ y then 0 else commonPrefixLen a b + 1
  | _, _ => 0

/-- The inner loop of `commonSuffixes`, lines 233-238: the number `k` of
trailing bytes on which the two strings agree. -/
def commonSuffixLen (a b : Str) : Nat := commonPrefixLen a.reverse b.reverse

/-- Source `commonPrefixes`.  The Go map is the list of its entries in the
order in which they were inserted; an entry is never overwritten. -/
def commonPrefixes (vs : List Str) (minLength : Nat) : List (Str × commonSs) :=
  (List.range (vs.length - 1)).foldl
    (fun result i =>
      let j := i + 1
      let k := commonPrefixLen (vs.getD i []) (vs.getD j [])
      if k < minLength then result
      else
        let pfx := (vs.getD i []).take k
        if (result.lookup pfx).isSome then result
        else
          let first := prefixStart (vs.take i) pfx
          let stop := first + 1 + prefixEnd (vs.drop (first + 1)) pfx
          result ++ [(pfx, ⟨first, stop⟩)])
    []

/-- Source `commonSuffixes`, with the map as a list of entries as in
`commonPrefixes`. -/
def commonSuffixes (vs : List Str) (minLength : Nat) : List (Str × commonSs) :=
  (List.range (vs.length - 1)).foldl
    (fun result i =>
      let j := i + 1
      let k := commonSuffixLen (vs.getD i []) (vs.getD j [])
      if k < minLength then result
      else
        let sfx := (vs.getD i []).drop ((vs.getD i []).length - k)
        if (result.lookup sfx).isSome then result
        else
          let first := suffixStart (vs.take i) sfx
          let stop := first + 1 + suffixEnd (vs.drop (first + 1)) sfx
          result ++ [(sfx, ⟨first, stop⟩)])
    []

/-- The inner loops of `reverseStrings.Less`, lines 212-215: step back from
index `m` to the start of the code point, never below index 0. -/
def backToRuneStart (a : Str) : Nat → Nat
  | 0 => 0
  | m + 1 => if RuneStart (a.getD (m + 1) 0) then m + 1 else backToRuneStart a m

/-- The loop of `reverseStrings.Less`; the arguments are `m + 1` and `n + 1`
for the source's indices `m` and `n`. -/
def lessLoop (a b : Str) : Nat → Nat → Bool
  | 0, _ => decide (a.length < b.length)
  | _ + 1, 0 => decide (a.length < b.length)
  | m + 1, n + 1 =>
    if a.getD m 0 ≠ b.getD n 0 then
      let ri := (DecodeRuneInString (a.drop (backToRuneStart a m))).1
      let rj := (DecodeRuneInString (b.drop (backToRuneStart b n))).1
      decide (ri < rj)
    else lessLoop a b m n

/-- Source `reverseStrings.Less`, on the two strings `rs[i]` and `rs[j]`. -/
def reverseStrings.Less (a b : Str) : Bool := lessLoop a b a.length b.length

/-- The loops of `sharedPrefix`, lines 315-321: the index `i` at which the
scan stops (`len(vs[0]) - ignore` if it runs to the end).  The first argument
is the number of values of `i` still to visit. -/
def sharedPrefixLoop (ignore : Nat) (v0 : Str) (rest : List Str) : Nat → Nat → Nat
  | 0, i => i
  | n + 1, i =>
    if rest.any fun v =>
        decide ((i : Int) ≥ (v.length : Int) - ignore) || decide (v0.getD i 0 ≠ v.getD i 0)
    then i
    else sharedPrefixLoop ignore v0 rest n (i + 1)

/-- Source `sharedPrefix`. -/
def sharedPrefix (ignore : Nat) (vs : List Str) : Outcome Str :=
  match vs with
  | [] => .ok []
  | [v] => .ok v
  | v0 :: rest =>
    let n := v0.length - ignore
    let i := sharedPrefixLoop ignore v0 rest n 0
    if i < n then slice v0 0 i
    else slice v0 0 ((v0.length : Int) - ignore)

/-- The loops of `sharedSuffix`, lines 338-344. -/
def sharedSuffixLoop (ignore : Nat) (v0 : Str) (rest : List Str) : Nat → Nat → Nat
  | 0, i => i
  | n + 1, i =>
    if rest.any fun v =>
        decide ((i : Int) ≥ (v.length : Int) - ignore) ||
          decide (v0.getD (v0.length - i - 1) 0 ≠ v.getD (v.length - i - 1) 0)
    then i
    else sharedSuffixLoop ignore v0 rest n (i + 1)

/-- Source `sharedSuffix`. -/
def sharedSuffix (ignore : Nat) (vs : List Str) : Outcome Str :=
  match vs with
  | [] => .ok []
  | [v] => .ok v
  | v0 :: rest =>
    let n := v0.length - ignore
    let i := sharedSuffixLoop ignore v0 rest n 0
    if i < n then slice v0 ((v0.length : Int) - i) v0.length
    else slice v0 ignore v0.length

/-- The pattern returned for no strings: the bytes of `$.^`. -/
def unmatchable : Str := [36, 46, 94]

/-- The loop of `recurse`, lines 40-43: the strings `vs[i]` for
`start <= i < start + n`, each cut to `vs[i][len(pfx) : len(vs[i])-len(sfx)]`. -/
def varyingOf (vs : List Str) (pfx sfx : Str) : Nat → Nat → Outcome (List Str)
  | _, 0 => .ok []
  | start, n + 1 => do
    let v ← index vs start
    let w ← slice v pfx.length ((v.length : Int) - sfx.length)
    let ws ← varyingOf vs pfx sfx (start + 1) n
    pure (w :: ws)

/-- Lines 46-55 of `recurse`: a leading empty alternative becomes `?`, and a
middle of more than one byte is put in parentheses. -/
def wrapMiddle (middle0 : Str) : Str :=
  let stripped := hasPrefix middle0 [124]
  let middle := if stripped then middle0.drop 1 else middle0
  let opt : Str := if stripped then [63] else []
  if middle.length > 1 then [40] ++ middle ++ [41] ++ opt
  else if middle ≠ [] then middle ++ opt
  else middle

/-- The closure `recurse` of `ShortRegexpString`, lines 33-62; `self` is the
recursive call of `ShortRegexpString` and `vs` the captured variable. -/
def recurse (self : List Str → Outcome Str) (vs : List Str) (pfx sfx : Str)
    (data : commonSs) : Outcome Str := do
  let before ←
    if data.start > 0 then do
      let r ← self (dup (vs.take data.start))
      pure (r ++ [124])
    else pure []
  let varying ← varyingOf vs pfx sfx data.start (data.stop - data.start)
  let middle ← self varying
  let result := before ++ (pfx ++ wrapMiddle middle ++ sfx)
  if data.stop < vs.length then do
    let r ← self (dup (vs.drop data.stop))
    pure (result ++ [124] ++ r)
  else pure result

/-- The variables `bestCost`, `best` and `found` of `ShortRegexpString`. -/
structure Best where
  bestCost : Int
  best : Str
  found : Bool
  deriving DecidableEq, Repr

/-- Lines 80-84 and 95-99: keep `str` if it is shorter than the best so far, or
as long and smaller as a string. -/
def Best.consider (b : Best) (str : Str) : Best :=
  if (str.length : Int) < b.bestCost ∨ ((str.length : Int) = b.bestCost ∧ strLess str b.best = true)
  then ⟨str.length, str, true⟩
  else b

/-- The loop over the suffix candidates, lines 76-88. -/
def suffixPass (self : List Str → Outcome Str) (vs : List Str) :
    List (Str × commonSs) → Best → Outcome Best
  | [], b => .ok b
  | (sfx, sufLoc) :: cands, b => do
    let pfx ← sharedPrefix sfx.length ((vs.drop sufLoc.start).take (sufLoc.stop - sufLoc.start))
    let str ← recurse self vs pfx sfx sufLoc
    suffixPass self vs cands (b.consider str)

/-- The loop over the prefix candidates, lines 92-103. -/
def prefixPass (self : List Str → Outcome Str) (vs : List Str) :
    List (Str × commonSs) → Best → Outcome Best
  | [], b => .ok b
  | (pfx, preLoc) :: cands, b => do
    let sfx ← sharedSuffix pfx.length ((vs.drop preLoc.start).take (preLoc.stop - preLoc.start))
    let str ← recurse self vs pfx sfx preLoc
    prefixPass self vs cands (b.consider str)

/-- Line 65-68: the length of the naive solution, `-1` plus, for every
argument, the length of its escaped form plus one. -/
def naiveCost (vs : List Str) : Int :=
  vs.foldl (fun c v => c + ((QuoteMeta v).length + 1)) (-1)

/-- Lines 64-113 of `ShortRegexpString`, the case of two or more arguments;
`self` is the recursive call.  The value is the returned pattern together with
the contents, after the call, of the backing array of the argument slice, which
the function sorts and overwrites in place. -/
def generalCase (self : List Str → Outcome Str) (vs : List Str) : Outcome (Str × List Str) :=
  let b0 : Best := ⟨naiveCost vs, [], false⟩
  let sorted := goSort reverseStrings.Less vs
  let mem := removeDupsInPlace sorted
  let vs1 := mem.1.take mem.2
  do
    let b1 ← suffixPass self vs1 (commonSuffixes vs1 2) b0
    let vs2 := goSort strLess vs1
    let b2 ← prefixPass self vs2 (commonPrefixes vs2 2) b1
    if b2.found then pure (b2.best, vs2 ++ mem.1.drop mem.2)
    else pure (joinBar (vs2.map QuoteMeta), vs2.map QuoteMeta ++ mem.1.drop mem.2)

/-- Source `ShortRegexpString` with a recursion budget: the returned pattern
and the caller's slice after the call.  The recursive calls get copies (`dup`,
`varying`), so only the pattern comes back from them. -/
def ShortRegexpStringFuel : Nat → List Str → Outcome (Str × List Str)
  | 0, _ => .outOfFuel
  | fuel + 1, vs =>
    match vs with
    | [] => .ok (unmatchable, [])
    | [v] => .ok (QuoteMeta v, [v])
    | _ => generalCase (fun l => (ShortRegexpStringFuel fuel l).map Prod.fst) vs

/-- The measure under which the recursion of `ShortRegexpString` shrinks: the
number of strings plus their total length. -/
def weight (vs : List Str) : Nat := vs.length + (vs.map List.length).sum

/-- Source `ShortRegexpString`: the returned pattern. -/
def ShortRegexpString (vs : List Str) : Outcome Str :=
  (ShortRegexpStringFuel (weight vs + 1) vs).map Prod.fst

/-- The caller's slice after `ShortRegexpString(vs...)`. -/
def callerSliceAfter (vs : List Str) : Outcome (List Str) :=
  (ShortRegexpStringFuel (weight vs + 1) vs).map Prod.snd

/-! ## UTF-8 validity -/

/-- The loop of Go `utf8.ValidString`: decode code point after code point; an
encoding is invalid exactly when decoding reports `(RuneError, 1)`.  The first
argument bounds the number of code points. -/
def validLoop : Nat → Str → Bool
  | 0, s => decide (s = [])
  | n + 1, s =>
    match s with
    | [] => true
    | _ :: _ =>
      let d := DecodeRuneInString s
      !(decide (d.1 = RuneError) && decide (d.2 = 1)) && validLoop n (s.drop d.2)

/-- Go `utf8.ValidString`: the string is a sequence of well-formed UTF-8
encodings of code points. -/
def ValidString (s : Str) : Bool := validLoop s.length s

/-! ## Reading a pattern as a regular expression

The pattern is for Go's `regexp` package.  The part of its syntax that the
synthesizer emits, and the anchors and the dot of the pattern for the empty
set, are modelled here: literals, backslash escapes of punctuation, `|`,
`(...)`, `?`, `.`, `^` and `$` (no flags).  Any other operator makes the
pattern unreadable in this model. -/

/-- Regular expressions over bytes. -/
inductive Regex where
  | empty
  | lit (b : Nat)
  | anyChar
  | beginText
  | endText
  | cat (r s : Regex)
  | alt (r s : Regex)
  | opt (r : Regex)
  deriving DecidableEq, Repr

/-- The concatenation of the items collected so far (last item first). -/
def catOf (items : List Regex) : Regex :=
  items.foldl (fun acc r => Regex.cat r acc) Regex.empty

/-- The alternation of the alternatives collected so far (last one first) and
the current one. -/
def altOf (alts : List Regex) (cur : Regex) : Regex :=
  alts.foldl (fun acc r => Regex.alt r acc) cur

/-- Recursive-descent reader: `alts` are the finished alternatives of the
current group and `items` the items of the current alternative.  It stops at
the end of the pattern or in front of a closing parenthesis and returns what is
left.  The first argument bounds the number of steps. -/
def parseRegex : Nat → Str → List Regex → List Regex → Option (Regex × Str)
  | 0, _, _, _ => none
  | _ + 1, [], alts, items => some (altOf alts (catOf items), [])
  | n + 1, c :: rest, alts, items =>
    if c = 124 then parseRegex n rest (catOf items :: alts) []
    else if c = 41 then some (altOf alts (catOf items), c :: rest)
    else if c = 40 then
      match parseRegex n rest [] [] with
      | some (r, 41 :: rest1) => parseRegex n rest1 alts (r :: items)
      | _ => none
    else if c = 63 then
      match items with
      | [] => none
      | r :: items1 => parseRegex n rest alts (Regex.opt r :: items1)
    else if c = 92 then
      match rest with
      | [] => none
      | d :: rest1 => if special d then parseRegex n rest1 alts (Regex.lit d :: items) else none
    else if c = 46 then parseRegex n rest alts (Regex.anyChar :: items)
    else if c = 94 then parseRegex n rest alts (Regex.beginText :: items)
    else if c = 36 then parseRegex n rest alts (Regex.endText :: items)
    else if special c then none
    else parseRegex n rest alts (Regex.lit c :: items)

/-- Read a whole pattern. -/
def parsePattern (pat : Str) : Option Regex :=
  match parseRegex (pat.length + 1) pat [] [] with
  | some (r, []) => some r
  | _ => none

/-- The positions at which a match of `r` that starts at position `i` of
`text` can end.  The dot takes one code point other than a newline. -/
def Regex.ends (text : Str) : Regex → Nat → List Nat
  | .empty, i => [i]
  | .lit b, i => if text.get? i = some b then [i + 1] else []
  | .anyChar, i =>
    if i < text.length ∧ (DecodeRuneInString (text.drop i)).1 ≠ 10 then
      [i + (DecodeRuneInString (text.drop i)).2]
    else []
  | .beginText, i => if i = 0 then [i] else []
  | .endText, i => if i = text.length then [i] else []
  | .cat r s, i => (Regex.ends text r i).flatMap (Regex.ends text s)
  | .alt r s, i => Regex.ends text r i ++ Regex.ends text s i
  | .opt r, i => Regex.ends text r i ++ [i]

/-- The pattern matches the whole of `text`. -/
def fullMatch (pat text : Str) : Bool :=
  match parsePattern pat with
  | some r => decide (text.length ∈ Regex.ends text r 0)
  | none => false

/-- The pattern matches some part of `text` (as Go `MatchString` does). -/
def partMatch (pat text : Str) : Bool :=
  match parsePattern pat with
  | some r => (List.range (text.length + 1)).any fun i => !(Regex.ends text r i).isEmpty
  | none => false

/-- Every byte of `out` that is one of `. + * [ ] { } ^ $` directly follows a
backslash. -/
def metaEscaped (out : Str) : Bool :=
  (List.range out.length).all fun i =>
    !(decide (out.getD i 0 ∈ [46, 43, 42, 91, 93, 123, 125, 94, 36])) ||
      (decide (0 < i) && decide (out.getD (i - 1) 0 = 92))

/-- What the loops maintain about `bestCost`, `best` and `found`, for the
baseline `N`. -/
def Best.Inv (N : Int) (b : Best) : Prop :=
  (b.found = true → (b.best.length : Int) = b.bestCost ∧ b.bestCost < N) ∧
  (b.found = false → b.bestCost = N ∧ b.best = [])

/-- The well-formed UTF-8 encodings: `Enc c r` says that the bytes `c` encode
the code point `r` (the table of RFC 3629, which `DecodeRuneInString`
implements). -/
def Enc : Str → Nat → Prop
  | [b0], r => b0 < 0x80 ∧ r = b0
  | [b0, b1], r =>
    0xC2 ≤ b0 ∧ b0 < 0xE0 ∧ 0x80 ≤ b1 ∧ b1 ≤ 0xBF ∧ r = b0 % 32 * 64 + b1 % 64
  | [b0, b1, b2], r =>
    0xE0 ≤ b0 ∧ b0 < 0xF0 ∧ 0x80 ≤ b1 ∧ b1 ≤ 0xBF ∧ (b0 = 0xE0 → 0xA0 ≤ b1) ∧
      (b0 = 0xED → b1 ≤ 0x9F) ∧ 0x80 ≤ b2 ∧ b2 ≤ 0xBF ∧
      r = b0 % 16 * 4096 + b1 % 64 * 64 + b2 % 64
  | [b0, b1, b2, b3], r =>
    0xF0 ≤ b0 ∧ b0 ≤ 0xF4 ∧ 0x80 ≤ b1 ∧ b1 ≤ 0xBF ∧ (b0 = 0xF0 → 0x90 ≤ b1) ∧
      (b0 = 0xF4 → b1 ≤ 0x8F) ∧ 0x80 ≤ b2 ∧ b2 ≤ 0xBF ∧ 0x80 ≤ b3 ∧ b3 ≤ 0xBF ∧
      r = b0 % 8 * 262144 + b1 % 64 * 4096 + b2 % 64 * 64 + b3 % 64
  | _, _ => False

/-- The string spelled by a list of encodings given last encoding first. -/
def flatR : List (Str × Nat) → Str
  | [] => []
  | p :: A => flatR A ++ p.1

/-- Decode a string code point by code point: the encodings read and their
code points.  The first argument bounds the number of code points. -/
def chunksLoop : Nat → Str → List (Str × Nat)
  | 0, _ => []
  | n + 1, s =>
    match s with
    | [] => []
    | _ :: _ =>
      let d := DecodeRuneInString s
      (s.take d.2, d.1) :: chunksLoop n (s.drop d.2)

/-- The code points of a string, as Go `[]rune(s)` gives them. -/
def runes (s : Str) : List Nat := (chunksLoop s.length s).map Prod.snd

/-- No two distinct strings of `vs` share a prefix of two or more bytes, and no
two distinct strings share a suffix of two or more bytes. -/
def NoSharedAffix (vs : List Str) : Prop :=
  ∀ a ∈ vs, ∀ b ∈ vs, a ≠ b → ∀ p : Str, 2 ≤ p.length →
    ¬ (p <+: a ∧ p <+: b) ∧ ¬ (p <:+ a ∧ p <:+ b)

/-- The outcome `out` is the plain alternation for `vs`: the escaped distinct
strings of `vs` in ascending byte order, joined by bars. -/
def IsPlainAlternation (vs : List Str) (out : Outcome Str) : Prop :=
  ∃ l : List Str, l.Pairwise (fun a b => strLess a b = true) ∧ (∀ x, x ∈ l ↔ x ∈ vs) ∧
    out = .ok (joinBar (l.map QuoteMeta))

/-- What every entry of a candidate map satisfies: the affix has at least
`minLength` bytes and the range starts below its end and below `len(vs) - 1`. -/
def GoodEntry (n minLength : Nat) (e : Str × commonSs) : Prop :=
  minLength ≤ e.1.length ∧ e.2.start < e.2.stop ∧ e.2.start + 1 < n

/-- The longest common prefix of two strings. -/
def commonPrefix2 : Str → Str → Str
  | x :: a, y :: b => if x = y then x :: commonPrefix2 a b else []
  | _, _ => []

/-- Reference definition for `sharedPrefix`, in the words of its description:
the longest prefix that all the strings share (the first string for a single
one, the empty string for none). -/
def longestCommonPrefix : List Str → Str
  | [] => []
  | [v] => v
  | v :: w :: rest => commonPrefix2 v (longestCommonPrefix (w :: rest))

/-- The string without its last `ignore` bytes. -/
def dropLast (ignore : Nat) (v : Str) : Str := v.take (v.length - ignore)

/-- The loop of source `findFirst` once more, returning the variables `l` and
`h` with which it stops: either the loop condition `l+1 < h` has become false
or the round budget (first argument) is spent. -/
def findFirstRun (vs : List Str) (predicate : Str → Bool) : Nat → Int → Int → Int × Int
  | 0, l, h => (l, h)
  | n + 1, l, h =>
    if l + 1 < h then
      let m := (l + h) / 2
      if predicate (vs.getD m.toNat []) then findFirstRun vs predicate n l m
      else findFirstRun vs predicate n m h
    else (l, h)

/-- What C16 says of an entry `e` of the prefix candidate map of `vs`. -/
def PrefixBlock (vs : List Str) (minLength : Nat) (e : Str × commonSs) : Prop :=
  minLength ≤ e.1.length ∧ e.2.start < e.2.stop ∧ e.2.stop ≤ vs.length ∧
    2 ≤ e.2.stop - e.2.start ∧
    ∀ i, i < vs.length → ((e.2.start ≤ i ∧ i < e.2.stop) ↔ hasPrefix (vs.getD i []) e.1 = true)

/-- Lines 64-113 of `ShortRegexpString` with the two candidate maps iterated in
the orders `cs` and `cp`: `generalCase` with the entries of
`commonSuffixes(vs, 2)` and of `commonPrefixes(vs, 2)` visited in a given
order, as a Go `range` over a map may do. -/
def generalCaseOrd (self : List Str → Outcome Str) (vs : List Str)
    (cs cp : List (Str × commonSs)) : Outcome (Str × List Str) :=
  let b0 : Best := ⟨naiveCost vs, [], false⟩
  let sorted := goSort reverseStrings.Less vs
  let mem := removeDupsInPlace sorted
  let vs1 := mem.1.take mem.2
  do
    let b1 ← suffixPass self vs1 cs b0
    let vs2 := goSort strLess vs1
    let b2 ← prefixPass self vs2 cp b1
    if b2.found then pure (b2.best, vs2 ++ mem.1.drop mem.2)
    else pure (joinBar (vs2.map QuoteMeta), vs2.map QuoteMeta ++ mem.1.drop mem.2)

/-- The working slice of the suffix pass: the arguments reverse-sorted, without
neighbouring duplicates. -/
def suffixView (vs : List Str) : List Str := removeDups (goSort reverseStrings.Less vs)

/-- The working slice of the prefix pass: the suffix view sorted by bytes. -/
def prefixView (vs : List Str) : List Str := goSort strLess (suffixView vs)

/-- The three recursive calls that `recurse` makes for the range
`start .. stop` of the working slice `work`, with the affixes `pfx` and `sfx`,
are on lists of smaller weight than the arguments `vs`. -/
def CallsShrink (vs work : List Str) (start stop : Nat) (pfx sfx : Str) : Prop :=
  (0 < start → weight (dup (work.take start)) < weight vs) ∧
  (stop < work.length → weight (dup (work.drop stop)) < weight vs) ∧
  ∀ varying, varyingOf work pfx sfx start (stop - start) = .ok varying →
    weight varying < weight vs

/-- The fragment that the suffix pass computes for one entry of the candidate
map (lines 77-79). -/
def suffixFragment (self : List Str → Outcome Str) (vs : List Str) (c : Str × commonSs) :
    Outcome Str := do
  let pfx ← sharedPrefix c.1.length ((vs.drop c.2.start).take (c.2.stop - c.2.start))
  recurse self vs pfx c.1 c.2

/-- The fragment that the prefix pass computes for one entry of the candidate
map (lines 92-94). -/
def prefixFragment (self : List Str → Outcome Str) (vs : List Str) (c : Str × commonSs) :
    Outcome Str := do
  let sfx ← sharedSuffix c.1.length ((vs.drop c.2.start).take (c.2.stop - c.2.start))
  recurse self vs c.1 sfx c.2

/-- The fragments of a list of candidates, computed in the order of the list; a
panic of one of them ends the run. -/
def evalAll {α : Type} (f : α → Outcome Str) : List α → Outcome (List Str)
  | [] => .ok []
  | c :: cs => do
    let s ← f c
    let rest ← evalAll f cs
    pure (s :: rest)

/-- The order of the choice: `r` is shorter than `f`, or as long and not after
it in the byte order. -/
def KeyLe (r f : Str) : Prop :=
  r.length < f.length ∨ (r.length = f.length ∧ (r = f ∨ strLess r f = true))

/-- The result `r` is the fragment that is least by (length, then bytes) among
the fragments shorter than `cost`, or, when no fragment is shorter than `cost`,
the fallback. -/
def IsBestOf (cost : Int) (fragments : List Str) (fallback r : Str) : Prop :=
  (r ∈ fragments ∧ (r.length : Int) < cost ∧
    ∀ f ∈ fragments, (f.length : Int) < cost → KeyLe r f) ∨
  ((∀ f ∈ fragments, ¬ (f.length : Int) < cost) ∧ r = fallback)

/-- The state of the choice after the fragments `seen`. -/
def BestSpec (cost : Int) (seen : List Str) (b : Best) : Prop :=
  (b.found = false ∧ b.bestCost = cost ∧ b.best = [] ∧ ∀ f ∈ seen, ¬ (f.length : Int) < cost) ∨
  (b.found = true ∧ b.best ∈ seen ∧ b.bestCost = b.best.length ∧ (b.best.length : Int) < cost ∧
    ∀ f ∈ seen, (f.length : Int) < cost → KeyLe b.best f)

/-- Lines 105-113: return the best candidate if there is one, else escape the
arguments in place and join them with a bar. -/
def finish (vs : List Str) (b : Best) : Outcome (Str × List Str) :=
  let mem := removeDupsInPlace (goSort reverseStrings.Less vs)
  if b.found then pure (b.best, prefixView vs ++ mem.1.drop mem.2)
  else pure (joinBar ((prefixView vs).map QuoteMeta),
    (prefixView vs).map QuoteMeta ++ mem.1.drop mem.2)

/-- An ASCII letter or digit. -/
def isAlnum (b : Nat) : Bool :=
  (decide (48 ≤ b) && decide (b ≤ 57)) || (decide (65 ≤ b) && decide (b ≤ 90)) ||
    (decide (97 ≤ b) && decide (b ≤ 122))

/-- The language of a list of strings: its elements. -/
def langOf (vs : List Str) : Language Nat := {s | s ∈ vs}

/-- The bytes of `text` from index `i` up to index `j`. -/
def segment (text : Str) (i j : Nat) : Str := (text.drop i).take (j - i)

/-- The regular expression `r` matches exactly the strings of `L`: in every
text, a match from position `i` ends at `j` exactly when the bytes between
are in `L`. -/
def Sem (r : Regex) (L : Language Nat) : Prop :=
  ∀ (text : Str) (i j : Nat), i ≤ text.length →
    (j ∈ Regex.ends text r i ↔ (i ≤ j ∧ j ≤ text.length ∧ segment text i j ∈ L))

/-- The items read so far for the current alternative (last first) match `L`
when concatenated. -/
def SemItems (items : List Regex) (L : Language Nat) : Prop :=
  ∀ (acc : Regex) (La : Language Nat), Sem acc La →
    Sem (items.foldl (fun acc r => Regex.cat r acc) acc) (L * La)

/-- The finished alternatives read so far match `L`. -/
def SemAlts (alts : List Regex) (L : Language Nat) : Prop :=
  ∀ (cur : Regex) (Lc : Language Nat), Sem cur Lc → Sem (altOf alts cur) (L + Lc)

/-- Reading `q` adds one item that matches `L` to the current alternative. -/
def ReadsItem (q : Str) (L : Language Nat) : Prop :=
  ∀ (n : Nat) (rest : Str) (alts items : List Regex), q.length + rest.length < n →
    ∃ (m : Nat) (r : Regex), rest.length < m ∧
      parseRegex n (q ++ rest) alts items = parseRegex m rest alts (r :: items) ∧ Sem r L

/-- Reading `q` extends the current alternative by a match of `L`. -/
def ReadsSeq (q : Str) (L : Language Nat) : Prop :=
  ∀ (n : Nat) (rest : Str) (alts items : List Regex) (Li : Language Nat),
    q.length + rest.length < n → SemItems items Li →
    ∃ (m : Nat) (items1 : List Regex), rest.length < m ∧
      parseRegex n (q ++ rest) alts items = parseRegex m rest alts items1 ∧
      SemItems items1 (Li * L)

/-- Reading `p` at the start of an alternative adds alternatives that together
match `L` (the last of them still open). -/
def ReadsAlt (p : Str) (L : Language Nat) : Prop :=
  ∀ (n : Nat) (rest : Str) (alts : List Regex) (La : Language Nat),
    p.length + rest.length < n → SemAlts alts La →
    ∃ (m : Nat) (alts1 items1 : List Regex) (La1 Li1 : Language Nat), rest.length < m ∧
      parseRegex n (p ++ rest) alts [] = parseRegex m rest alts1 items1 ∧
      SemAlts alts1 La1 ∧ SemItems items1 Li1 ∧ La1 + Li1 = La + L

/-- What the induction keeps about a returned pattern `p` for the language `L`:
it is read with language `L`; if it starts with a bar, the remainder is read
with a language `L1` such that `L` is `L1` and the empty string, and a
remainder of one byte is a letter or digit; a pattern of one byte is a letter
or digit. -/
def GoodPattern (p : Str) (L : Language Nat) : Prop :=
  ReadsAlt p L ∧
  (∀ p1, p = 124 :: p1 → ∃ L1, ReadsAlt p1 L1 ∧ L = 1 + L1 ∧
    (p1.length = 1 → ∃ c, p1 = [c] ∧ isAlnum c = true)) ∧
  (p.length = 1 → ∃ c, p = [c] ∧ isAlnum c = true)

/-- The part of `v` between a prefix of `a` bytes and a suffix of `b` bytes:
`v[a : len(v)-b]`. -/
def middleOf (a b : Nat) (v : Str) : Str := (v.drop a).take (v.length - b - a)

/-- Every byte of every string is an ASCII letter or digit. -/
def AllAlnum (vs : List Str) : Prop := ∀ v ∈ vs, ∀ b ∈ v, isAlnum b = true

/-- An entry of the suffix candidate map: the suffix has at least `minLength`
bytes, the range has two or more strings and holds exactly the strings with
that suffix. -/
def SuffixBlock (vs : List Str) (minLength : Nat) (e : Str × commonSs) : Prop :=
  minLength ≤ e.1.length ∧ e.2.start < e.2.stop ∧ e.2.stop ≤ vs.length ∧
    2 ≤ e.2.stop - e.2.start ∧
    ∀ i, i < vs.length → ((e.2.start ≤ i ∧ i < e.2.stop) ↔ hasSuffix (vs.getD i []) e.1 = true)

/-- Lines 64-113 of `ShortRegexpString` with the outcome of line 73 as a
parameter: `srt vs` is the slice as `sort.Sort(reverseStrings(vs))` leaves it.
`sort.Sort` reaches the slice only through `Len`, `Less` and `Swap`, so
whatever `Less` answers the slice afterwards is a rearrangement of the slice
before; which rearrangement, when `Less` is not a strict total order on the
strings, depends on the algorithm of the Go release.  `generalCase` is the
instance with the insertion sort `goSort`. -/
def generalCaseWith (srt : List Str → List Str) (self : List Str → Outcome Str)
    (vs : List Str) : Outcome (Str × List Str) :=
  let b0 : Best := ⟨naiveCost vs, [], false⟩
  let sorted := srt vs
  let mem := removeDupsInPlace sorted
  let vs1 := mem.1.take mem.2
  do
    let b1 ← suffixPass self vs1 (commonSuffixes vs1 2) b0
    let vs2 := goSort strLess vs1
    let b2 ← prefixPass self vs2 (commonPrefixes vs2 2) b1
    if b2.found then pure (b2.best, vs2 ++ mem.1.drop mem.2)
    else pure (joinBar (vs2.map QuoteMeta), vs2.map QuoteMeta ++ mem.1.drop mem.2)

/-- Source `ShortRegexpString` with a recursion budget, for the reverse sort
`srt`: as `ShortRegexpStringFuel`, every call sorting with `srt`. -/
def ShortRegexpStringFuelWith (srt : List Str → List Str) :
    Nat → List Str → Outcome (Str × List Str)
  | 0, _ => .outOfFuel
  | fuel + 1, vs =>
    match vs with
    | [] => .ok (unmatchable, [])
    | [v] => .ok (QuoteMeta v, [v])
    | _ => generalCaseWith srt (fun l => (ShortRegexpStringFuelWith srt fuel l).map Prod.fst) vs

/-- Source `ShortRegexpString` for the reverse sort `srt`: the returned
pattern. -/
def ShortRegexpStringWith (srt : List Str → List Str) (vs : List Str) : Outcome Str :=
  (ShortRegexpStringFuelWith srt (weight vs + 1) vs).map Prod.fst

/-- The working slice of the suffix pass for the reverse sort `srt`. -/
def suffixViewWith (srt : List Str → List Str) (vs : List Str) : List Str := removeDups (srt vs)

/-- The working slice of the prefix pass for the reverse sort `srt`. -/
def prefixViewWith (srt : List Str → List Str) (vs : List Str) : List Str :=
  goSort strLess (suffixViewWith srt vs)

/-- The general case for the reverse sort `srt`, with the two candidate maps
iterated in the orders `cs` and `cp`, as a Go `range` over a map may do. -/
def generalCaseOrdWith (srt : List Str → List Str) (self : List Str → Outcome Str)
    (vs : List Str) (cs cp : List (Str × commonSs)) : Outcome (Str × List Str) :=
  let b0 : Best := ⟨naiveCost vs, [], false⟩
  let sorted := srt vs
  let mem := removeDupsInPlace sorted
  let vs1 := mem.1.take mem.2
  do
    let b1 ← suffixPass self vs1 cs b0
    let vs2 := goSort strLess vs1
    let b2 ← prefixPass self vs2 cp b1
    if b2.found then pure (b2.best, vs2 ++ mem.1.drop mem.2)
    else pure (joinBar (vs2.map QuoteMeta), vs2.map QuoteMeta ++ mem.1.drop mem.2)

/-- Lines 105-113 for the reverse sort `srt`: return the best candidate if
there is one, else escape the arguments in place and join them with a bar. -/
def finishWith (srt : List Str → List Str) (vs : List Str) (b : Best) :
    Outcome (Str × List Str) :=
  let mem := removeDupsInPlace (srt vs)
  if b.found then pure (b.best, prefixViewWith srt vs ++ mem.1.drop mem.2)
  else pure (joinBar ((prefixViewWith srt vs).map QuoteMeta),
    (prefixViewWith srt vs).map QuoteMeta ++ mem.1.drop mem.2)

/-- The outcomes of `ShortRegexpString` for the reverse sort `srt` when every
call, the nested ones too, may visit the entries of its two candidate maps in
any order. -/
def ShortRegexpStringAny (srt : List Str → List Str) : Nat → List Str → Outcome Str → Prop
  | 0, _, o => o = .outOfFuel
  | fuel + 1, vs, o =>
    match vs with
    | [] => o = .ok unmatchable
    | [v] => o = .ok (QuoteMeta v)
    | _ => ∃ (self : List Str → Outcome Str) (cs cp : List (Str × commonSs)),
        (∀ l, ShortRegexpStringAny srt fuel l (self l)) ∧
        cs.Perm (commonSuffixes (suffixViewWith srt vs) 2) ∧
        cp.Perm (commonPrefixes (prefixViewWith srt vs) 2) ∧
        o = (generalCaseOrdWith srt self vs cs cp).map Prod.fst

/-! # Theorems -/

/-! ## Outcome -/

theorem Outcome.bind_eq_ok {α β : Type} {x : Outcome α} {f : α → Outcome β} {b : β} :
    Outcome.bind x f = .ok b ↔ ∃ a, x = .ok a ∧ f a = .ok b := by
  cases x <;> simp [Outcome.bind]

theorem Outcome.map_eq_ok {α β : Type} {x : Outcome α} {f : α → β} {b : β} :
    Outcome.map f x = .ok b ↔ ∃ a, x = .ok a ∧ f a = b := by
  cases x <;> simp [Outcome.map]

theorem Outcome.bind_def {α β : Type} (x : Outcome α) (f : α → Outcome β) :
    (x >>= f) = Outcome.bind x f := rfl

theorem Outcome.pure_def {α : Type} (a : α) : (pure a : Outcome α) = .ok a := rfl

/-! ## Sorting -/

theorem sortInsert_perm {α : Type} (less : α → α → Bool) (x : α) (l : List α) :
    (sortInsert less x l).Perm (x :: l) := by
  induction l with
  | nil => simp [sortInsert]
  | cons y ys ih =>
    unfold sortInsert
    split
    · exact (List.Perm.cons y ih).trans (List.Perm.swap x y ys)
    · exact List.Perm.refl _

theorem sortFold_perm {α : Type} (less : α → α → Bool) (vs : List α) :
    ∀ acc : List α, (vs.foldl (fun acc x => sortInsert less x acc) acc).Perm (vs ++ acc) := by
  induction vs with
  | nil => intro acc; simp
  | cons x xs ih =>
    intro acc
    simp only [List.foldl_cons]
    refine (ih _).trans ?_
    refine (List.Perm.append_left xs (sortInsert_perm less x acc)).trans ?_
    simp

/-- The sort rearranges its input. -/
theorem goSort_perm {α : Type} (less : α → α → Bool) (vs : List α) :
    (goSort less vs).Perm vs := by
  unfold goSort
  refine (List.reverse_perm _).trans ?_
  simpa using sortFold_perm less vs []

/-! ## The cost comparison -/

theorem naiveCost_fold (vs : List Str) (c : Int) :
    vs.foldl (fun c v => c + (((QuoteMeta v).length : Int) + 1)) c =
      c + ((vs.map fun v => (QuoteMeta v).length).sum : Nat) + vs.length := by
  induction vs generalizing c with
  | nil => simp
  | cons v vs ih =>
    simp only [List.foldl_cons, ih, List.map_cons, List.sum_cons, List.length_cons]
    push_cast
    ring

/-- The baseline is the sum of the escaped lengths plus the separators. -/
theorem naiveCost_eq (vs : List Str) :
    naiveCost vs = ((vs.map fun v => (QuoteMeta v).length).sum : Nat) + ((vs.length : Int) - 1) := by
  unfold naiveCost
  rw [naiveCost_fold]
  ring

theorem strLess_nil_right (s : Str) : strLess s [] = false := by
  cases s <;> rfl

theorem Best.consider_inv (N : Int) (b : Best) (str : Str) (h : b.Inv N) :
    (b.consider str).Inv N := by
  unfold Best.consider
  split
  · rename_i hc
    refine ⟨fun _ => ⟨rfl, ?_⟩, fun hf => by simp at hf⟩
    cases hfound : b.found with
    | true =>
      have := (h.1 hfound).2
      rcases hc with hc | ⟨hc, _⟩ <;> simp only [] <;> omega
    | false =>
      have hb := h.2 hfound
      rcases hc with hc | ⟨_, hc⟩
      · simp only []; omega
      · rw [hb.2, strLess_nil_right] at hc; simp at hc
  · exact h

theorem suffixPass_inv (self : List Str → Outcome Str) (vs : List Str) (N : Int) :
    ∀ (cands : List (Str × commonSs)) (b b1 : Best), b.Inv N →
      suffixPass self vs cands b = .ok b1 → b1.Inv N := by
  intro cands
  induction cands with
  | nil =>
    intro b b1 hb h
    simp only [suffixPass, Outcome.ok.injEq] at h
    exact h ▸ hb
  | cons c cands ih =>
    intro b b1 hb h
    obtain ⟨sfx, loc⟩ := c
    simp only [suffixPass, Outcome.bind_def, Outcome.bind_eq_ok] at h
    obtain ⟨pfx, _, str, _, h3⟩ := h
    exact ih _ _ (Best.consider_inv N b str hb) h3

theorem prefixPass_inv (self : List Str → Outcome Str) (vs : List Str) (N : Int) :
    ∀ (cands : List (Str × commonSs)) (b b1 : Best), b.Inv N →
      prefixPass self vs cands b = .ok b1 → b1.Inv N := by
  intro cands
  induction cands with
  | nil =>
    intro b b1 hb h
    simp only [prefixPass, Outcome.ok.injEq] at h
    exact h ▸ hb
  | cons c cands ih =>
    intro b b1 hb h
    obtain ⟨pfx, loc⟩ := c
    simp only [prefixPass, Outcome.bind_def, Outcome.bind_eq_ok] at h
    obtain ⟨sfx, _, str, _, h3⟩ := h
    exact ih _ _ (Best.consider_inv N b str hb) h3

/-! ## The fallback -/

theorem joinBar_cons_cons (a b : Str) (l : List Str) :
    joinBar (a :: b :: l) = a ++ 124 :: joinBar (b :: l) := by
  simp [joinBar, List.intercalate, List.intersperse]

theorem joinBar_length (l : List Str) :
    ((joinBar l).length : Int) ≤ ((l.map List.length).sum : Nat) + ((l.length : Int) - 1) + 
      (if l = [] then 1 else 0) := by
  induction l with
  | nil => simp [joinBar, List.intercalate]
  | cons a l ih =>
    cases l with
    | nil => simp [joinBar, List.intercalate]
    | cons b l =>
      rw [joinBar_cons_cons]
      simp only [List.length_append, List.length_cons, List.map_cons, List.sum_cons] at ih ⊢
      simp at ih ⊢
      omega

/-! ## removeDups -/

theorem destutter'_head_tail (x : Str) (l : List Str) :
    List.destutter' (· ≠ ·) x l = x :: (List.destutter' (· ≠ ·) x l).tail := by
  induction l generalizing x with
  | nil => simp
  | cons y l ih =>
    by_cases h : x ≠ y
    · rw [List.destutter'_cons_pos _ h]; simp
    · rw [List.destutter'_cons_neg _ h]; exact ih x

theorem removeDups_loop (R : List Str) :
    ∀ (K J L : List Str) (x : Str) (p s : Nat), p = K.length → s = (K ++ J).length →
      K ++ J = L ++ [x] →
      ∃ J1 : List Str,
        (List.range' s R.length).foldl removeDupsStep (K ++ J ++ R, p) =
          (K ++ (List.destutter' (· ≠ ·) x R).tail ++ J1,
            p + (List.destutter' (· ≠ ·) x R).tail.length) := by
  induction R with
  | nil => intro K J L x p s _ _ _; exact ⟨J, by simp⟩
  | cons y R ih =>
    intro K J L x p s hp hs hx
    have hsL : s = L.length + 1 := by rw [hs, hx]; simp
    have hprev : (K ++ J ++ y :: R).getD (s - 1) [] = x := by
      rw [hx, hsL]
      rw [List.getD_eq_getElem?_getD, List.append_assoc,
        List.getElem?_append_right (by simp)]
      simp
    have hcur : (K ++ J ++ y :: R).getD s [] = y := by
      rw [hx, hsL]
      rw [List.getD_eq_getElem?_getD, List.getElem?_append_right (by simp)]
      simp
    simp only [List.length_cons, List.range'_succ, List.foldl_cons]
    by_cases hxy : x ≠ y
    · have hstep : removeDupsStep (K ++ J ++ y :: R, p) s =
          ((K ++ J ++ y :: R).set p y, p + 1) := by
        simp only [removeDupsStep, hprev, hcur, if_pos hxy]
      rw [hstep, List.destutter'_cons_pos _ hxy, List.tail_cons, destutter'_head_tail y R]
      cases J with
      | nil =>
        have hset : (K ++ [] ++ y :: R).set p y = (K ++ [y]) ++ [] ++ R := by
          rw [hp]; simp [List.set_append]
        obtain ⟨J1, h1⟩ := ih (K ++ [y]) [] K y (p + 1) (s + 1) (by simp [hp])
          (by simp [hs]) (by simp)
        refine ⟨J1, ?_⟩
        rw [hset, h1]
        simp [Nat.add_assoc, Nat.add_comm]
      | cons j J2 =>
        have hset : (K ++ j :: J2 ++ y :: R).set p y = (K ++ [y]) ++ (J2 ++ [y]) ++ R := by
          rw [hp]; simp [List.set_append]
        obtain ⟨J1, h1⟩ := ih (K ++ [y]) (J2 ++ [y]) (K ++ [y] ++ J2) y (p + 1) (s + 1)
          (by simp [hp]) (by simp [hs]; omega) (by simp)
        refine ⟨J1, ?_⟩
        rw [hset, h1]
        simp [Nat.add_assoc, Nat.add_comm]
    · have hstep : removeDupsStep (K ++ J ++ y :: R, p) s = (K ++ J ++ y :: R, p) := by
        simp only [removeDupsStep, hprev, hcur, if_neg hxy]
      have hyx : y = x := by simpa [eq_comm] using hxy
      rw [hstep, List.destutter'_cons_neg _ hxy]
      obtain ⟨J1, h1⟩ := ih K (J ++ [y]) (K ++ J) x p (s + 1) hp (by simp [hs]; omega)
        (by simp [hyx])
      refine ⟨J1, ?_⟩
      have ha : K ++ J ++ y :: R = K ++ (J ++ [y]) ++ R := by simp
      rw [ha, h1]

/-- The slice returned by `removeDups` keeps the first string of every run of
equal neighbours. -/
theorem removeDups_eq_destutter (vs : List Str) :
    removeDups vs = vs.destutter (· ≠ ·) := by
  cases vs with
  | nil => simp [removeDups, removeDupsInPlace]
  | cons v rest =>
    obtain ⟨J1, h⟩ := removeDups_loop rest [v] [] [] v 1 1 rfl rfl rfl
    have h2 : removeDupsInPlace (v :: rest) =
        ([v] ++ (List.destutter' (· ≠ ·) v rest).tail ++ J1,
          1 + (List.destutter' (· ≠ ·) v rest).tail.length) := by
      have h3 : removeDupsInPlace (v :: rest) =
          (List.range' 1 rest.length).foldl removeDupsStep (v :: rest, 1) := rfl
      rw [h3]
      simpa using h
    rw [removeDups, h2, List.destutter_cons']
    conv_rhs => rw [destutter'_head_tail v rest]
    exact List.take_left' (by simp [Nat.add_comm])

theorem removeDups_take (vs : List Str) :
    (removeDupsInPlace vs).1.take (removeDupsInPlace vs).2 = vs.destutter (· ≠ ·) :=
  removeDups_eq_destutter vs

theorem quoteSum_le_of_sublist {l1 l2 : List Str} (h : l1.Sublist l2) :
    (l1.map fun v => (QuoteMeta v).length).sum ≤ (l2.map fun v => (QuoteMeta v).length).sum :=
  List.Sublist.sum_le_sum (h.map _) (fun _ _ => Nat.zero_le _)

/-- The general case never returns a pattern longer than the baseline. -/
theorem generalCase_length (self : List Str → Outcome Str) (vs : List Str) (r : Str)
    (m : List Str) (h2 : 2 ≤ vs.length) (h : generalCase self vs = .ok (r, m)) :
    (r.length : Int) ≤ naiveCost vs := by
  simp only [generalCase, Outcome.bind_def, Outcome.bind_eq_ok, removeDups_take] at h
  obtain ⟨b1, h1, b2, hb2, h3⟩ := h
  have inv0 : Best.Inv (naiveCost vs) ⟨naiveCost vs, [], false⟩ :=
    ⟨fun hf => by simp at hf, fun _ => ⟨rfl, rfl⟩⟩
  have inv1 := suffixPass_inv self _ (naiveCost vs) _ _ _ inv0 h1
  have inv2 := prefixPass_inv self _ (naiveCost vs) _ _ _ inv1 hb2
  by_cases hf : b2.found = true
  · rw [if_pos hf, Outcome.pure_def] at h3
    simp only [Outcome.ok.injEq, Prod.mk.injEq] at h3
    have := inv2.1 hf
    rw [← h3.1]
    omega
  · rw [if_neg hf, Outcome.pure_def] at h3
    simp only [Outcome.ok.injEq, Prod.mk.injEq] at h3
    rw [← h3.1]
    set sorted := goSort reverseStrings.Less vs with hsorted
    set vs1 := sorted.destutter (· ≠ ·) with hvs1
    set vs2 := goSort strLess vs1 with hvs2
    have hp2 : vs2.Perm vs1 := goSort_perm _ _
    have hsub : vs1.Sublist sorted := List.destutter_sublist _ _
    have hp0 : sorted.Perm vs := goSort_perm _ _
    have hsum : (vs2.map fun v => (QuoteMeta v).length).sum ≤
        (vs.map fun v => (QuoteMeta v).length).sum := by
      rw [(hp2.map _).sum_eq, ← (hp0.map _).sum_eq]
      exact quoteSum_le_of_sublist hsub
    have hlen : vs2.length ≤ vs.length := by
      rw [hp2.length_eq, ← hp0.length_eq]
      exact hsub.length_le
    have hj := joinBar_length (vs2.map QuoteMeta)
    rw [List.map_map, List.length_map] at hj
    have hcomp : (List.length ∘ QuoteMeta) = fun v => (QuoteMeta v).length := rfl
    rw [hcomp] at hj
    rw [naiveCost_eq]
    by_cases he : vs2 = []
    · have hz : (joinBar (List.map QuoteMeta vs2)).length = 0 := by
        simp [he, joinBar, List.intercalate]
      rw [hz]
      have h2i : (2 : Int) ≤ vs.length := by exact_mod_cast h2
      omega
    · have he2 : List.map QuoteMeta vs2 ≠ [] := by simpa using he
      rw [if_neg he2] at hj
      have : ((vs2.map fun v => (QuoteMeta v).length).sum : Int) ≤
          ((vs.map fun v => (QuoteMeta v).length).sum : Nat) := by exact_mod_cast hsum
      have : (vs2.length : Int) ≤ vs.length := by exact_mod_cast hlen
      omega

theorem ShortRegexpStringFuel_general (fuel : Nat) (a b : Str) (t : List Str) :
    ShortRegexpStringFuel (fuel + 1) (a :: b :: t) =
      generalCase (fun l => (ShortRegexpStringFuel fuel l).map Prod.fst) (a :: b :: t) := rfl


/-! ## The byte order of strings -/

theorem strLess_irrefl (a : Str) : strLess a a = false := by
  induction a with
  | nil => rfl
  | cons x a ih => simp [strLess, ih]

theorem strLess_trans : ∀ (a b c : Str), strLess a b = true → strLess b c = true →
    strLess a c = true := by
  intro a
  induction a with
  | nil =>
    intro b c hab hbc
    cases b with
    | nil => simp [strLess] at hab
    | cons y b =>
      cases c with
      | nil => simp [strLess] at hbc
      | cons z c => rfl
  | cons x a ih =>
    intro b c hab hbc
    cases b with
    | nil => simp [strLess] at hab
    | cons y b =>
      cases c with
      | nil => simp [strLess] at hbc
      | cons z c =>
        simp only [strLess] at hab hbc ⊢
        by_cases hxy : x < y
        · by_cases hyz : y < z
          · have : x < z := by omega
            simp [this]
          · by_cases hzy : z < y
            · simp [hyz, hzy] at hbc
            · have : y = z := by omega
              subst this
              simp [hxy]
        · by_cases hyx : y < x
          · simp [hxy, hyx] at hab
          · have hxy2 : x = y := by omega
            subst hxy2
            simp only [hxy, if_false] at hab
            by_cases hxz : x < z
            · simp [hxz]
            · by_cases hzx : z < x
              · simp [hxz, hzx] at hbc
              · simp only [hxz, hzx, if_false] at hbc ⊢
                exact ih b c hab hbc

theorem strLess_total : ∀ (a b : Str), a ≠ b → strLess a b = true ∨ strLess b a = true := by
  intro a
  induction a with
  | nil =>
    intro b h
    cases b with
    | nil => exact absurd rfl h
    | cons y b => exact Or.inl rfl
  | cons x a ih =>
    intro b h
    cases b with
    | nil => exact Or.inr rfl
    | cons y b =>
      simp only [strLess]
      by_cases hxy : x < y
      · simp [hxy]
      · by_cases hyx : y < x
        · simp [hyx]
        · have hxy2 : x = y := by omega
          subst hxy2
          simp only [hxy, if_false]
          exact ih b (fun hab => h (by rw [hab]))

/-! ## Sorting by a strict total order -/

/-- Inserting into an ascending list keeps it ascending, when `less` is a strict
total order on the elements that satisfy `P`. -/
theorem sortInsert_sorted {α : Type} (less : α → α → Bool) (P : α → Prop)
    (hirr : ∀ a, P a → less a a = false)
    (htr : ∀ a b c, P a → P b → P c → less a b = true → less b c = true → less a c = true)
    (htot : ∀ a b, P a → P b → a ≠ b → less a b = true ∨ less b a = true)
    (x : α) (hx : P x) :
    ∀ l : List α, (∀ y ∈ l, P y) → l.Pairwise (fun y z => less y z = false) →
      (sortInsert less x l).Pairwise (fun y z => less y z = false) := by
  intro l
  induction l with
  | nil => intro _ _; simp [sortInsert]
  | cons y ys ih =>
    intro hP hs
    have hy : P y := hP y (List.mem_cons_self _ _)
    have hys : ∀ z ∈ ys, P z := fun z hz => hP z (List.mem_cons_of_mem _ hz)
    rw [List.pairwise_cons] at hs
    unfold sortInsert
    by_cases hxy : less x y = true
    · rw [if_pos hxy, List.pairwise_cons]
      refine ⟨?_, ih hys hs.2⟩
      intro z hz
      rcases List.mem_cons.mp ((sortInsert_perm less x ys).subset hz) with rfl | hz2
      · by_contra hyz
        have hyz2 : less y z = true := by simpa using hyz
        have := htr z y z hx hy hx hxy hyz2
        rw [hirr z hx] at this
        exact Bool.noConfusion this
      · exact hs.1 z hz2
    · rw [if_neg hxy, List.pairwise_cons]
      refine ⟨?_, List.pairwise_cons.mpr hs⟩
      intro z hz
      rcases List.mem_cons.mp hz with rfl | hz2
      · simpa using hxy
      · by_contra hxz
        have hxz2 : less x z = true := by simpa using hxz
        have hyz := hs.1 z hz2
        by_cases hyx : y = x
        · subst hyx
          rw [hxz2] at hyz
          exact Bool.noConfusion hyz
        · rcases htot y x hy hx hyx with h1 | h1
          · have := htr y x z hy hx (hys z hz2) h1 hxz2
            rw [this] at hyz
            exact Bool.noConfusion hyz
          · exact hxy h1

theorem sortFold_sorted {α : Type} (less : α → α → Bool) (P : α → Prop)
    (hirr : ∀ a, P a → less a a = false)
    (htr : ∀ a b c, P a → P b → P c → less a b = true → less b c = true → less a c = true)
    (htot : ∀ a b, P a → P b → a ≠ b → less a b = true ∨ less b a = true) :
    ∀ (vs acc : List α), (∀ y ∈ vs, P y) → (∀ y ∈ acc, P y) →
      acc.Pairwise (fun y z => less y z = false) →
      (vs.foldl (fun acc x => sortInsert less x acc) acc).Pairwise
        (fun y z => less y z = false) := by
  intro vs
  induction vs with
  | nil => intro acc _ _ h; exact h
  | cons x xs ih =>
    intro acc hvs hacc h
    simp only [List.foldl_cons]
    refine ih _ (fun y hy => hvs y (List.mem_cons_of_mem _ hy)) ?_
      (sortInsert_sorted less P hirr htr htot x (hvs x (List.mem_cons_self _ _)) acc hacc h)
    intro y hy
    rcases List.mem_cons.mp ((sortInsert_perm less x acc).subset hy) with rfl | h2
    · exact hvs y (List.mem_cons_self _ _)
    · exact hacc y h2

/-- The sorted list is ascending: no element is less than an earlier one. -/
theorem goSort_sorted {α : Type} (less : α → α → Bool) (P : α → Prop)
    (hirr : ∀ a, P a → less a a = false)
    (htr : ∀ a b c, P a → P b → P c → less a b = true → less b c = true → less a c = true)
    (htot : ∀ a b, P a → P b → a ≠ b → less a b = true ∨ less b a = true)
    (vs : List α) (hvs : ∀ y ∈ vs, P y) :
    (goSort less vs).Pairwise (fun a b => less b a = false) := by
  unfold goSort
  rw [List.pairwise_reverse]
  exact sortFold_sorted less P hirr htr htot vs [] hvs (by simp) List.Pairwise.nil

/-- Two ascending arrangements of the same elements are the same list. -/
theorem sorted_perm_unique {α : Type} (less : α → α → Bool) (P : α → Prop)
    (htot : ∀ a b, P a → P b → a ≠ b → less a b = true ∨ less b a = true) :
    ∀ (l1 l2 : List α), l1.Perm l2 → (∀ y ∈ l1, P y) →
      l1.Pairwise (fun a b => less b a = false) → l2.Pairwise (fun a b => less b a = false) →
      l1 = l2 := by
  intro l1
  induction l1 with
  | nil => intro l2 hp _ _ _; exact (List.Perm.nil_eq hp)
  | cons a t1 ih =>
    intro l2 hp hP h1 h2
    cases l2 with
    | nil => exact absurd hp.length_eq (by simp)
    | cons b t2 =>
      have hP2 : ∀ y ∈ b :: t2, P y := fun y hy => hP y (hp.symm.subset hy)
      have hab : a = b := by
        by_contra hne
        have ha : a ∈ t2 := by
          rcases List.mem_cons.mp (hp.subset (List.mem_cons_self a t1)) with h | h
          · exact absurd h hne
          · exact h
        have hb : b ∈ t1 := by
          rcases List.mem_cons.mp (hp.symm.subset (List.mem_cons_self b t2)) with h | h
          · exact absurd h.symm hne
          · exact h
        have e1 := (List.pairwise_cons.mp h1).1 b hb
        have e2 := (List.pairwise_cons.mp h2).1 a ha
        rcases htot a b (hP a (List.mem_cons_self _ _)) (hP2 b (List.mem_cons_self _ _)) hne
          with h | h
        · rw [h] at e2; exact Bool.noConfusion e2
        · rw [h] at e1; exact Bool.noConfusion e1
      subst hab
      rw [ih t2 (List.Perm.cons_inv hp) (fun y hy => hP y (List.mem_cons_of_mem _ hy))
        (List.pairwise_cons.mp h1).2 (List.pairwise_cons.mp h2).2]

/-- Sorting by a strict total order does not depend on the order of the input. -/
theorem goSort_perm_invariant {α : Type} (less : α → α → Bool) (P : α → Prop)
    (hirr : ∀ a, P a → less a a = false)
    (htr : ∀ a b c, P a → P b → P c → less a b = true → less b c = true → less a c = true)
    (htot : ∀ a b, P a → P b → a ≠ b → less a b = true ∨ less b a = true)
    (l1 l2 : List α) (hp : l1.Perm l2) (hP : ∀ y ∈ l1, P y) :
    goSort less l1 = goSort less l2 := by
  have hP2 : ∀ y ∈ l2, P y := fun y hy => hP y (hp.symm.subset hy)
  refine sorted_perm_unique less P htot _ _
    (((goSort_perm less l1).trans hp).trans (goSort_perm less l2).symm)
    (fun y hy => hP y ((goSort_perm less l1).subset hy))
    (goSort_sorted less P hirr htr htot l1 hP) (goSort_sorted less P hirr htr htot l2 hP2)

/-! ## UTF-8 encodings -/

/-- Decoding reads exactly the bytes of a well-formed encoding. -/
theorem decode_of_enc (c : Str) (r : Nat) (h : Enc c r) (rest : Str) :
    DecodeRuneInString (c ++ rest) = (r, c.length) := by
  rcases c with _ | ⟨b0, _ | ⟨b1, _ | ⟨b2, _ | ⟨b3, _ | ⟨b4, t⟩⟩⟩⟩⟩
  · exact absurd h (by simp [Enc])
  · simp only [Enc] at h
    obtain ⟨h0, rfl⟩ := h
    simp [DecodeRuneInString, h0]
  · simp only [Enc] at h
    obtain ⟨h0, h1, h2, h3, rfl⟩ := h
    have e1 : ¬ b0 < 128 := by omega
    have e2 : ¬ (b0 < 194 ∨ 244 < b0) := by omega
    have e3 : b0 < 224 := h1
    have e4 : b0 ≠ 224 := by omega
    have e5 : b0 ≠ 240 := by omega
    have e6 : b0 ≠ 237 := by omega
    have e7 : b0 ≠ 244 := by omega
    have e8 : ¬ (b1 < 128 ∨ 191 < b1) := by omega
    simp [DecodeRuneInString, e1, e2, e3, e4, e5, e6, e7, e8]
  · simp only [Enc] at h
    obtain ⟨h0, h1, h2, h3, h4, h5, h6, h7, rfl⟩ := h
    have e1 : ¬ b0 < 128 := by omega
    have e2 : ¬ (b0 < 194 ∨ 244 < b0) := by omega
    have e3 : ¬ b0 < 224 := by omega
    have e3b : b0 < 240 := h1
    have e5 : b0 ≠ 240 := by omega
    have e7 : b0 ≠ 244 := by omega
    have e9 : ¬ (b2 < 128 ∨ 191 < b2) := by omega
    by_cases e4 : b0 = 224
    · have e6 : b0 ≠ 237 := by omega
      have e8 : ¬ (b1 < 160 ∨ 191 < b1) := by have := h4 e4; omega
      simp [DecodeRuneInString, e1, e2, e3, e3b, e4, e8, e9]
    · by_cases e6 : b0 = 237
      · have e8 : ¬ (b1 < 128 ∨ 159 < b1) := by have := h5 e6; omega
        simp [DecodeRuneInString, e1, e2, e3, e3b, e6, e8, e9]
      · have e8 : ¬ (b1 < 128 ∨ 191 < b1) := by omega
        simp [DecodeRuneInString, e1, e2, e3, e3b, e4, e5, e6, e7, e8, e9]
  · simp only [Enc] at h
    obtain ⟨h0, h1, h2, h3, h4, h5, h6, h7, h8, h9, rfl⟩ := h
    have e1 : ¬ b0 < 128 := by omega
    have e2 : ¬ (b0 < 194 ∨ 244 < b0) := by omega
    have e3 : ¬ b0 < 224 := by omega
    have e3b : ¬ b0 < 240 := by omega
    have e4 : b0 ≠ 224 := by omega
    have e6 : b0 ≠ 237 := by omega
    have e9 : ¬ (b2 < 128 ∨ 191 < b2) := by omega
    have e10 : ¬ (b3 < 128 ∨ 191 < b3) := by omega
    by_cases e5 : b0 = 240
    · have e8 : ¬ (b1 < 144 ∨ 191 < b1) := by have := h4 e5; omega
      simp [DecodeRuneInString, e1, e2, e3, e3b, e5, e8, e9, e10]
    · by_cases e7 : b0 = 244
      · have e8 : ¬ (b1 < 128 ∨ 143 < b1) := by have := h5 e7; omega
        simp [DecodeRuneInString, e1, e2, e3, e3b, e7, e8, e9, e10]
      · have e8 : ¬ (b1 < 128 ∨ 191 < b1) := by omega
        simp [DecodeRuneInString, e1, e2, e3, e3b, e4, e5, e6, e7, e8, e9, e10]
  · exact absurd h (by simp [Enc])

/-- A decoding other than the error `(RuneError, 1)` has read a well-formed
encoding from the front of the string. -/
theorem enc_of_decode (s : Str) (r n : Nat) (hs : s ≠ [])
    (hd : DecodeRuneInString s = (r, n)) (hv : ¬ (r = RuneError ∧ n = 1)) :
    ∃ c rest, s = c ++ rest ∧ Enc c r ∧ c.length = n := by
  rcases s with _ | ⟨b0, t⟩
  · exact absurd rfl hs
  by_cases e1 : b0 < 128
  · simp [DecodeRuneInString, e1] at hd
    exact ⟨[b0], t, rfl, ⟨e1, hd.1.symm⟩, hd.2⟩
  by_cases e2 : b0 < 194 ∨ 244 < b0
  · simp [DecodeRuneInString, e1, e2] at hd
    exact absurd ⟨hd.1.symm, hd.2.symm⟩ hv
  rcases t with _ | ⟨b1, t1⟩
  · simp [DecodeRuneInString, e1, e2] at hd
    exact absurd ⟨hd.1.symm, hd.2.symm⟩ hv
  by_cases e3 : b0 < 224
  · -- two bytes
    have e4 : b0 ≠ 224 := by omega
    have e5 : b0 ≠ 240 := by omega
    have e6 : b0 ≠ 237 := by omega
    have e7 : b0 ≠ 244 := by omega
    have el : ¬ (t1.length + 1 + 1 < 2) := by omega
    by_cases e8 : b1 < 128 ∨ 191 < b1
    · simp [DecodeRuneInString, e1, e2, e3, e4, e5, e6, e7, e8] at hd
      exact absurd ⟨hd.1.symm, hd.2.symm⟩ hv
    · simp [DecodeRuneInString, e1, e2, e3, e4, e5, e6, e7, e8, el] at hd
      refine ⟨[b0, b1], t1, rfl, ?_, hd.2⟩
      simp only [Enc]
      refine ⟨by omega, e3, by omega, by omega, hd.1.symm⟩
  by_cases e3b : b0 < 240
  · -- three bytes
    have e5 : b0 ≠ 240 := by omega
    have e7 : b0 ≠ 244 := by omega
    rcases t1 with _ | ⟨b2, t2⟩
    · simp [DecodeRuneInString, e1, e2, e3, e3b] at hd
      exact absurd ⟨hd.1.symm, hd.2.symm⟩ hv
    have el : ¬ (t2.length + 1 + 1 + 1 < 3) := by omega
    by_cases e9 : b2 < 128 ∨ 191 < b2
    · simp [DecodeRuneInString, e1, e2, e3, e3b, e5, e7, e9, el] at hd
      exact absurd ⟨hd.1.symm, hd.2.symm⟩ hv
    by_cases e4 : b0 = 224
    · by_cases e8 : b1 < 160 ∨ 191 < b1
      · simp [DecodeRuneInString, e1, e2, e3, e3b, e4, e8, el] at hd
        exact absurd ⟨hd.1.symm, hd.2.symm⟩ hv
      · simp [DecodeRuneInString, e1, e2, e3, e3b, e4, e8, e9, el] at hd
        refine ⟨[b0, b1, b2], t2, rfl, ?_, hd.2⟩
        simp only [Enc]
        refine ⟨by omega, e3b, by omega, by omega, by omega, by omega, by omega, by omega, ?_⟩
        have := hd.1; omega
    · by_cases e6 : b0 = 237
      · by_cases e8 : b1 < 128 ∨ 159 < b1
        · simp [DecodeRuneInString, e1, e2, e3, e3b, e6, e8, el] at hd
          exact absurd ⟨hd.1.symm, hd.2.symm⟩ hv
        · simp [DecodeRuneInString, e1, e2, e3, e3b, e6, e8, e9, el] at hd
          refine ⟨[b0, b1, b2], t2, rfl, ?_, hd.2⟩
          simp only [Enc]
          refine ⟨by omega, e3b, by omega, by omega, by omega, by omega, by omega, by omega, ?_⟩
          have := hd.1; omega
      · by_cases e8 : b1 < 128 ∨ 191 < b1
        · simp [DecodeRuneInString, e1, e2, e3, e3b, e4, e5, e6, e7, e8, el] at hd
          exact absurd ⟨hd.1.symm, hd.2.symm⟩ hv
        · simp [DecodeRuneInString, e1, e2, e3, e3b, e4, e5, e6, e7, e8, e9, el] at hd
          refine ⟨[b0, b1, b2], t2, rfl, ?_, hd.2⟩
          simp only [Enc]
          exact ⟨by omega, e3b, by omega, by omega, by omega, by omega, by omega, by omega,
            hd.1.symm⟩
  -- four bytes
  have e4 : b0 ≠ 224 := by omega
  have e6 : b0 ≠ 237 := by omega
  rcases t1 with _ | ⟨b2, t2⟩
  · simp [DecodeRuneInString, e1, e2, e3, e3b] at hd
    exact absurd ⟨hd.1.symm, hd.2.symm⟩ hv
  rcases t2 with _ | ⟨b3, t3⟩
  · simp [DecodeRuneInString, e1, e2, e3, e3b] at hd
    exact absurd ⟨hd.1.symm, hd.2.symm⟩ hv
  have el : ¬ (t3.length + 1 + 1 + 1 + 1 < 4) := by omega
  by_cases e9 : b2 < 128 ∨ 191 < b2
  · simp [DecodeRuneInString, e1, e2, e3, e3b, e4, e6, e9, el] at hd
    exact absurd ⟨hd.1.symm, hd.2.symm⟩ hv
  by_cases e10 : b3 < 128 ∨ 191 < b3
  · simp [DecodeRuneInString, e1, e2, e3, e3b, e4, e6, e9, e10, el] at hd
    exact absurd ⟨hd.1.symm, hd.2.symm⟩ hv
  by_cases e5 : b0 = 240
  · by_cases e8 : b1 < 144 ∨ 191 < b1
    · simp [DecodeRuneInString, e1, e2, e3, e3b, e5, e8, el] at hd
      exact absurd ⟨hd.1.symm, hd.2.symm⟩ hv
    · simp [DecodeRuneInString, e1, e2, e3, e3b, e5, e8, e9, e10, el] at hd
      refine ⟨[b0, b1, b2, b3], t3, rfl, ?_, hd.2⟩
      simp only [Enc]
      refine ⟨by omega, by omega, by omega, by omega, by omega, by omega, by omega, by omega,
        by omega, by omega, ?_⟩
      have := hd.1; omega
  · by_cases e7 : b0 = 244
    · by_cases e8 : b1 < 128 ∨ 143 < b1
      · simp [DecodeRuneInString, e1, e2, e3, e3b, e7, e8, el] at hd
        exact absurd ⟨hd.1.symm, hd.2.symm⟩ hv
      · simp [DecodeRuneInString, e1, e2, e3, e3b, e7, e8, e9, e10, el] at hd
        refine ⟨[b0, b1, b2, b3], t3, rfl, ?_, hd.2⟩
        simp only [Enc]
        refine ⟨by omega, by omega, by omega, by omega, by omega, by omega, by omega, by omega,
          by omega, by omega, ?_⟩
        have := hd.1; omega
    · by_cases e8 : b1 < 128 ∨ 191 < b1
      · simp [DecodeRuneInString, e1, e2, e3, e3b, e4, e5, e6, e7, e8, el] at hd
        exact absurd ⟨hd.1.symm, hd.2.symm⟩ hv
      · simp [DecodeRuneInString, e1, e2, e3, e3b, e4, e5, e6, e7, e8, e9, e10, el] at hd
        refine ⟨[b0, b1, b2, b3], t3, rfl, ?_, hd.2⟩
        simp only [Enc]
        exact ⟨by omega, by omega, by omega, by omega, by omega, by omega, by omega, by omega,
          by omega, by omega, hd.1.symm⟩

/-- An encoding starts with a byte that `RuneStart` accepts and goes on with
continuation bytes. -/
theorem enc_shape (c : Str) (r : Nat) (h : Enc c r) :
    ∃ b0 cs, c = b0 :: cs ∧ RuneStart b0 = true ∧ ∀ b ∈ cs, RuneStart b = false := by
  rcases c with _ | ⟨b0, _ | ⟨b1, _ | ⟨b2, _ | ⟨b3, _ | ⟨b4, t⟩⟩⟩⟩⟩
  · exact absurd h (by simp [Enc])
  · simp only [Enc] at h
    exact ⟨b0, [], rfl, by simp [RuneStart]; omega, by simp⟩
  · simp only [Enc] at h
    refine ⟨b0, [b1], rfl, by simp [RuneStart]; omega, ?_⟩
    intro b hb
    simp only [List.mem_singleton] at hb
    subst hb
    simp [RuneStart]; omega
  · simp only [Enc] at h
    refine ⟨b0, [b1, b2], rfl, by simp [RuneStart]; omega, ?_⟩
    intro b hb
    simp only [List.mem_cons, List.mem_singleton, List.not_mem_nil, or_false] at hb
    rcases hb with rfl | rfl <;> (simp [RuneStart]; omega)
  · simp only [Enc] at h
    refine ⟨b0, [b1, b2, b3], rfl, by simp [RuneStart]; omega, ?_⟩
    intro b hb
    simp only [List.mem_cons, List.mem_singleton, List.not_mem_nil, or_false] at hb
    rcases hb with rfl | rfl | rfl <;> (simp [RuneStart]; omega)
  · exact absurd h (by simp [Enc])

theorem enc_ne_nil (c : Str) (r : Nat) (h : Enc c r) : c ≠ [] := by
  intro hc; subst hc; simp [Enc] at h

/-- The bytes determine the code point. -/
theorem enc_fun (c : Str) (r r1 : Nat) (h : Enc c r) (h1 : Enc c r1) : r = r1 := by
  have e := decode_of_enc c r h []
  have e1 := decode_of_enc c r1 h1 []
  rw [e] at e1
  exact (Prod.mk.inj e1).1

/-- The code point determines the bytes. -/
theorem enc_inj (c c1 : Str) (r : Nat) (h : Enc c r) (h1 : Enc c1 r) : c = c1 := by
  rcases c with _ | ⟨b0, _ | ⟨b1, _ | ⟨b2, _ | ⟨b3, _ | ⟨b4, t⟩⟩⟩⟩⟩ <;>
  rcases c1 with _ | ⟨d0, _ | ⟨d1, _ | ⟨d2, _ | ⟨d3, _ | ⟨d4, u⟩⟩⟩⟩⟩ <;>
  simp only [Enc] at h h1 <;>
  first
    | exact absurd h id
    | exact absurd h1 id
    | (exfalso; omega)
    | (have e0 : b0 = d0 := by omega
       subst e0
       first
         | rfl
         | (have e1 : b1 = d1 := by omega
            subst e1
            first
              | rfl
              | (have e2 : b2 = d2 := by omega
                 subst e2
                 first
                   | rfl
                   | (have e3 : b3 = d3 := by omega
                      subst e3
                      rfl))))

/-! ## The reverse order on valid UTF-8 strings -/

theorem getD_append_left' (a c : Str) (m : Nat) (h : m < a.length) :
    (a ++ c).getD m 0 = a.getD m 0 := by
  simp [List.getD_eq_getElem?_getD, List.getElem?_append_left h]

theorem getD_append_right' (a c : Str) (k : Nat) :
    (a ++ c).getD (a.length + k) 0 = c.getD k 0 := by
  simp [List.getD_eq_getElem?_getD, List.getElem?_append_right]

theorem backToRuneStart_append (a c : Str) :
    ∀ m, m < a.length → backToRuneStart (a ++ c) m = backToRuneStart a m := by
  intro m
  induction m with
  | zero => intro _; rfl
  | succ m ih =>
    intro h
    simp only [backToRuneStart, getD_append_left' a c (m + 1) h]
    rw [ih (by omega)]

/-- Inside the last encoding of a string the scan stops at its first byte. -/
theorem backToRuneStart_in_last (a : Str) (b0 : Nat) (cs : Str)
    (h0 : RuneStart b0 = true) (hcs : ∀ b ∈ cs, RuneStart b = false) :
    ∀ k, k ≤ cs.length → backToRuneStart (a ++ b0 :: cs) (a.length + k) = a.length := by
  intro k
  induction k with
  | zero =>
    intro _
    cases h : a.length with
    | zero => rfl
    | succ n =>
      have hb : (a ++ b0 :: cs).getD (n + 1) 0 = b0 := by
        rw [← h]
        have := getD_append_right' a (b0 :: cs) 0
        simpa using this
      show backToRuneStart (a ++ b0 :: cs) (n + 1) = n + 1
      rw [backToRuneStart, hb, h0]
      rfl
  | succ k ih =>
    intro hk
    have hb : (a ++ b0 :: cs).getD (a.length + k + 1) 0 = cs.getD k 0 := by
      have := getD_append_right' a (b0 :: cs) (k + 1)
      simpa [Nat.add_assoc] using this
    have hc : RuneStart (cs.getD k 0) = false := by
      apply hcs
      rw [List.getD_eq_getElem?_getD, List.getElem?_eq_getElem (by omega)]
      simp
    show backToRuneStart (a ++ b0 :: cs) (a.length + k + 1) = a.length
    simp only [backToRuneStart, hb, hc]
    exact ih (by omega)

theorem flatR_cons (p : Str × Nat) (A : List (Str × Nat)) : flatR (p :: A) = flatR A ++ p.1 := rfl

/-- In a string made of encodings, the scan back from any index stops at the
first byte of an encoding. -/
theorem backToRuneStart_boundary :
    ∀ (A : List (Str × Nat)), (∀ p ∈ A, Enc p.1 p.2) → ∀ m, m < (flatR A).length →
      ∃ pre ch r post, flatR A = pre ++ (ch ++ post) ∧ Enc ch r ∧
        backToRuneStart (flatR A) m = pre.length := by
  intro A
  induction A with
  | nil => intro _ m hm; simp [flatR] at hm
  | cons p A ih =>
    intro hA m hm
    have hp : Enc p.1 p.2 := hA p (List.mem_cons_self _ _)
    rw [flatR_cons] at hm ⊢
    by_cases hlt : m < (flatR A).length
    · obtain ⟨pre, ch, r, post, e, hch, hb⟩ :=
        ih (fun q hq => hA q (List.mem_cons_of_mem _ hq)) m hlt
      refine ⟨pre, ch, r, post ++ p.1, ?_, hch, ?_⟩
      · conv_lhs => rw [e]
        simp
      · rw [backToRuneStart_append _ _ m hlt, hb]
    · obtain ⟨b0, cs, hc, h0, hcs⟩ := enc_shape p.1 p.2 hp
      refine ⟨flatR A, p.1, p.2, [], by simp, hp, ?_⟩
      have hk : m = (flatR A).length + (m - (flatR A).length) := by omega
      rw [hk, hc]
      apply backToRuneStart_in_last _ _ _ h0 hcs
      rw [List.length_append, hc, List.length_cons] at hm
      omega

/-- In a string made of encodings, the code point decoded at the start found
from index `m` does not depend on what follows the string. -/
theorem decode_at_boundary (A : List (Str × Nat)) (hA : ∀ p ∈ A, Enc p.1 p.2) (m : Nat)
    (hm : m < (flatR A).length) (c : Str) :
    (DecodeRuneInString ((flatR A ++ c).drop (backToRuneStart (flatR A ++ c) m))).1 =
      (DecodeRuneInString ((flatR A).drop (backToRuneStart (flatR A) m))).1 := by
  obtain ⟨pre, ch, r, post, e, hch, hb⟩ := backToRuneStart_boundary A hA m hm
  rw [backToRuneStart_append _ _ m hm, hb]
  have e1 : (flatR A ++ c).drop pre.length = ch ++ (post ++ c) := by
    rw [e]; simp
  have e2 : (flatR A).drop pre.length = ch ++ post := by
    rw [e]; simp
  rw [e1, e2, decode_of_enc ch r hch, decode_of_enc ch r hch]

/-- Equal tails are skipped by the loop of `Less`. -/
theorem lessLoop_skip (a b c : Str) :
    ∀ k, k ≤ c.length →
      lessLoop (a ++ c) (b ++ c) (a.length + k) (b.length + k) =
        lessLoop (a ++ c) (b ++ c) a.length b.length := by
  intro k
  induction k with
  | zero => intro _; rfl
  | succ k ih =>
    intro hk
    show lessLoop (a ++ c) (b ++ c) (a.length + k + 1) (b.length + k + 1) = _
    rw [lessLoop, getD_append_right', getD_append_right']
    simp only [ne_eq, not_true_eq_false, if_false]
    exact ih (by omega)

/-- Below equal-length tails the loop of `Less` runs as on the strings without
the tails, when these are made of encodings. -/
theorem lessLoop_local (A B : List (Str × Nat)) (hA : ∀ p ∈ A, Enc p.1 p.2)
    (hB : ∀ p ∈ B, Enc p.1 p.2) (c d : Str) (hcd : c.length = d.length) :
    ∀ m n, m ≤ (flatR A).length → n ≤ (flatR B).length →
      lessLoop (flatR A ++ c) (flatR B ++ d) m n = lessLoop (flatR A) (flatR B) m n := by
  intro m
  induction m with
  | zero => intro n _ _; simp [lessLoop, hcd]
  | succ m ih =>
    intro n hm hn
    cases n with
    | zero => simp [lessLoop, hcd]
    | succ n =>
      rw [lessLoop, lessLoop, getD_append_left' _ _ m (by omega),
        getD_append_left' _ _ n (by omega), decode_at_boundary A hA m (by omega) c,
        decode_at_boundary B hB n (by omega) d, ih n (by omega) (by omega)]

theorem getD_mid (p s : Str) (x : Nat) : (p ++ x :: s).getD p.length 0 = x := by
  have := getD_append_right' p (x :: s) 0
  simpa using this

/-- When the last encodings of two strings differ, `Less` compares their code
points. -/
theorem lessLoop_last_differ (a b ca cb : Str) (ra rb : Nat) (ha : Enc ca ra) (hb : Enc cb rb) :
    ∀ (n : Nat) (pa pb s : Str), pa.length = n → pa ≠ [] → pb ≠ [] → ca = pa ++ s →
      cb = pb ++ s → ca ≠ cb →
      lessLoop (a ++ ca) (b ++ cb) (a.length + pa.length) (b.length + pb.length) =
        decide (ra < rb) := by
  obtain ⟨a0, as, hca, ha0, has⟩ := enc_shape ca ra ha
  obtain ⟨b0, bs, hcb, hb0, hbs⟩ := enc_shape cb rb hb
  intro n
  induction n with
  | zero => intro pa pb s hn hpa; exact absurd (List.length_eq_zero.mp hn) hpa
  | succ n ih =>
    intro pa pb s hn hpa hpb eca ecb hne
    obtain ⟨pa1, x, rfl⟩ : ∃ L x, pa = L ++ [x] := by
      rcases List.eq_nil_or_concat pa with h | ⟨L, x, h⟩
      · exact absurd h hpa
      · exact ⟨L, x, by simpa using h⟩
    obtain ⟨pb1, y, rfl⟩ : ∃ L y, pb = L ++ [y] := by
      rcases List.eq_nil_or_concat pb with h | ⟨L, y, h⟩
      · exact absurd h hpb
      · exact ⟨L, y, by simpa using h⟩
    have hla : (pa1 ++ [x]).length = pa1.length + 1 := by simp
    have hlb : (pb1 ++ [y]).length = pb1.length + 1 := by simp
    have hx : (a ++ ca).getD (a.length + pa1.length) 0 = x := by
      rw [getD_append_right', eca, List.append_assoc, List.singleton_append]
      exact getD_mid pa1 s x
    have hy : (b ++ cb).getD (b.length + pb1.length) 0 = y := by
      rw [getD_append_right', ecb, List.append_assoc, List.singleton_append]
      exact getD_mid pb1 s y
    rw [hla, hlb]
    show lessLoop (a ++ ca) (b ++ cb) (a.length + pa1.length + 1) (b.length + pb1.length + 1) = _
    rw [lessLoop, hx, hy]
    have hlca : pa1.length ≤ as.length := by
      have : ca.length = pa1.length + 1 + s.length := by rw [eca]; simp; omega
      rw [hca] at this; simp at this; omega
    have hlcb : pb1.length ≤ bs.length := by
      have : cb.length = pb1.length + 1 + s.length := by rw [ecb]; simp; omega
      rw [hcb] at this; simp at this; omega
    by_cases hxy : x = y
    · subst hxy
      simp only [ne_eq, not_true_eq_false, if_false]
      by_cases h1 : pa1 = []
      · by_cases h2 : pb1 = []
        · exact absurd (by rw [eca, ecb, h1, h2]) hne
        · -- x is the first byte of ca and a later byte of cb
          exfalso
          subst h1
          have e1 : a0 = x := by
            rw [hca] at eca; simp at eca; exact eca.1
          obtain ⟨q, qs, hq⟩ := List.exists_cons_of_ne_nil h2
          have e2 : x ∈ bs := by
            rw [hcb, hq] at ecb
            simp at ecb
            rw [ecb.2]; simp
          have := hbs x e2
          rw [← e1, ha0] at this
          exact Bool.noConfusion this
      · by_cases h2 : pb1 = []
        · exfalso
          subst h2
          have e1 : b0 = x := by
            rw [hcb] at ecb; simp at ecb; exact ecb.1
          obtain ⟨q, qs, hq⟩ := List.exists_cons_of_ne_nil h1
          have e2 : x ∈ as := by
            rw [hca, hq] at eca
            simp at eca
            rw [eca.2]; simp
          have := has x e2
          rw [← e1, hb0] at this
          exact Bool.noConfusion this
        · exact ih pa1 pb1 (x :: s) (by simpa using hn) h1 h2 (by rw [eca]; simp)
            (by rw [ecb]; simp) hne
    · rw [if_pos hxy]
      have ba : backToRuneStart (a ++ ca) (a.length + pa1.length) = a.length := by
        rw [hca]; exact backToRuneStart_in_last a a0 as ha0 has _ hlca
      have bb : backToRuneStart (b ++ cb) (b.length + pb1.length) = b.length := by
        rw [hcb]; exact backToRuneStart_in_last b b0 bs hb0 hbs _ hlcb
      rw [ba, bb, List.drop_left, List.drop_left]
      have da := decode_of_enc ca ra ha []
      have db := decode_of_enc cb rb hb []
      rw [List.append_nil] at da db
      rw [da, db]


theorem lessLoop_zero_right (a b : Str) (m : Nat) :
    lessLoop a b m 0 = decide (a.length < b.length) := by
  cases m <;> rfl

/-- On strings made of encodings `Less` is the lexicographic order of the code
points read from the end. -/
theorem less_flatR :
    ∀ (A B : List (Str × Nat)), (∀ p ∈ A, Enc p.1 p.2) → (∀ p ∈ B, Enc p.1 p.2) →
      reverseStrings.Less (flatR A) (flatR B) = strLess (A.map Prod.snd) (B.map Prod.snd) := by
  intro A
  induction A with
  | nil =>
    intro B _ hB
    cases B with
    | nil => rfl
    | cons q B =>
      have hq := enc_ne_nil q.1 q.2 (hB q (List.mem_cons_self _ _))
      have hl : 0 < (flatR (q :: B)).length := by
        rw [flatR_cons, List.length_append]
        have := List.length_pos.mpr hq
        omega
      simp [reverseStrings.Less, lessLoop, flatR, strLess]
      simpa [flatR] using hl
  | cons p A ih =>
    intro B hA hB
    have hp := hA p (List.mem_cons_self _ _)
    have hA1 : ∀ q ∈ A, Enc q.1 q.2 := fun q hq => hA q (List.mem_cons_of_mem _ hq)
    cases B with
    | nil =>
      have hl : 0 < (flatR (p :: A)).length := by
        rw [flatR_cons, List.length_append]
        have := List.length_pos.mpr (enc_ne_nil p.1 p.2 hp)
        omega
      simp [reverseStrings.Less, lessLoop_zero_right, strLess, flatR]
    | cons q B =>
      have hq := hB q (List.mem_cons_self _ _)
      have hB1 : ∀ r ∈ B, Enc r.1 r.2 := fun r hr => hB r (List.mem_cons_of_mem _ hr)
      simp only [List.map_cons, strLess]
      unfold reverseStrings.Less
      rw [flatR_cons, flatR_cons, List.length_append, List.length_append]
      by_cases hr : p.2 = q.2
      · have hc : p.1 = q.1 := enc_inj p.1 q.1 p.2 hp (hr ▸ hq)
        rw [← hc, lessLoop_skip _ _ _ _ (le_refl _), lessLoop_local A B hA1 hB1 _ _ rfl _ _
          (le_refl _) (le_refl _)]
        have := ih B hA1 hB1
        unfold reverseStrings.Less at this
        rw [this, ← hr]
        simp
      · have hc : p.1 ≠ q.1 := by
          intro hc
          exact hr (enc_fun p.1 p.2 q.2 hp (hc ▸ hq))
        rw [lessLoop_last_differ (flatR A) (flatR B) p.1 q.1 p.2 q.2 hp hq p.1.length p.1 q.1 []
          rfl (enc_ne_nil _ _ hp) (enc_ne_nil _ _ hq) (by simp) (by simp) hc]
        by_cases hlt : p.2 < q.2
        · simp [hlt]
        · have : q.2 < p.2 := by omega
          simp [hlt, this]

theorem flatR_reverse_eq :
    ∀ (cs : List (Str × Nat)), flatR cs.reverse = (cs.map Prod.fst).flatten := by
  intro cs
  induction cs with
  | nil => rfl
  | cons p cs ih =>
    have h : ∀ (A : List (Str × Nat)) (p : Str × Nat), flatR (A ++ [p]) = p.1 ++ flatR A := by
      intro A
      induction A with
      | nil => intro p; simp [flatR]
      | cons q A ihA => intro p; simp [flatR, ihA]
    rw [List.reverse_cons, h, ih]
    simp

/-- A valid string is spelled by the encodings that decoding reads off it. -/
theorem chunks_of_valid :
    ∀ (n : Nat) (s : Str), validLoop n s = true →
      (∀ p ∈ chunksLoop n s, Enc p.1 p.2) ∧ ((chunksLoop n s).map Prod.fst).flatten = s := by
  intro n
  induction n with
  | zero =>
    intro s h
    simp only [validLoop, decide_eq_true_eq] at h
    subst h
    simp [chunksLoop]
  | succ n ih =>
    intro s h
    cases s with
    | nil => simp [chunksLoop]
    | cons b t =>
      simp only [validLoop, Bool.and_eq_true, Bool.not_eq_true', Bool.and_eq_false_iff,
        decide_eq_false_iff_not] at h
      simp only [chunksLoop]
      generalize hd : DecodeRuneInString (b :: t) = d at h ⊢
      obtain ⟨r, k⟩ := d
      obtain ⟨hv, hrest⟩ := h
      obtain ⟨c, rest, e, hc, hl⟩ := enc_of_decode (b :: t) r k (by simp) hd
        (by intro hh; rcases hv with h1 | h1 <;> [exact h1 hh.1; exact h1 hh.2])
      have e1 : (b :: t).take k = c := by
        rw [← hl, e]; simp
      have e2 : (b :: t).drop k = rest := by
        rw [← hl, e]; simp
      simp only [e2] at hrest
      obtain ⟨i1, i2⟩ := ih rest hrest
      simp only [e1, e2]
      refine ⟨?_, ?_⟩
      · intro p hp
        rcases List.mem_cons.mp hp with rfl | hp
        · exact hc
        · exact i1 p hp
      · simp [i2, e]

/-- The code points of a valid string are read off encodings that spell it. -/
theorem valid_flatR (s : Str) (h : ValidString s = true) :
    ∃ A : List (Str × Nat), (∀ p ∈ A, Enc p.1 p.2) ∧ flatR A = s ∧
      A.map Prod.snd = (runes s).reverse := by
  obtain ⟨h1, h2⟩ := chunks_of_valid s.length s h
  refine ⟨(chunksLoop s.length s).reverse, ?_, ?_, ?_⟩
  · intro p hp; exact h1 p (List.mem_reverse.mp hp)
  · rw [flatR_reverse_eq, h2]
  · simp [runes, List.map_reverse]

/-- On valid UTF-8 strings `Less` is the lexicographic order of the code point
sequences read from the end. -/
theorem less_eq_strLess_runes (a b : Str) (ha : ValidString a = true)
    (hb : ValidString b = true) :
    reverseStrings.Less a b = strLess (runes a).reverse (runes b).reverse := by
  obtain ⟨A, hA, eA, rA⟩ := valid_flatR a ha
  obtain ⟨B, hB, eB, rB⟩ := valid_flatR b hb
  rw [← eA, ← eB, less_flatR A B hA hB, rA, rB, eA, eB]

theorem enc_list_inj :
    ∀ (A B : List (Str × Nat)), (∀ p ∈ A, Enc p.1 p.2) → (∀ p ∈ B, Enc p.1 p.2) →
      A.map Prod.snd = B.map Prod.snd → flatR A = flatR B := by
  intro A
  induction A with
  | nil =>
    intro B _ _ h
    cases B with
    | nil => rfl
    | cons q B => simp at h
  | cons p A ih =>
    intro B hA hB h
    cases B with
    | nil => simp at h
    | cons q B =>
      simp only [List.map_cons, List.cons.injEq] at h
      rw [flatR_cons, flatR_cons,
        ih B (fun r hr => hA r (List.mem_cons_of_mem _ hr))
          (fun r hr => hB r (List.mem_cons_of_mem _ hr)) h.2,
        enc_inj p.1 q.1 p.2 (hA p (List.mem_cons_self _ _))
          (h.1 ▸ hB q (List.mem_cons_self _ _))]

/-- Valid strings with the same code points are the same string. -/
theorem runes_inj (a b : Str) (ha : ValidString a = true) (hb : ValidString b = true)
    (h : runes a = runes b) : a = b := by
  obtain ⟨A, hA, eA, rA⟩ := valid_flatR a ha
  obtain ⟨B, hB, eB, rB⟩ := valid_flatR b hb
  rw [← eA, ← eB]
  exact enc_list_inj A B hA hB (by rw [rA, rB, h])

theorem less_irrefl (a : Str) (ha : ValidString a = true) : reverseStrings.Less a a = false := by
  rw [less_eq_strLess_runes a a ha ha, strLess_irrefl]

theorem less_trans (a b c : Str) (ha : ValidString a = true) (hb : ValidString b = true)
    (hc : ValidString c = true) (h1 : reverseStrings.Less a b = true)
    (h2 : reverseStrings.Less b c = true) : reverseStrings.Less a c = true := by
  rw [less_eq_strLess_runes _ _ ha hb] at h1
  rw [less_eq_strLess_runes _ _ hb hc] at h2
  rw [less_eq_strLess_runes _ _ ha hc]
  exact strLess_trans _ _ _ h1 h2

theorem less_total (a b : Str) (ha : ValidString a = true) (hb : ValidString b = true)
    (hne : a ≠ b) : reverseStrings.Less a b = true ∨ reverseStrings.Less b a = true := by
  rw [less_eq_strLess_runes _ _ ha hb, less_eq_strLess_runes _ _ hb ha]
  apply strLess_total
  intro h
  exact hne (runes_inj a b ha hb (List.reverse_injective h))

/-! ## Order independence -/

theorem weight_perm {l1 l2 : List Str} (h : l1.Perm l2) : weight l1 = weight l2 := by
  unfold weight
  rw [h.length_eq, (h.map _).sum_eq]

theorem naiveCost_perm {l1 l2 : List Str} (h : l1.Perm l2) : naiveCost l1 = naiveCost l2 := by
  rw [naiveCost_eq, naiveCost_eq, h.length_eq, (h.map _).sum_eq]

/-- The general case reads its arguments only through the baseline and the
reverse-sorted list. -/
theorem generalCase_congr (self : List Str → Outcome Str) (l1 l2 : List Str)
    (h1 : naiveCost l1 = naiveCost l2)
    (h2 : goSort reverseStrings.Less l1 = goSort reverseStrings.Less l2) :
    generalCase self l1 = generalCase self l2 := by
  simp only [generalCase, h1, h2]

theorem goSort_less_perm {l1 l2 : List Str} (h : l1.Perm l2)
    (hv : ∀ s ∈ l1, ValidString s = true) :
    goSort reverseStrings.Less l1 = goSort reverseStrings.Less l2 :=
  goSort_perm_invariant reverseStrings.Less (fun s => ValidString s = true)
    less_irrefl (fun a b c ha hb hc => less_trans a b c ha hb hc)
    (fun a b ha hb => less_total a b ha hb) l1 l2 h hv

theorem ShortRegexpStringFuel_perm (fuel : Nat) {l1 l2 : List Str} (h : l1.Perm l2)
    (hv : ∀ s ∈ l1, ValidString s = true) :
    ShortRegexpStringFuel fuel l1 = ShortRegexpStringFuel fuel l2 := by
  cases fuel with
  | zero => rfl
  | succ fuel =>
    match l1, l2, h, hv with
    | [], l2, h, _ => rw [List.nil_perm.mp h]
    | [v], l2, h, _ => rw [List.singleton_perm.mp h]
    | a :: b :: t, [], h, _ => exact absurd h.length_eq (by simp)
    | a :: b :: t, [v], h, _ => exact absurd h.length_eq (by simp)
    | a :: b :: t, c :: d :: u, h, hv =>
      rw [ShortRegexpStringFuel_general, ShortRegexpStringFuel_general]
      exact generalCase_congr _ _ _ (naiveCost_perm h) (goSort_less_perm h hv)

/-- C5: two lists of valid UTF-8 strings that are permutations of each other
give the same outcome, in particular the same pattern byte for byte. -/
theorem order_independent (vs1 vs2 : List Str) (hperm : vs1.Perm vs2)
    (hvalid : ∀ s ∈ vs1, ValidString s = true) :
    ShortRegexpString vs1 = ShortRegexpString vs2 := by
  unfold ShortRegexpString
  rw [weight_perm hperm, ShortRegexpStringFuel_perm _ hperm hvalid]

/-- C5 at the strings `abd`, U+00E9 (bytes 195 169), `abc` and `abc` in two
orders. -/
theorem order_independent_witness :
    [ascii "abd", [195, 169], ascii "abc", ascii "abc"].Perm
        [ascii "abc", ascii "abc", [195, 169], ascii "abd"] ∧
      (∀ s ∈ [ascii "abd", [195, 169], ascii "abc", ascii "abc"], ValidString s = true) ∧
      ShortRegexpString [ascii "abd", [195, 169], ascii "abc", ascii "abc"] =
        ShortRegexpString [ascii "abc", ascii "abc", [195, 169], ascii "abd"] :=
  ⟨by decide, by decide,
    order_independent [ascii "abd", [195, 169], ascii "abc", ascii "abc"]
      [ascii "abc", ascii "abc", [195, 169], ascii "abd"] (by decide) (by decide)⟩

/-! ## The fallback -/

theorem foldl_range_fixed {β : Type} (f : β → Nat → β) (b : β) :
    ∀ n, (∀ i, i < n → f b i = b) → (List.range n).foldl f b = b := by
  intro n
  induction n with
  | zero => intro _; rfl
  | succ n ih =>
    intro h
    rw [List.range_succ, List.foldl_append, ih (fun i hi => h i (by omega))]
    simpa using h n (by omega)

theorem commonPrefixLen_spec : ∀ (a b : Str),
    a.take (commonPrefixLen a b) <+: b ∧ commonPrefixLen a b ≤ a.length := by
  intro a
  induction a with
  | nil => intro b; simp [commonPrefixLen]
  | cons x a ih =>
    intro b
    cases b with
    | nil => simp [commonPrefixLen]
    | cons y b =>
      unfold commonPrefixLen
      by_cases h : x ≠ y
      · simp [h]
      · have hxy : x = y := by simpa using h
        subst hxy
        simp only [ne_eq, not_true_eq_false, if_false, List.take_succ_cons, List.length_cons]
        obtain ⟨h1, h2⟩ := ih b
        exact ⟨(List.prefix_cons_inj x).mpr h1, by omega⟩

/-- Without a shared prefix of two bytes the scan of `commonPrefixes` stops
before two bytes. -/
theorem commonPrefixLen_lt (a b : Str)
    (h : ∀ p : Str, 2 ≤ p.length → ¬ (p <+: a ∧ p <+: b)) : commonPrefixLen a b < 2 := by
  by_contra hk
  obtain ⟨h1, h2⟩ := commonPrefixLen_spec a b
  refine h (a.take (commonPrefixLen a b)) ?_ ⟨List.take_prefix _ _, h1⟩
  rw [List.length_take]
  omega

theorem commonSuffixLen_lt (a b : Str)
    (h : ∀ p : Str, 2 ≤ p.length → ¬ (p <:+ a ∧ p <:+ b)) : commonSuffixLen a b < 2 := by
  unfold commonSuffixLen
  apply commonPrefixLen_lt
  intro p hp hh
  refine h p.reverse (by simpa using hp) ⟨?_, ?_⟩
  · exact List.reverse_prefix.mp (by simpa using hh.1)
  · exact List.reverse_prefix.mp (by simpa using hh.2)

theorem getD_eq_get (l : List Str) (i : Nat) (h : i < l.length) :
    l.getD i [] = l.get ⟨i, h⟩ := by
  simp [List.getD_eq_getElem?_getD, List.getElem?_eq_getElem h]

theorem chain'_getD {R : Str → Str → Prop} (l : List Str) (hc : l.Chain' R) (i : Nat)
    (hi : i < l.length - 1) : R (l.getD i []) (l.getD (i + 1) []) := by
  rw [getD_eq_get l i (by omega), getD_eq_get l (i + 1) (by omega)]
  exact List.chain'_iff_get.mp hc i hi

theorem getD_mem (l : List Str) (i : Nat) (h : i < l.length) : l.getD i [] ∈ l := by
  rw [getD_eq_get l i h]
  exact List.get_mem _ _ _

/-- No neighbours with a shared suffix of two bytes: no suffix candidates. -/
theorem commonSuffixes_eq_nil (vs : List Str)
    (h : ∀ i, i < vs.length - 1 → commonSuffixLen (vs.getD i []) (vs.getD (i + 1) []) < 2) :
    commonSuffixes vs 2 = [] := by
  unfold commonSuffixes
  apply foldl_range_fixed
  intro i hi
  simp only [if_pos (h i hi)]

/-- No neighbours with a shared prefix of two bytes: no prefix candidates. -/
theorem commonPrefixes_eq_nil (vs : List Str)
    (h : ∀ i, i < vs.length - 1 → commonPrefixLen (vs.getD i []) (vs.getD (i + 1) []) < 2) :
    commonPrefixes vs 2 = [] := by
  unfold commonPrefixes
  apply foldl_range_fixed
  intro i hi
  simp only [if_pos (h i hi)]

theorem mem_destutter'_of_mem (l : List Str) :
    ∀ (a x : Str), x ∈ l → x ∈ List.destutter' (· ≠ ·) a l := by
  induction l with
  | nil => intro a x h; simp at h
  | cons b l ih =>
    intro a x h
    by_cases hab : a ≠ b
    · rw [List.destutter'_cons_pos _ hab]
      rcases List.mem_cons.mp h with rfl | h
      · exact List.mem_cons_of_mem _ (List.mem_destutter' _ _ _)
      · exact List.mem_cons_of_mem _ (ih b x h)
    · rw [List.destutter'_cons_neg _ hab]
      have e : a = b := by simpa using hab
      rcases List.mem_cons.mp h with rfl | h
      · rw [← e]; exact List.mem_destutter' _ _ _
      · exact ih a x h

/-- The slice returned by `removeDups` has the same elements. -/
theorem mem_destutter (l : List Str) (x : Str) :
    x ∈ l.destutter (· ≠ ·) ↔ x ∈ l := by
  constructor
  · exact fun h => (List.destutter_sublist _ l).subset h
  · intro h
    cases l with
    | nil => simp at h
    | cons a l =>
      rw [List.destutter_cons']
      rcases List.mem_cons.mp h with rfl | h
      · exact List.mem_destutter' _ _ _
      · exact mem_destutter'_of_mem l a x h


/-- An ascending list without equal neighbours is strictly ascending. -/
theorem strict_of_chain {α : Type} (less : α → α → Bool) (P : α → Prop)
    (htr : ∀ a b c, P a → P b → P c → less a b = true → less b c = true → less a c = true)
    (htot : ∀ a b, P a → P b → a ≠ b → less a b = true ∨ less b a = true) :
    ∀ (D : List α), (∀ x ∈ D, P x) → D.Pairwise (fun a b => less b a = false) →
      D.Chain' (· ≠ ·) → D.Pairwise (fun a b => less a b = true) := by
  intro D
  induction D with
  | nil => intro _ _ _; exact List.Pairwise.nil
  | cons a D ih =>
    intro hP hs hc
    have hPa : P a := hP a (List.mem_cons_self _ _)
    have hPD : ∀ x ∈ D, P x := fun x hx => hP x (List.mem_cons_of_mem _ hx)
    have hD := ih hPD (List.pairwise_cons.mp hs).2 (List.Chain'.tail hc)
    refine List.pairwise_cons.mpr ⟨?_, hD⟩
    cases D with
    | nil => intro b hb; simp at hb
    | cons d D =>
      have hne : a ≠ d := (List.chain'_cons.mp hc).1
      have had : less a d = true := by
        rcases htot a d hPa (hPD d (List.mem_cons_self _ _)) hne with h | h
        · exact h
        · have := (List.pairwise_cons.mp hs).1 d (List.mem_cons_self _ _)
          rw [h] at this
          exact Bool.noConfusion this
      intro b hb
      rcases List.mem_cons.mp hb with rfl | hb
      · exact had
      · exact htr a d b hPa (hPD d (List.mem_cons_self _ _)) (hPD b (List.mem_cons_of_mem _ hb))
          had ((List.pairwise_cons.mp hD).1 b hb)

/-- After the reverse sort and `removeDups` no string occurs twice, when the
arguments are valid UTF-8 or pairwise distinct. -/
theorem removeDups_nodup (vs : List Str)
    (h : (∀ s ∈ vs, ValidString s = true) ∨ vs.Nodup) :
    ((goSort reverseStrings.Less vs).destutter (· ≠ ·)).Nodup := by
  have hperm := goSort_perm reverseStrings.Less vs
  have hsub := List.destutter_sublist (· ≠ ·) (goSort reverseStrings.Less vs)
  rcases h with hv | hnd
  · have hsorted := goSort_sorted reverseStrings.Less (fun s => ValidString s = true)
      less_irrefl (fun a b c ha hb hc => less_trans a b c ha hb hc)
      (fun a b ha hb => less_total a b ha hb) vs hv
    have hP : ∀ x ∈ (goSort reverseStrings.Less vs).destutter (· ≠ ·), ValidString x = true :=
      fun x hx => hv x (hperm.subset (hsub.subset hx))
    have hstrict := strict_of_chain reverseStrings.Less (fun s => ValidString s = true)
      (fun a b c ha hb hc => less_trans a b c ha hb hc)
      (fun a b ha hb => less_total a b ha hb) _ hP (hsorted.sublist hsub)
      (List.destutter_is_chain' _ _)
    refine List.Pairwise.imp_of_mem ?_ hstrict
    intro a b ha _ hab e
    subst e
    rw [less_irrefl a (hP a ha)] at hab
    exact Bool.noConfusion hab
  · exact (hperm.nodup_iff.mpr hnd).sublist hsub

/-- Without candidates the general case returns the plain alternation of the
sorted, deduplicated strings. -/
theorem generalCase_fallback (self : List Str → Outcome Str) (vs : List Str)
    (hno : NoSharedAffix vs)
    (hnd : ((goSort reverseStrings.Less vs).destutter (· ≠ ·)).Nodup) :
    ∃ m, generalCase self vs =
      .ok (joinBar ((goSort strLess
        ((goSort reverseStrings.Less vs).destutter (· ≠ ·))).map QuoteMeta), m) := by
  have hperm := goSort_perm reverseStrings.Less vs
  have hsub := List.destutter_sublist (· ≠ ·) (goSort reverseStrings.Less vs)
  set vs1 := (goSort reverseStrings.Less vs).destutter (· ≠ ·) with hvs1
  have hmem1 : ∀ x ∈ vs1, x ∈ vs := fun x hx => hperm.subset (hsub.subset hx)
  have hperm2 := goSort_perm strLess vs1
  have hmem2 : ∀ x ∈ goSort strLess vs1, x ∈ vs := fun x hx => hmem1 x (hperm2.subset hx)
  have hs : commonSuffixes vs1 2 = [] := by
    apply commonSuffixes_eq_nil
    intro i hi
    apply commonSuffixLen_lt
    intro p hp
    exact (hno _ (hmem1 _ (getD_mem vs1 i (by omega))) _ (hmem1 _ (getD_mem vs1 (i + 1) (by omega)))
      (chain'_getD vs1 (List.destutter_is_chain' _ _) i hi) p hp).2
  have hp : commonPrefixes (goSort strLess vs1) 2 = [] := by
    apply commonPrefixes_eq_nil
    intro i hi
    apply commonPrefixLen_lt
    intro p hp
    have hnd2 : (goSort strLess vs1).Nodup := hperm2.nodup_iff.mpr hnd
    exact (hno _ (hmem2 _ (getD_mem _ i (by omega))) _ (hmem2 _ (getD_mem _ (i + 1) (by omega)))
      (chain'_getD _ (List.Pairwise.chain' hnd2) i hi) p hp).1
  simp only [generalCase, removeDups_take, ← hvs1, hs, hp, suffixPass, prefixPass,
    Outcome.bind_def, Outcome.bind, Outcome.pure_def]
  exact ⟨_, rfl⟩

theorem ShortRegexpString_fallback (vs : List Str) (h2 : 2 ≤ vs.length)
    (hno : NoSharedAffix vs)
    (hnd : ((goSort reverseStrings.Less vs).destutter (· ≠ ·)).Nodup) :
    ShortRegexpString vs =
      .ok (joinBar ((goSort strLess
        ((goSort reverseStrings.Less vs).destutter (· ≠ ·))).map QuoteMeta)) := by
  match vs, h2, hno, hnd with
  | a :: b :: t, _, hno, hnd =>
    obtain ⟨m, hm⟩ := generalCase_fallback
      (fun l => (ShortRegexpStringFuel (weight (a :: b :: t)) l).map Prod.fst) (a :: b :: t)
      hno hnd
    unfold ShortRegexpString
    rw [ShortRegexpStringFuel_general, hm]
    rfl

/-- A decidable test for `NoSharedAffix`: distinct strings differ in their
first two and in their last two bytes. -/
theorem noSharedAffix_of_take (vs : List Str)
    (h : ∀ a ∈ vs, ∀ b ∈ vs, a ≠ b →
      a.take 2 ≠ b.take 2 ∧ a.reverse.take 2 ≠ b.reverse.take 2) :
    NoSharedAffix vs := by
  have key : ∀ (p a : Str), 2 ≤ p.length → p <+: a → a.take 2 = p.take 2 := by
    intro p a hp hpa
    obtain ⟨t, rfl⟩ := hpa
    rw [List.take_append_of_le_length hp]
  intro a ha b hb hab p hp
  obtain ⟨h1, h2⟩ := h a ha b hb hab
  refine ⟨fun hh => h1 ?_, fun hh => h2 ?_⟩
  · rw [key p a hp hh.1, key p b hp hh.2]
  · have hp2 : 2 ≤ p.reverse.length := by simpa using hp
    rw [key p.reverse a.reverse hp2 (List.reverse_prefix.mpr hh.1),
      key p.reverse b.reverse hp2 (List.reverse_prefix.mpr hh.2)]

/-- For two or more strings that are valid UTF-8 or pairwise distinct, no two
distinct ones sharing a prefix or a suffix of two or more bytes, the result is
the plain alternation: the escaped distinct strings in ascending byte order
joined by bars. -/
theorem fallback_plain_alternation (vs : List Str) (h2 : 2 ≤ vs.length)
    (hv : (∀ s ∈ vs, ValidString s = true) ∨ vs.Nodup) (hno : NoSharedAffix vs) :
    IsPlainAlternation vs (ShortRegexpString vs) := by
  have hnd := removeDups_nodup vs hv
  have hperm := goSort_perm reverseStrings.Less vs
  have hperm2 := goSort_perm strLess ((goSort reverseStrings.Less vs).destutter (· ≠ ·))
  refine ⟨goSort strLess ((goSort reverseStrings.Less vs).destutter (· ≠ ·)), ?_, ?_,
    ShortRegexpString_fallback vs h2 hno hnd⟩
  · have hsorted := goSort_sorted strLess (fun _ => True) (fun a _ => strLess_irrefl a)
      (fun a b c _ _ _ => strLess_trans a b c) (fun a b _ _ => strLess_total a b)
      ((goSort reverseStrings.Less vs).destutter (· ≠ ·)) (fun _ _ => trivial)
    have hnd2 : (goSort strLess ((goSort reverseStrings.Less vs).destutter (· ≠ ·))).Pairwise
        (· ≠ ·) := hperm2.nodup_iff.mpr hnd
    refine (hsorted.and hnd2).imp ?_
    intro a b hab
    rcases strLess_total a b hab.2 with h | h
    · exact h
    · rw [h] at hab
      exact Bool.noConfusion hab.1
  · intro x
    rw [hperm2.mem_iff, mem_destutter, hperm.mem_iff]


/-- At the arguments z, x, y, x the result is `x|y|z`. -/
theorem fallback_plain_alternation_witness :
    2 ≤ [ascii "z", ascii "x", ascii "y", ascii "x"].length ∧
    ((∀ s ∈ [ascii "z", ascii "x", ascii "y", ascii "x"], ValidString s = true) ∨
      [ascii "z", ascii "x", ascii "y", ascii "x"].Nodup) ∧
    ShortRegexpString [ascii "z", ascii "x", ascii "y", ascii "x"] = .ok (ascii "x|y|z") ∧
    IsPlainAlternation [ascii "z", ascii "x", ascii "y", ascii "x"]
      (ShortRegexpString [ascii "z", ascii "x", ascii "y", ascii "x"]) :=
  ⟨by decide, Or.inl (by decide), by decide,
    fallback_plain_alternation [ascii "z", ascii "x", ascii "y", ascii "x"] (by decide)
      (Or.inl (by decide)) (noSharedAffix_of_take _ (by decide))⟩

/-- C10, failing input: the strings with the single bytes 0x80, 0x81, 0x80
share no prefix or suffix of two bytes.  `Less` orders none of them before
another (each decodes to `RuneError`), so the sort of line 73 leaves them in
place, the equal strings are not neighbours, `removeDups` (line 74), which
compares neighbours, keeps both, and the result repeats an alternative: bytes
80 7C 80 7C 81, not the alternation of the distinct strings. -/
theorem fallback_keeps_duplicate_of_invalid_utf8 :
    2 ≤ ([[128], [129], [128]] : List Str).length ∧
    NoSharedAffix [[128], [129], [128]] ∧
    reverseStrings.Less [128] [129] = false ∧ reverseStrings.Less [129] [128] = false ∧
    goSort reverseStrings.Less [[128], [129], [128]] = [[128], [129], [128]] ∧
    removeDups [[128], [129], [128]] = [[128], [129], [128]] ∧
    ShortRegexpString [[128], [129], [128]] = .ok [128, 124, 128, 124, 129] ∧
    ¬ IsPlainAlternation [[128], [129], [128]] (ShortRegexpString [[128], [129], [128]]) := by
  have hres : ShortRegexpString [[128], [129], [128]] = .ok [128, 124, 128, 124, 129] := by
    decide
  refine ⟨by decide, noSharedAffix_of_take _ (by decide), by decide, by decide, by decide,
    by decide, hres, ?_⟩
  rintro ⟨l, hpw, hmem, heq⟩
  rw [hres] at heq
  have hval : ∀ x ∈ l, x = [128] ∨ x = [129] := by
    intro x hx
    have := (hmem x).mp hx
    simp only [List.mem_cons, List.mem_singleton, List.not_mem_nil, or_false] at this
    rcases this with h | h | h
    · exact Or.inl h
    · exact Or.inr h
    · exact Or.inl h
  rcases l with _ | ⟨a, _ | ⟨b, _ | ⟨c, rest⟩⟩⟩
  · exact absurd heq (by decide)
  · rcases hval a (by simp) with rfl | rfl <;> exact absurd heq (by decide)
  · rcases hval a (by simp) with rfl | rfl <;> rcases hval b (by simp) with rfl | rfl <;>
      exact absurd heq (by decide)
  · have hab : strLess a b = true := (List.pairwise_cons.mp hpw).1 b (by simp)
    have hbc : strLess b c = true :=
      (List.pairwise_cons.mp (List.pairwise_cons.mp hpw).2).1 c (by simp)
    rcases hval a (by simp) with rfl | rfl <;> rcases hval b (by simp) with rfl | rfl <;>
      rcases hval c (by simp) with rfl | rfl <;>
      first
        | exact absurd hab (by decide)
        | exact absurd hbc (by decide)

/-! ## Termination: the recursion budget is never used up -/

theorem findFirstLoop_bounds (vs : List Str) (p : Str → Bool) :
    ∀ (n : Nat) (l h : Int), -1 ≤ l → l < h →
      l < findFirstLoop vs p n l h ∧ findFirstLoop vs p n l h ≤ h := by
  intro n
  induction n with
  | zero => intro l h _ hlh; exact ⟨hlh, le_refl _⟩
  | succ n ih =>
    intro l h hl hlh
    unfold findFirstLoop
    by_cases hc : l + 1 < h
    · simp only [if_pos hc]
      have hm : l < (l + h) / 2 ∧ (l + h) / 2 < h := by omega
      split
      · have := ih l ((l + h) / 2) hl hm.1
        exact ⟨this.1, by omega⟩
      · have := ih ((l + h) / 2) h (by omega) hm.2
        exact ⟨by omega, this.2⟩
    · simp only [if_neg hc]
      exact ⟨hlh, le_refl _⟩

/-- The index returned by `findFirst` lies in `0 .. len(vs)`. -/
theorem findFirst_le (vs : List Str) (p : Str → Bool) : findFirst vs p ≤ vs.length := by
  unfold findFirst
  by_cases h : vs.length = 0
  · have : vs = [] := List.length_eq_zero.mp h
    subst this
    simp [findFirstLoop]
  · have := findFirstLoop_bounds vs p vs.length (-1) vs.length (le_refl _) (by omega)
    omega


theorem foldl_range_all {β : Type} (Q : β → Prop) (f : List β → Nat → List β) :
    ∀ n, (∀ (result : List β) (i : Nat), i < n → (∀ e ∈ result, Q e) →
      ∀ e ∈ f result i, Q e) → ∀ e ∈ (List.range n).foldl f [], Q e := by
  intro n
  induction n with
  | zero => intro _ e he; simp at he
  | succ n ih =>
    intro h
    rw [List.range_succ, List.foldl_append]
    simp only [List.foldl_cons, List.foldl_nil]
    exact h _ n (by omega) (ih (fun r i hi => h r i (by omega)))

theorem commonPrefixLen_le (a b : Str) : commonPrefixLen a b ≤ a.length :=
  (commonPrefixLen_spec a b).2

theorem commonSuffixes_good (vs : List Str) (minLength : Nat) :
    ∀ e ∈ commonSuffixes vs minLength, GoodEntry vs.length minLength e := by
  unfold commonSuffixes
  apply foldl_range_all
  intro result i hi hres e he
  simp only at he
  split at he
  · exact hres e he
  · rename_i hk
    split at he
    · exact hres e he
    · rcases List.mem_append.mp he with h | h
      · exact hres e h
      · simp only [List.mem_singleton] at h
        subst h
        have hle : commonSuffixLen (vs.getD i []) (vs.getD (i + 1) []) ≤ (vs.getD i []).length := by
          have := commonPrefixLen_le (vs.getD i []).reverse (vs.getD (i + 1) []).reverse
          simpa [commonSuffixLen] using this
        have hf : suffixStart (vs.take i) ((vs.getD i []).drop ((vs.getD i []).length -
            commonSuffixLen (vs.getD i []) (vs.getD (i + 1) []))) ≤ i := by
          unfold suffixStart
          split
          · omega
          · have := findFirst_le (vs.take i) (fun s => hasSuffix s ((vs.getD i []).drop
              ((vs.getD i []).length - commonSuffixLen (vs.getD i []) (vs.getD (i + 1) []))))
            rw [List.length_take] at this
            omega
        refine ⟨?_, ?_, ?_⟩
        · simp only [List.length_drop]; omega
        · simp only; omega
        · simp only; omega

theorem commonPrefixes_good (vs : List Str) (minLength : Nat) :
    ∀ e ∈ commonPrefixes vs minLength, GoodEntry vs.length minLength e := by
  unfold commonPrefixes
  apply foldl_range_all
  intro result i hi hres e he
  simp only at he
  split at he
  · exact hres e he
  · rename_i hk
    split at he
    · exact hres e he
    · rcases List.mem_append.mp he with h | h
      · exact hres e h
      · simp only [List.mem_singleton] at h
        subst h
        have hle := commonPrefixLen_le (vs.getD i []) (vs.getD (i + 1) [])
        have hf : prefixStart (vs.take i) ((vs.getD i []).take
            (commonPrefixLen (vs.getD i []) (vs.getD (i + 1) []))) ≤ i := by
          unfold prefixStart
          split
          · omega
          · have := findFirst_le (vs.take i) (fun s => hasPrefix s ((vs.getD i []).take
              (commonPrefixLen (vs.getD i []) (vs.getD (i + 1) []))))
            rw [List.length_take] at this
            omega
        refine ⟨?_, ?_, ?_⟩
        · simp only [List.length_take]; omega
        · simp only; omega
        · simp only; omega


theorem Outcome.bind_ne_outOfFuel {α β : Type} {x : Outcome α} {f : α → Outcome β}
    (hx : x ≠ .outOfFuel) (hf : ∀ a, x = .ok a → f a ≠ .outOfFuel) :
    Outcome.bind x f ≠ .outOfFuel := by
  cases x with
  | ok a => exact hf a rfl
  | panic => simp [Outcome.bind]
  | outOfFuel => exact absurd rfl hx

theorem slice_ne_outOfFuel {α : Type} (l : List α) (lo hi : Int) : slice l lo hi ≠ .outOfFuel := by
  unfold slice
  split <;> simp

theorem slice_length {α : Type} (l w : List α) (lo hi : Int) (h : slice l lo hi = .ok w) :
    0 ≤ lo ∧ lo ≤ hi ∧ hi ≤ l.length ∧ (w.length : Int) = hi - lo := by
  unfold slice at h
  split at h
  · rename_i hc
    simp only [Outcome.ok.injEq] at h
    subst h
    refine ⟨hc.1, hc.2.1, hc.2.2, ?_⟩
    rw [List.length_take, List.length_drop]
    omega
  · simp at h

theorem index_ne_outOfFuel {α : Type} (l : List α) (i : Nat) : index l i ≠ .outOfFuel := by
  unfold index
  split <;> simp

theorem index_ok {α : Type} (l : List α) (i : Nat) (a : α) (h : index l i = .ok a) :
    l.drop i = a :: l.drop (i + 1) := by
  unfold index at h
  split at h
  · rename_i b hb
    simp only [Outcome.ok.injEq] at h
    subst h
    rw [List.get?_eq_getElem?] at hb
    obtain ⟨hi, hb⟩ := List.getElem?_eq_some_iff.mp hb
    rw [List.drop_eq_getElem_cons hi, hb]
  · simp at h

theorem sharedPrefix_ne_outOfFuel (ignore : Nat) (vs : List Str) :
    sharedPrefix ignore vs ≠ .outOfFuel := by
  unfold sharedPrefix
  split
  · simp
  · simp
  · simp only
    split <;> exact slice_ne_outOfFuel _ _ _

theorem sharedSuffix_ne_outOfFuel (ignore : Nat) (vs : List Str) :
    sharedSuffix ignore vs ≠ .outOfFuel := by
  unfold sharedSuffix
  split
  · simp
  · simp
  · simp only
    split <;> exact slice_ne_outOfFuel _ _ _

theorem varyingOf_ne_outOfFuel (vs : List Str) (pfx sfx : Str) :
    ∀ (n start : Nat), varyingOf vs pfx sfx start n ≠ .outOfFuel := by
  intro n
  induction n with
  | zero => intro start; simp [varyingOf]
  | succ n ih =>
    intro start
    unfold varyingOf
    simp only [Outcome.bind_def]
    refine Outcome.bind_ne_outOfFuel (index_ne_outOfFuel _ _) (fun v _ => ?_)
    refine Outcome.bind_ne_outOfFuel (slice_ne_outOfFuel _ _ _) (fun w _ => ?_)
    refine Outcome.bind_ne_outOfFuel (ih _) (fun ws _ => ?_)
    simp [Outcome.pure_def]

theorem weight_append (l1 l2 : List Str) : weight (l1 ++ l2) = weight l1 + weight l2 := by
  simp [weight]; omega

theorem weight_cons (v : Str) (l : List Str) : weight (v :: l) = 1 + v.length + weight l := by
  simp [weight]; omega

theorem weight_pos_of_ne_nil (l : List Str) (h : l ≠ []) : 0 < weight l := by
  cases l with
  | nil => exact absurd rfl h
  | cons v l => rw [weight_cons]; omega

theorem weight_take_lt (vs : List Str) (k : Nat) (h : k < vs.length) :
    weight (vs.take k) < weight vs := by
  have e := weight_append (vs.take k) (vs.drop k)
  rw [List.take_append_drop] at e
  have := weight_pos_of_ne_nil (vs.drop k) (by
    intro hd
    have := congrArg List.length hd
    rw [List.length_drop, List.length_nil] at this
    omega)
  omega

theorem weight_drop_lt (vs : List Str) (k : Nat) (h1 : 0 < k) (h : k < vs.length) :
    weight (vs.drop k) < weight vs := by
  have e := weight_append (vs.take k) (vs.drop k)
  rw [List.take_append_drop] at e
  have := weight_pos_of_ne_nil (vs.take k) (by
    intro hd
    have := congrArg List.length hd
    rw [List.length_take, List.length_nil] at this
    omega)
  omega

theorem weight_drop_le (vs : List Str) (k : Nat) : weight (vs.drop k) ≤ weight vs := by
  have e := weight_append (vs.take k) (vs.drop k)
  rw [List.take_append_drop] at e
  omega

theorem weight_sublist {l1 l2 : List Str} (h : l1.Sublist l2) : weight l1 ≤ weight l2 := by
  unfold weight
  have h1 := h.length_le
  have h2 : (l1.map List.length).sum ≤ (l2.map List.length).sum :=
    List.Sublist.sum_le_sum (h.map _) (fun _ _ => Nat.zero_le _)
  omega

/-- Cutting prefix and suffix off every string of the range takes their
lengths off the weight. -/
theorem varyingOf_weight (vs : List Str) (pfx sfx : Str) :
    ∀ (n start : Nat) (ws : List Str), varyingOf vs pfx sfx start n = .ok ws →
      weight ws + n * (pfx.length + sfx.length) ≤ weight (vs.drop start) := by
  intro n
  induction n with
  | zero =>
    intro start ws h
    simp only [varyingOf, Outcome.ok.injEq] at h
    subst h
    simp [weight]
  | succ n ih =>
    intro start ws h
    unfold varyingOf at h
    simp only [Outcome.bind_def, Outcome.bind_eq_ok, Outcome.pure_def, Outcome.ok.injEq] at h
    obtain ⟨v, hv, w, hw, ws1, hws1, rfl⟩ := h
    rw [index_ok vs start v hv, weight_cons, weight_cons]
    have h1 := ih (start + 1) ws1 hws1
    have h2 := slice_length v w _ _ hw
    have : (n + 1) * (pfx.length + sfx.length) =
        n * (pfx.length + sfx.length) + (pfx.length + sfx.length) := by ring
    omega


/-- The three recursive calls of `recurse` are on lists of smaller weight, so
`recurse` does not use up the budget when the recursive calls do not. -/
theorem recurse_ne_outOfFuel (self : List Str → Outcome Str) (W : Nat)
    (hself : ∀ l, weight l < W → self l ≠ .outOfFuel) (vs : List Str) (hW : weight vs ≤ W)
    (pfx sfx : Str) (data : commonSs) (h1 : data.start + 1 < vs.length)
    (h2 : data.start < data.stop) (h3 : 1 ≤ pfx.length + sfx.length) :
    recurse self vs pfx sfx data ≠ .outOfFuel := by
  have rest : ∀ y : Str,
      ((varyingOf vs pfx sfx data.start (data.stop - data.start)).bind fun varying =>
        (self varying).bind fun middle =>
          if data.stop < vs.length then
            (self (List.drop data.stop vs)).bind fun r =>
              pure (y ++ (pfx ++ wrapMiddle middle ++ sfx) ++ [124] ++ r)
          else pure (y ++ (pfx ++ wrapMiddle middle ++ sfx))) ≠ .outOfFuel := by
    intro y
    refine Outcome.bind_ne_outOfFuel (varyingOf_ne_outOfFuel _ _ _ _ _) (fun varying hv => ?_)
    refine Outcome.bind_ne_outOfFuel (hself _ ?_) (fun middle _ => ?_)
    · have hw := varyingOf_weight vs pfx sfx _ _ varying hv
      have hd := weight_drop_le vs data.start
      have hn : 1 ≤ data.stop - data.start := by omega
      have : 1 * (pfx.length + sfx.length) ≤
          (data.stop - data.start) * (pfx.length + sfx.length) := Nat.mul_le_mul_right _ hn
      omega
    · split
      · rename_i hlt
        refine Outcome.bind_ne_outOfFuel (hself _ ?_) (fun r _ => by simp [Outcome.pure_def])
        have := weight_drop_lt vs data.stop (by omega) hlt
        omega
      · simp [Outcome.pure_def]
  unfold recurse
  simp only [Outcome.bind_def, dup]
  split
  · refine Outcome.bind_ne_outOfFuel (hself _ ?_) (fun r _ => ?_)
    · have := weight_take_lt vs data.start (by omega)
      omega
    · exact Outcome.bind_ne_outOfFuel (by simp [Outcome.pure_def]) (fun y _ => rest y)
  · exact Outcome.bind_ne_outOfFuel (by simp [Outcome.pure_def]) (fun y _ => rest y)

theorem suffixPass_ne_outOfFuel (self : List Str → Outcome Str) (W : Nat)
    (hself : ∀ l, weight l < W → self l ≠ .outOfFuel) (vs : List Str) (hW : weight vs ≤ W) :
    ∀ (cands : List (Str × commonSs)) (b : Best),
      (∀ e ∈ cands, GoodEntry vs.length 2 e) → suffixPass self vs cands b ≠ .outOfFuel := by
  intro cands
  induction cands with
  | nil => intro b _; simp [suffixPass]
  | cons c cands ih =>
    intro b hc
    obtain ⟨sfx, loc⟩ := c
    obtain ⟨g1, g2, g3⟩ := hc (sfx, loc) (List.mem_cons_self _ _)
    simp only at g1 g2 g3
    simp only [suffixPass, Outcome.bind_def]
    refine Outcome.bind_ne_outOfFuel (sharedPrefix_ne_outOfFuel _ _) (fun pfx _ => ?_)
    refine Outcome.bind_ne_outOfFuel
      (recurse_ne_outOfFuel self W hself vs hW pfx sfx loc g3 g2 (by omega)) (fun str _ => ?_)
    exact ih _ (fun e he => hc e (List.mem_cons_of_mem _ he))

theorem prefixPass_ne_outOfFuel (self : List Str → Outcome Str) (W : Nat)
    (hself : ∀ l, weight l < W → self l ≠ .outOfFuel) (vs : List Str) (hW : weight vs ≤ W) :
    ∀ (cands : List (Str × commonSs)) (b : Best),
      (∀ e ∈ cands, GoodEntry vs.length 2 e) → prefixPass self vs cands b ≠ .outOfFuel := by
  intro cands
  induction cands with
  | nil => intro b _; simp [prefixPass]
  | cons c cands ih =>
    intro b hc
    obtain ⟨pfx, loc⟩ := c
    obtain ⟨g1, g2, g3⟩ := hc (pfx, loc) (List.mem_cons_self _ _)
    simp only at g1 g2 g3
    simp only [prefixPass, Outcome.bind_def]
    refine Outcome.bind_ne_outOfFuel (sharedSuffix_ne_outOfFuel _ _) (fun sfx _ => ?_)
    refine Outcome.bind_ne_outOfFuel
      (recurse_ne_outOfFuel self W hself vs hW pfx sfx loc g3 g2 (by omega)) (fun str _ => ?_)
    exact ih _ (fun e he => hc e (List.mem_cons_of_mem _ he))

theorem generalCase_ne_outOfFuel (self : List Str → Outcome Str) (vs : List Str)
    (hself : ∀ l, weight l < weight vs → self l ≠ .outOfFuel) :
    generalCase self vs ≠ .outOfFuel := by
  have hperm := goSort_perm reverseStrings.Less vs
  have hsub := List.destutter_sublist (· ≠ ·) (goSort reverseStrings.Less vs)
  have hw1 : weight ((goSort reverseStrings.Less vs).destutter (· ≠ ·)) ≤ weight vs := by
    rw [← weight_perm hperm]
    exact weight_sublist hsub
  have hw2 : weight (goSort strLess ((goSort reverseStrings.Less vs).destutter (· ≠ ·))) ≤
      weight vs := by
    rw [weight_perm (goSort_perm strLess _)]
    exact hw1
  simp only [generalCase, removeDups_take, Outcome.bind_def]
  refine Outcome.bind_ne_outOfFuel
    (suffixPass_ne_outOfFuel self _ hself _ hw1 _ _ (commonSuffixes_good _ 2)) (fun b1 _ => ?_)
  refine Outcome.bind_ne_outOfFuel
    (prefixPass_ne_outOfFuel self _ hself _ hw2 _ _ (commonPrefixes_good _ 2)) (fun b2 _ => ?_)
  split <;> simp [Outcome.pure_def]

/-- With a budget above the weight of the arguments the budget is not used up. -/
theorem ShortRegexpStringFuel_ne_outOfFuel :
    ∀ (fuel : Nat) (vs : List Str), weight vs < fuel →
      ShortRegexpStringFuel fuel vs ≠ .outOfFuel := by
  intro fuel
  induction fuel with
  | zero => intro vs h; omega
  | succ fuel ih =>
    intro vs h
    match vs, h with
    | [], _ => simp [ShortRegexpStringFuel]
    | [v], _ => simp [ShortRegexpStringFuel]
    | a :: b :: t, h =>
      rw [ShortRegexpStringFuel_general]
      apply generalCase_ne_outOfFuel
      intro l hl
      have := ih l (by omega)
      cases hx : ShortRegexpStringFuel fuel l with
      | ok p => simp [Outcome.map]
      | panic => simp [Outcome.map]
      | outOfFuel => exact absurd hx this

/-- The embedding of `ShortRegexpString` always ends in a pattern or a panic. -/
theorem ShortRegexpString_ne_outOfFuel (vs : List Str) : ShortRegexpString vs ≠ .outOfFuel := by
  unfold ShortRegexpString
  have := ShortRegexpStringFuel_ne_outOfFuel (weight vs + 1) vs (by omega)
  cases hx : ShortRegexpStringFuel (weight vs + 1) vs with
  | ok p => simp [Outcome.map]
  | panic => simp [Outcome.map]
  | outOfFuel => exact absurd hx this

/-! ## The base cases -/

theorem parse_unmatchable :
    parsePattern (ascii "$.^") =
      some (.cat .endText (.cat .anyChar (.cat .beginText .empty))) := by
  decide

theorem ends_unmatchable (text : Str) (i : Nat) :
    Regex.ends text (.cat .endText (.cat .anyChar (.cat .beginText .empty))) i = [] := by
  by_cases h : i = text.length
  · simp [Regex.ends, h]
  · simp [Regex.ends, h]

/-- C8: for a single argument the result is `QuoteMeta` of it, that is, the
argument with a backslash put before every special byte and every other byte
kept; for `abc` it is `abc`. -/
theorem single_element_is_quoted :
    (∀ v : Str, ShortRegexpString [v] = .ok (QuoteMeta v)) ∧
    (QuoteMeta [] = [] ∧
      ∀ (b : Nat) (s : Str),
        QuoteMeta (b :: s) = (if special b = true then [92, b] else [b]) ++ QuoteMeta s) ∧
    ShortRegexpString [ascii "abc"] = .ok (ascii "abc") := by
  refine ⟨fun v => rfl, ⟨rfl, fun b s => ?_⟩, by decide⟩
  simp [QuoteMeta]

/-- C9: without arguments the result is the pattern `$.^`, and that pattern
matches no text, neither as a whole nor in part. -/
theorem empty_input_gives_unmatchable_pattern :
    ShortRegexpString [] = .ok (ascii "$.^") ∧
    ∀ text : Str, fullMatch (ascii "$.^") text = false ∧ partMatch (ascii "$.^") text = false := by
  refine ⟨by decide, fun text => ?_⟩
  simp [fullMatch, partMatch, parse_unmatchable, ends_unmatchable]

/-! ## Evaluations of the code at concrete inputs -/

/-- C1, failing input: for the arguments `ab|c` and `ab|d` the shared prefix
`ab|` is emitted without escaping and the returned pattern is `ab|(c|d)`.  Read
as a regular expression it fully matches `c`, which is not an argument, and it
does not match the argument `ab|c`. -/
theorem exactness_fails_on_unescaped_prefix :
    ShortRegexpString [ascii "ab|c", ascii "ab|d"] = .ok (ascii "ab|(c|d)") ∧
    fullMatch (ascii "ab|(c|d)") (ascii "c") = true ∧
    ascii "c" ∉ [ascii "ab|c", ascii "ab|d"] ∧
    fullMatch (ascii "ab|(c|d)") (ascii "ab|c") = false := by
  decide

/-- C2, failing input: the six valid UTF-8 strings a, U+20AC, U+3042, U+3044,
U+30AC, U+40AC.  They are already in reverse order; the last two share the
bytes 0x82 0xAC, which U+20AC also ends in, but U+3042 and U+3044 in between
do not.  The binary searches return the one-element range 1..2, `sharedPrefix`
returns the whole of that element (3 bytes), and the slice
`vs[1][3 : 3-2]` in `recurse` is out of range: the call panics. -/
theorem panic_on_valid_utf8_input :
    (∀ s ∈ [[97], [226, 130, 172], [227, 129, 130], [227, 129, 132], [227, 130, 172],
        [228, 130, 172]], ValidString s = true) ∧
    goSort reverseStrings.Less
        [[97], [226, 130, 172], [227, 129, 130], [227, 129, 132], [227, 130, 172],
          [228, 130, 172]] =
      [[97], [226, 130, 172], [227, 129, 130], [227, 129, 132], [227, 130, 172],
        [228, 130, 172]] ∧
    commonSuffixes
        [[97], [226, 130, 172], [227, 129, 130], [227, 129, 132], [227, 130, 172],
          [228, 130, 172]] 2 = [([130, 172], ⟨1, 2⟩)] ∧
    sharedPrefix 2 [[226, 130, 172]] = .ok [226, 130, 172] ∧
    slice [226, 130, 172] 3 (3 - 2) = .panic ∧
    ShortRegexpString
        [[97], [226, 130, 172], [227, 129, 130], [227, 129, 132], [227, 130, 172],
          [228, 130, 172]] = .panic := by
  decide

/-- C3, failing input: for the arguments `a.1` and `a.2`, which contain no
parenthesis, bar, question mark or backslash, the shared prefix `a.` is emitted
as it is: the returned pattern is `a.(1|2)`, and its dot does not follow a
backslash. -/
theorem shared_prefix_is_not_escaped :
    (∀ s ∈ [ascii "a.1", ascii "a.2"], ∀ b ∈ s, b ∉ [40, 41, 124, 63, 92]) ∧
    ShortRegexpString [ascii "a.1", ascii "a.2"] = .ok (ascii "a.(1|2)") ∧
    metaEscaped (ascii "a.(1|2)") = false := by
  decide

/-- C4, failing input: the baseline cost is computed before the duplicates are
removed, so for `abc`, `abd` the candidate `ab(c|d)` (7 bytes) does not beat the
baseline 7 and the plain alternation is returned, while for the same list
twice the baseline is 15 and `ab(c|d)` is returned. -/
theorem duplicates_change_the_output :
    ShortRegexpString [ascii "abc", ascii "abd"] = .ok (ascii "abc|abd") ∧
    ShortRegexpString ([ascii "abc", ascii "abd"] ++ [ascii "abc", ascii "abd"]) =
      .ok (ascii "ab(c|d)") := by
  decide

/-- C7, failing input: after `ShortRegexpString(vs...)` with `vs` holding z, y,
x the caller's slice holds x, y, z; and with `vs` holding `b.`, `a` it holds
`a` and the escaped literal `b\.` (bytes 98 92 46). -/
theorem caller_slice_is_overwritten :
    callerSliceAfter [ascii "z", ascii "y", ascii "x"] =
      .ok [ascii "x", ascii "y", ascii "z"] ∧
    ShortRegexpString [ascii "z", ascii "y", ascii "x"] = .ok (ascii "x|y|z") ∧
    callerSliceAfter [ascii "b.", ascii "a"] = .ok [ascii "a", [98, 92, 46]] := by
  decide

/-- C11 as stated fails: for the arguments `a` and `ab` the result is the plain
alternation `a|ab`, which contains no question mark (byte 63). -/
theorem no_optional_mark_for_a_ab :
    ShortRegexpString [ascii "a", ascii "ab"] = .ok (ascii "a|ab") ∧
    63 ∉ ascii "a|ab" ∧
    ascii "a|ab" = joinBar [QuoteMeta (ascii "a"), QuoteMeta (ascii "ab")] := by
  decide

/-- C11, amended: for the arguments `a` and `ab` the result is the plain
alternation `a|ab` of the two escaped literals.  The two strings share a prefix
of one byte and no suffix, the working slices are `a`, `ab` in both orders,
and both candidate maps, which are built for affixes of at least 2 bytes, are
empty; so no fragment is formed and the fallback joins the escaped strings. -/
theorem plain_alternation_for_a_ab :
    commonPrefixLen (ascii "a") (ascii "ab") = 1 ∧
    commonSuffixLen (ascii "a") (ascii "ab") = 0 ∧
    goSort reverseStrings.Less [ascii "a", ascii "ab"] = [ascii "a", ascii "ab"] ∧
    commonSuffixes [ascii "a", ascii "ab"] 2 = [] ∧
    goSort strLess [ascii "a", ascii "ab"] = [ascii "a", ascii "ab"] ∧
    commonPrefixes [ascii "a", ascii "ab"] 2 = [] ∧
    ShortRegexpString [ascii "a", ascii "ab"] =
      .ok (joinBar [QuoteMeta (ascii "a"), QuoteMeta (ascii "ab")]) ∧
    joinBar [QuoteMeta (ascii "a"), QuoteMeta (ascii "ab")] = ascii "a|ab" := by
  decide

/-- C12, failing input: the valid UTF-8 strings U+20AC and U+30AC (bytes
E2 82 AC and E3 82 AC) are in reverse order; their suffix candidate is the two
continuation bytes 82 AC, which is not valid UTF-8 and starts inside a code
point.  With a further `a` the returned pattern has these bytes factored out
and is not valid UTF-8.  For `café`, `blasé` the one candidate is the two bytes
of U+00E9 with the range 0..2. -/
theorem suffix_key_splits_code_point :
    (∀ s ∈ [[226, 130, 172], [227, 130, 172]], ValidString s = true) ∧
    goSort reverseStrings.Less [[226, 130, 172], [227, 130, 172]] =
      [[226, 130, 172], [227, 130, 172]] ∧
    commonSuffixes [[226, 130, 172], [227, 130, 172]] 2 = [([130, 172], ⟨0, 2⟩)] ∧
    ValidString [130, 172] = false ∧
    RuneStart 130 = false ∧
    ShortRegexpString [[226, 130, 172, 97], [227, 130, 172, 97]] =
      .ok [40, 226, 124, 227, 41, 130, 172, 97] ∧
    ValidString [40, 226, 124, 227, 41, 130, 172, 97] = false ∧
    goSort reverseStrings.Less [[99, 97, 102, 195, 169], [98, 108, 97, 115, 195, 169]] =
      [[99, 97, 102, 195, 169], [98, 108, 97, 115, 195, 169]] ∧
    commonSuffixes [[99, 97, 102, 195, 169], [98, 108, 97, 115, 195, 169]] 2 =
      [([195, 169], ⟨0, 2⟩)] := by
  decide

/-- C17, failing input: the valid UTF-8 strings U+20AC, U+20AD, U+30AC, U+40AC
(bytes E2 82 AC, E2 82 AD, E3 82 AC, E4 82 AC) are in reverse order and
distinct.  The candidate map has the entry 82 AC with the range 0..4, but the
string at index 1 does not end in 82 AC.  The pattern returned for the four
strings has 82 AC factored out of all of them: the last byte AD of the second
argument is nowhere in it. -/
theorem suffix_range_holds_string_without_suffix :
    (∀ s ∈ [[226, 130, 172], [226, 130, 173], [227, 130, 172], [228, 130, 172]],
      ValidString s = true) ∧
    [[226, 130, 172], [226, 130, 173], [227, 130, 172], [228, 130, 172]].Nodup ∧
    goSort reverseStrings.Less
        [[226, 130, 172], [226, 130, 173], [227, 130, 172], [228, 130, 172]] =
      [[226, 130, 172], [226, 130, 173], [227, 130, 172], [228, 130, 172]] ∧
    commonSuffixes [[226, 130, 172], [226, 130, 173], [227, 130, 172], [228, 130, 172]] 2 =
      [([130, 172], ⟨0, 4⟩)] ∧
    hasSuffix [226, 130, 173] [130, 172] = false ∧
    ShortRegexpString [[226, 130, 172], [226, 130, 173], [227, 130, 172], [228, 130, 172]] =
      .ok [40, 226, 124, 227, 124, 228, 41, 130, 172] ∧
    173 ∉ [40, 226, 124, 227, 124, 228, 41, 130, 172] := by
  decide

/-- C19, failing input: `sharedPrefix(1, ["ab"])` returns `ab`, the whole of
the single string, although without the last byte the string is `a`, which is
also the longest common prefix after dropping the last byte; the result is
longer than `len("ab") - 1`. -/
theorem sharedPrefix_single_ignores_ignore :
    sharedPrefix 1 [ascii "ab"] = .ok (ascii "ab") ∧
    longestCommonPrefix ([ascii "ab"].map (dropLast 1)) = ascii "a" ∧
    ¬ ((ascii "ab").length ≤ (ascii "ab").length - 1) ∧
    sharedPrefix 1 [ascii "abc", ascii "abd"] = .ok (ascii "ab") ∧
    longestCommonPrefix ([ascii "abc", ascii "abd"].map (dropLast 1)) = ascii "ab" := by
  decide

/-! ## Boundary search -/

theorem findFirstLoop_eq_run (vs : List Str) (p : Str → Bool) :
    ∀ (n : Nat) (l h : Int), findFirstLoop vs p n l h = (findFirstRun vs p n l h).2 := by
  intro n
  induction n with
  | zero => intro l h; rfl
  | succ n ih =>
    intro l h
    unfold findFirstLoop findFirstRun
    by_cases hc : l + 1 < h
    · simp only [if_pos hc]
      split
      · exact ih _ _
      · exact ih _ _
    · simp only [if_neg hc]

/-- The loop of `findFirst` leaves within `h - l - 1` rounds, whatever the
predicate. -/
theorem findFirstRun_exits (vs : List Str) (p : Str → Bool) :
    ∀ (n : Nat) (l h : Int), h - l - 1 ≤ n →
      ¬ ((findFirstRun vs p n l h).1 + 1 < (findFirstRun vs p n l h).2) := by
  intro n
  induction n with
  | zero => intro l h hm; simp only [findFirstRun]; omega
  | succ n ih =>
    intro l h hm
    unfold findFirstRun
    by_cases hc : l + 1 < h
    · simp only [if_pos hc]
      split
      · exact ih _ _ (by omega)
      · exact ih _ _ (by omega)
    · simp only [if_neg hc]
      exact hc

/-- With a predicate that is false below index `k` and true from `k` on, the
loop of `findFirst` ends with `h = k`. -/
theorem findFirstRun_boundary (vs : List Str) (p : Str → Bool) (k : Nat)
    (hp : ∀ i, i < vs.length → p (vs.getD i []) = decide (k ≤ i)) :
    ∀ (n : Nat) (l h : Int), -1 ≤ l → h ≤ vs.length → l + 1 ≤ k → (k : Int) ≤ h →
      h - l - 1 ≤ n → (findFirstRun vs p n l h).2 = k := by
  intro n
  induction n with
  | zero => intro l h _ _ h1 h2 hm; simp only [findFirstRun]; omega
  | succ n ih =>
    intro l h hl hh h1 h2 hm
    unfold findFirstRun
    by_cases hc : l + 1 < h
    · simp only [if_pos hc]
      have hm0 : 0 ≤ (l + h) / 2 := by omega
      have hm1 : (l + h) / 2 < h := by omega
      have hm2 : l < (l + h) / 2 := by omega
      have hlt : ((l + h) / 2).toNat < vs.length := by omega
      have hpm := hp _ hlt
      by_cases hk : k ≤ ((l + h) / 2).toNat
      · rw [hpm, decide_eq_true hk]
        simp only [if_true]
        exact ih _ _ hl (by omega) h1 (by omega) (by omega)
      · rw [hpm, decide_eq_false hk]
        simp only [Bool.false_eq_true, if_false]
        exact ih _ _ (by omega) hh (by omega) h2 (by omega)
    · simp only [if_neg hc]
      omega

/-- C15: when the predicate is false on the first `n` strings of `vs` and true
on all others, the loop of `findFirst` leaves within `len(vs)` rounds and
`findFirst` returns `n`; so it returns 0 when every string satisfies the
predicate and `len(vs)` when none does, also for the empty list. -/
theorem findFirst_boundary (vs : List Str) (predicate : Str → Bool) (n : Nat)
    (hn : n ≤ vs.length)
    (hp : ∀ i, i < vs.length → predicate (vs.getD i []) = decide (n ≤ i)) :
    findFirst vs predicate = n ∧
    (∀ rounds, vs.length ≤ rounds →
      ¬ ((findFirstRun vs predicate rounds (-1) vs.length).1 + 1 <
          (findFirstRun vs predicate rounds (-1) vs.length).2) ∧
      (findFirstRun vs predicate rounds (-1) vs.length).2 = n) ∧
    ((∀ v ∈ vs, predicate v = true) → findFirst vs predicate = 0) ∧
    ((∀ v ∈ vs, predicate v = false) → findFirst vs predicate = vs.length) := by
  have key : ∀ (k : Nat), k ≤ vs.length →
      (∀ i, i < vs.length → predicate (vs.getD i []) = decide (k ≤ i)) →
      findFirst vs predicate = k := by
    intro k hk hpk
    unfold findFirst
    rw [findFirstLoop_eq_run,
      findFirstRun_boundary vs predicate k hpk vs.length (-1) vs.length (le_refl _) (le_refl _)
        (by omega) (by omega) (by omega)]
    simp
  refine ⟨key n hn hp, ?_, ?_, ?_⟩
  · intro rounds hr
    exact ⟨findFirstRun_exits vs predicate rounds (-1) vs.length (by omega),
      findFirstRun_boundary vs predicate n hp rounds (-1) vs.length (le_refl _) (le_refl _)
        (by omega) (by omega) (by omega)⟩
  · intro hall
    apply key 0 (Nat.zero_le _)
    intro i hi
    rw [hall _ (getD_mem vs i hi)]
    simp
  · intro hnone
    apply key vs.length (le_refl _)
    intro i hi
    rw [hnone _ (getD_mem vs i hi)]
    simp
    exact hi

/-- C15 at the strings a, b, c, d, e with the predicate "is at least c": the
boundary is index 2. -/
theorem findFirst_boundary_witness :
    findFirst [ascii "a", ascii "b", ascii "c", ascii "d", ascii "e"]
      (fun s => !strLess s (ascii "c")) = 2 ∧
    findFirst [] (fun s => !strLess s (ascii "c")) = 0 :=
  ⟨(findFirst_boundary [ascii "a", ascii "b", ascii "c", ascii "d", ascii "e"]
      (fun s => !strLess s (ascii "c")) 2 (by decide) (by decide)).1,
    (findFirst_boundary [] (fun s => !strLess s (ascii "c")) 0 (by decide) (by decide)).1⟩

/-! ## The reverse order -/

/-- The order `strLess` is the lexicographic order of lists of numbers. -/
theorem strLess_iff_lex : ∀ (a b : List Nat), strLess a b = true ↔ List.Lex (· < ·) a b := by
  intro a
  induction a with
  | nil =>
    intro b
    cases b with
    | nil => simp [strLess]
    | cons y b => simp [strLess, List.Lex.nil]
  | cons x a ih =>
    intro b
    cases b with
    | nil => simp [strLess]
    | cons y b =>
      simp only [strLess]
      by_cases hxy : x < y
      · simp only [hxy, if_true, true_iff]
        exact List.Lex.rel hxy
      · by_cases hyx : y < x
        · simp only [hxy, hyx, if_false, if_true, Bool.false_eq_true, false_iff]
          intro h
          cases h with
          | cons h => omega
          | rel h => exact hxy h
        · have e : x = y := by omega
          subst e
          simp only [hxy, if_false]
          rw [ih b]
          constructor
          · exact fun h => List.Lex.cons h
          · intro h
            cases h with
            | cons h => exact h
            | rel h => exact absurd h hxy

/-- C18: on valid UTF-8 strings `Less(a, b)` holds exactly when the code points
of `a` read from the end come lexicographically before those of `b` (a proper
suffix comes first); so `Less` is irreflexive and transitive, and of two
distinct strings exactly one is less than the other. -/
theorem reverse_order_is_strict_total (a b c : Str) (ha : ValidString a = true)
    (hb : ValidString b = true) (hc : ValidString c = true) :
    (reverseStrings.Less a b = true ↔ List.Lex (· < ·) (runes a).reverse (runes b).reverse) ∧
    reverseStrings.Less a a = false ∧
    (reverseStrings.Less a b = true → reverseStrings.Less b c = true →
      reverseStrings.Less a c = true) ∧
    (a ≠ b → (reverseStrings.Less a b = true ∧ reverseStrings.Less b a = false) ∨
      (reverseStrings.Less a b = false ∧ reverseStrings.Less b a = true)) := by
  refine ⟨?_, less_irrefl a ha, less_trans a b c ha hb hc, ?_⟩
  · rw [less_eq_strLess_runes a b ha hb, strLess_iff_lex]
  · intro hne
    have hasym : ∀ x y : Str, ValidString x = true → ValidString y = true →
        reverseStrings.Less x y = true → reverseStrings.Less y x = false := by
      intro x y hx hy hxy
      cases hyx : reverseStrings.Less y x with
      | false => rfl
      | true =>
        have := less_trans x y x hx hy hx hxy hyx
        rw [less_irrefl x hx] at this
        exact Bool.noConfusion this
    rcases less_total a b ha hb hne with h | h
    · exact Or.inl ⟨h, hasym a b ha hb h⟩
    · exact Or.inr ⟨hasym b a hb ha h, h⟩

/-- C18 at the strings `é` (U+00E9), `zé` and `a€` (U+20AC): their code points
from the end are E9; E9, 7A; 20AC, 61. -/
theorem reverse_order_is_strict_total_witness :
    ValidString [195, 169] = true ∧ ValidString [122, 195, 169] = true ∧
    ValidString [97, 226, 130, 172] = true ∧
    (runes [195, 169]).reverse = [233] ∧ (runes [122, 195, 169]).reverse = [233, 122] ∧
    (runes [97, 226, 130, 172]).reverse = [8364, 97] ∧
    reverseStrings.Less [195, 169] [122, 195, 169] = true ∧
    reverseStrings.Less [122, 195, 169] [97, 226, 130, 172] = true ∧
    ((reverseStrings.Less [195, 169] [122, 195, 169] = true ↔
        List.Lex (· < ·) (runes [195, 169]).reverse (runes [122, 195, 169]).reverse) ∧
      reverseStrings.Less [195, 169] [195, 169] = false ∧
      (reverseStrings.Less [195, 169] [122, 195, 169] = true →
        reverseStrings.Less [122, 195, 169] [97, 226, 130, 172] = true →
        reverseStrings.Less [195, 169] [97, 226, 130, 172] = true) ∧
      ([195, 169] ≠ [122, 195, 169] →
        (reverseStrings.Less [195, 169] [122, 195, 169] = true ∧
            reverseStrings.Less [122, 195, 169] [195, 169] = false) ∨
          (reverseStrings.Less [195, 169] [122, 195, 169] = false ∧
            reverseStrings.Less [122, 195, 169] [195, 169] = true))) :=
  ⟨by decide, by decide, by decide, by decide, by decide, by decide, by decide, by decide,
    reverse_order_is_strict_total [195, 169] [122, 195, 169] [97, 226, 130, 172] (by decide)
      (by decide) (by decide)⟩

/-! ## Prefix ranges -/

theorem hasPrefix_iff (s p : Str) : hasPrefix s p = true ↔ p <+: s := by
  unfold hasPrefix
  simp only [Bool.and_eq_true, decide_eq_true_eq]
  constructor
  · rintro ⟨_, h2⟩
    rw [← h2]
    exact List.take_prefix _ _
  · intro h
    exact ⟨h.length_le, (List.prefix_iff_eq_take.mp h).symm⟩

/-- In the byte order a string between two strings with the prefix `p` has the
prefix `p`. -/
theorem prefix_between : ∀ (p a b c : Str), strLess a b = true → strLess b c = true →
    p <+: a → p <+: c → p <+: b := by
  intro p
  induction p with
  | nil => intro a b c _ _ _ _; exact List.nil_prefix
  | cons x p ih =>
    intro a b c hab hbc hpa hpc
    obtain ⟨ta, rfl⟩ := hpa
    obtain ⟨tc, rfl⟩ := hpc
    cases b with
    | nil => simp [strLess] at hab
    | cons y b =>
      simp only [List.cons_append, strLess] at hab hbc
      by_cases hxy : x < y
      · have h1 : ¬ y < x := by omega
        simp [hxy, h1] at hbc
      · by_cases hyx : y < x
        · simp [hxy, hyx] at hab
        · have e : x = y := by omega
          subst e
          simp only [hxy, if_false] at hab hbc
          exact (List.prefix_cons_inj x).mpr
            (ih (p ++ ta) b (p ++ tc) hab hbc (List.prefix_append _ _) (List.prefix_append _ _))

theorem sorted_getD_lt (vs : List Str) (hs : vs.Pairwise (fun a b => strLess a b = true))
    (i j : Nat) (hij : i < j) (hj : j < vs.length) :
    strLess (vs.getD i []) (vs.getD j []) = true := by
  rw [getD_eq_get vs i (by omega), getD_eq_get vs j hj]
  exact List.pairwise_iff_get.mp hs ⟨i, by omega⟩ ⟨j, hj⟩ hij

/-- In a sorted list the strings with the prefix `p` are a block. -/
theorem prefix_convex (vs : List Str) (hs : vs.Pairwise (fun a b => strLess a b = true))
    (p : Str) (i j k : Nat) (hij : i ≤ j) (hjk : j ≤ k) (hk : k < vs.length)
    (hi : hasPrefix (vs.getD i []) p = true) (hkp : hasPrefix (vs.getD k []) p = true) :
    hasPrefix (vs.getD j []) p = true := by
  by_cases e1 : i = j
  · rw [← e1]; exact hi
  by_cases e2 : j = k
  · rw [e2]; exact hkp
  rw [hasPrefix_iff] at hi hkp ⊢
  exact prefix_between p _ _ _ (sorted_getD_lt vs hs i j (by omega) (by omega))
    (sorted_getD_lt vs hs j k (by omega) hk) hi hkp

theorem getD_take (vs : List Str) (i j : Nat) (h : j < i) :
    (vs.take i).getD j [] = vs.getD j [] := by
  simp [List.getD_eq_getElem?_getD, List.getElem?_take, h]

theorem getD_drop (vs : List Str) (a t : Nat) :
    (vs.drop a).getD t [] = vs.getD (a + t) [] := by
  simp [List.getD_eq_getElem?_getD, List.getElem?_drop]

/-- The range computed for a prefix found at the neighbours `i`, `i+1` of a
sorted list is the block of all strings with that prefix. -/
theorem prefix_range_is_block (vs : List Str)
    (hs : vs.Pairwise (fun a b => strLess a b = true)) (p : Str) (hp : p ≠ [])
    (i : Nat) (hi : i + 1 < vs.length)
    (h0 : hasPrefix (vs.getD i []) p = true) (h1 : hasPrefix (vs.getD (i + 1) []) p = true) :
    prefixStart (vs.take i) p < prefixStart (vs.take i) p + 1 +
        prefixEnd (vs.drop (prefixStart (vs.take i) p + 1)) p ∧
      prefixStart (vs.take i) p + 1 + prefixEnd (vs.drop (prefixStart (vs.take i) p + 1)) p ≤
        vs.length ∧
      2 ≤ prefixStart (vs.take i) p + 1 + prefixEnd (vs.drop (prefixStart (vs.take i) p + 1)) p -
        prefixStart (vs.take i) p ∧
      ∀ j, j < vs.length →
        ((prefixStart (vs.take i) p ≤ j ∧
            j < prefixStart (vs.take i) p + 1 +
              prefixEnd (vs.drop (prefixStart (vs.take i) p + 1)) p) ↔
          hasPrefix (vs.getD j []) p = true) := by
  -- the first index with the prefix
  have hex : ∃ j, hasPrefix (vs.getD j []) p = true := ⟨i, h0⟩
  let a := Nat.find hex
  have ha : hasPrefix (vs.getD a []) p = true := Nat.find_spec hex
  have hai : a ≤ i := Nat.find_min' hex h0
  have hamin : ∀ j, hasPrefix (vs.getD j []) p = true → a ≤ j := fun j hj => Nat.find_min' hex hj
  -- the first index after `i + 1` without the prefix
  have hex2 : ∃ j, i + 1 < j ∧ (vs.length ≤ j ∨ hasPrefix (vs.getD j []) p = false) :=
    ⟨vs.length, hi, Or.inl (le_refl _)⟩
  let b := Nat.find hex2
  have hb : i + 1 < b ∧ (vs.length ≤ b ∨ hasPrefix (vs.getD b []) p = false) :=
    Nat.find_spec hex2
  have hble : b ≤ vs.length := Nat.find_min' hex2 ⟨hi, Or.inl (le_refl _)⟩
  have hbmin : ∀ j, i + 1 < j → j < b → hasPrefix (vs.getD j []) p = true := by
    intro j h1j hjb
    have hn := Nat.find_min hex2 hjb
    simp only [not_and, not_or, not_le] at hn
    have := (hn h1j).2
    simpa using this
  have hin : ∀ j, a ≤ j → j < b → hasPrefix (vs.getD j []) p = true := by
    intro j haj hjb
    by_cases hj : j ≤ i + 1
    · exact prefix_convex vs hs p a j (i + 1) haj hj hi ha h1
    · exact hbmin j (by omega) hjb
  have hout : ∀ j, b ≤ j → j < vs.length → hasPrefix (vs.getD j []) p = false := by
    intro j hbj hj
    rcases hb.2 with h | h
    · omega
    · cases hjp : hasPrefix (vs.getD j []) p with
      | false => rfl
      | true =>
        have := prefix_convex vs hs p (i + 1) b j (by omega) hbj hj h1 hjp
        rw [h] at this
        exact Bool.noConfusion this
  have hstart : prefixStart (vs.take i) p = a := by
    unfold prefixStart
    rw [if_neg hp]
    refine (findFirst_boundary (vs.take i) _ a (by rw [List.length_take]; omega) ?_).1
    intro j hj
    rw [List.length_take] at hj
    rw [getD_take vs i j (by omega)]
    by_cases haj : a ≤ j
    · rw [hin j haj (by omega), decide_eq_true haj]
    · rw [decide_eq_false haj]
      cases hjp : hasPrefix (vs.getD j []) p with
      | false => rfl
      | true => exact absurd (hamin j hjp) haj
  have hend : prefixEnd (vs.drop (a + 1)) p = b - (a + 1) := by
    unfold prefixEnd
    rw [if_neg hp]
    refine (findFirst_boundary (vs.drop (a + 1)) _ (b - (a + 1))
      (by rw [List.length_drop]; omega) ?_).1
    intro t ht
    rw [List.length_drop] at ht
    rw [getD_drop]
    by_cases hbt : b - (a + 1) ≤ t
    · rw [hout (a + 1 + t) (by omega) (by omega), decide_eq_true hbt]
      rfl
    · rw [hin (a + 1 + t) (by omega) (by omega), decide_eq_false hbt]
      rfl
  rw [hstart, hend]
  refine ⟨by omega, by omega, by omega, ?_⟩
  intro j hj
  constructor
  · rintro ⟨h1j, h2j⟩
    exact hin j h1j (by omega)
  · intro hjp
    refine ⟨hamin j hjp, ?_⟩
    by_contra hnb
    have := hout j (by omega) hj
    rw [hjp] at this
    exact Bool.noConfusion this

theorem commonPrefixLen_prefix (a b : Str) :
    hasPrefix a (a.take (commonPrefixLen a b)) = true ∧
      hasPrefix b (a.take (commonPrefixLen a b)) = true := by
  rw [hasPrefix_iff, hasPrefix_iff]
  exact ⟨List.take_prefix _ _, (commonPrefixLen_spec a b).1⟩

/-- The entry that `commonPrefixes` adds for the neighbours `i`, `i+1` of a
strictly ascending list is the block of the strings with that prefix. -/
theorem prefix_entry_block (vs : List Str) (minLength : Nat)
    (hs : vs.Pairwise (fun a b => strLess a b = true)) (hm : 1 ≤ minLength)
    (i : Nat) (hi : i < vs.length - 1)
    (hk : ¬ commonPrefixLen (vs.getD i []) (vs.getD (i + 1) []) < minLength) :
    PrefixBlock vs minLength
      ((vs.getD i []).take (commonPrefixLen (vs.getD i []) (vs.getD (i + 1) [])),
        ⟨prefixStart (vs.take i)
            ((vs.getD i []).take (commonPrefixLen (vs.getD i []) (vs.getD (i + 1) []))),
          prefixStart (vs.take i)
              ((vs.getD i []).take (commonPrefixLen (vs.getD i []) (vs.getD (i + 1) []))) + 1 +
            prefixEnd (vs.drop (prefixStart (vs.take i)
              ((vs.getD i []).take (commonPrefixLen (vs.getD i []) (vs.getD (i + 1) []))) + 1))
              ((vs.getD i []).take (commonPrefixLen (vs.getD i []) (vs.getD (i + 1) [])))⟩) := by
  have hle := commonPrefixLen_le (vs.getD i []) (vs.getD (i + 1) [])
  have hlen : ((vs.getD i []).take
      (commonPrefixLen (vs.getD i []) (vs.getD (i + 1) []))).length =
      commonPrefixLen (vs.getD i []) (vs.getD (i + 1) []) := by
    rw [List.length_take]; omega
  have hpne : (vs.getD i []).take (commonPrefixLen (vs.getD i []) (vs.getD (i + 1) [])) ≠
      [] := by
    intro h0
    have h00 := congrArg List.length h0
    rw [hlen, List.length_nil] at h00
    omega
  obtain ⟨p0, p1⟩ := commonPrefixLen_prefix (vs.getD i []) (vs.getD (i + 1) [])
  obtain ⟨r1, r2, r3, r4⟩ := prefix_range_is_block vs hs _ hpne i (by omega) p0 p1
  exact ⟨by simp only [hlen]; omega, r1, r2, r3, r4⟩

/-- Every entry of the prefix candidate map of a strictly ascending list is a
block. -/
theorem prefixBlock_of_sorted (vs : List Str) (minLength : Nat)
    (hs : vs.Pairwise (fun a b => strLess a b = true)) (hm : 1 ≤ minLength) :
    ∀ e ∈ commonPrefixes vs minLength, PrefixBlock vs minLength e := by
  unfold commonPrefixes
  apply foldl_range_all
  intro result i hi hres e he
  simp only at he
  split at he
  · exact hres e he
  · rename_i hk
    split at he
    · exact hres e he
    · rcases List.mem_append.mp he with h | h
      · exact hres e h
      · simp only [List.mem_singleton] at h
        subst h
        exact prefix_entry_block vs minLength hs hm i hi hk

/-- C16: for a list sorted in ascending byte order without duplicates and a
minimum length of at least 1, every entry of `commonPrefixes` has a prefix of
at least the minimum length and a range with `start < end <= len(vs)` and at
least two elements, which holds exactly the indices of the strings with that
prefix. -/
theorem prefix_ranges_are_maximal_blocks (vs : List Str) (minLength : Nat)
    (hs : vs.Pairwise (fun a b => strLess a b = true)) (hm : 1 ≤ minLength) :
    ∀ e ∈ commonPrefixes vs minLength, PrefixBlock vs minLength e := by
  intro e he
  have hfold : ∀ e ∈ commonPrefixes vs minLength, PrefixBlock vs minLength e := by
    unfold commonPrefixes
    apply foldl_range_all
    intro result i hi hres e he
    simp only at he
    split at he
    · exact hres e he
    · rename_i hk
      split at he
      · exact hres e he
      · rcases List.mem_append.mp he with h | h
        · exact hres e h
        · simp only [List.mem_singleton] at h
          subst h
          exact prefix_entry_block vs minLength hs hm i hi hk
  exact hfold e he

/-- C16 at the sorted strings `ab`, `abc`, `abd`, `b`, `bcd`, `bce` with minimum
length 2: the entries are `ab` with the range 0..3 and `bc` with 4..6. -/
theorem prefix_ranges_are_maximal_blocks_witness :
    commonPrefixes [ascii "ab", ascii "abc", ascii "abd", ascii "b", ascii "bcd", ascii "bce"] 2 =
      [(ascii "ab", ⟨0, 3⟩), (ascii "bc", ⟨4, 6⟩)] ∧
    ∀ e ∈ commonPrefixes
        [ascii "ab", ascii "abc", ascii "abd", ascii "b", ascii "bcd", ascii "bce"] 2,
      PrefixBlock [ascii "ab", ascii "abc", ascii "abd", ascii "b", ascii "bcd", ascii "bce"] 2 e :=
  ⟨by decide,
    prefix_ranges_are_maximal_blocks
      [ascii "ab", ascii "abc", ascii "abd", ascii "b", ascii "bcd", ascii "bce"] 2
      (by decide) (by decide)⟩

/-! ## Termination: the recursive calls are on smaller lists -/

theorem generalCase_eq_ord (self : List Str → Outcome Str) (vs : List Str) :
    generalCase self vs =
      generalCaseOrd self vs (commonSuffixes (suffixView vs) 2)
        (commonPrefixes (prefixView vs) 2) := rfl

theorem Outcome.bind_congr {α β : Type} {x : Outcome α} {f g : α → Outcome β}
    (h : ∀ a, x = .ok a → f a = g a) : Outcome.bind x f = Outcome.bind x g := by
  cases x with
  | ok a => exact h a rfl
  | panic => rfl
  | outOfFuel => rfl

theorem callsShrink_of_good (vs work : List Str) (hw : weight work ≤ weight vs)
    (start stop : Nat) (pfx sfx : Str) (h1 : start + 1 < work.length) (h2 : start < stop)
    (h3 : 1 ≤ pfx.length + sfx.length) : CallsShrink vs work start stop pfx sfx := by
  refine ⟨fun _ => ?_, fun hlt => ?_, fun varying hv => ?_⟩
  · have := weight_take_lt work start (by omega)
    simp only [dup]; omega
  · have := weight_drop_lt work stop (by omega) hlt
    simp only [dup]; omega
  · have hw2 := varyingOf_weight work pfx sfx _ _ varying hv
    have hd := weight_drop_le work start
    have hn : 1 ≤ stop - start := by omega
    have : 1 * (pfx.length + sfx.length) ≤ (stop - start) * (pfx.length + sfx.length) :=
      Nat.mul_le_mul_right _ hn
    omega

/-- The closure `recurse` consults the recursive call only on the three lists
of `CallsShrink`. -/
theorem recurse_congr (self1 self2 : List Str → Outcome Str) (vs work : List Str)
    (h : ∀ l, weight l < weight vs → self1 l = self2 l) (pfx sfx : Str) (data : commonSs)
    (hc : CallsShrink vs work data.start data.stop pfx sfx) :
    recurse self1 work pfx sfx data = recurse self2 work pfx sfx data := by
  obtain ⟨c1, c2, c3⟩ := hc
  have rest : ∀ y : Str,
      ((varyingOf work pfx sfx data.start (data.stop - data.start)).bind fun varying =>
        (self1 varying).bind fun middle =>
          if data.stop < work.length then
            (self1 (dup (List.drop data.stop work))).bind fun r =>
              pure (y ++ (pfx ++ wrapMiddle middle ++ sfx) ++ [124] ++ r)
          else pure (y ++ (pfx ++ wrapMiddle middle ++ sfx))) =
      ((varyingOf work pfx sfx data.start (data.stop - data.start)).bind fun varying =>
        (self2 varying).bind fun middle =>
          if data.stop < work.length then
            (self2 (dup (List.drop data.stop work))).bind fun r =>
              pure (y ++ (pfx ++ wrapMiddle middle ++ sfx) ++ [124] ++ r)
          else pure (y ++ (pfx ++ wrapMiddle middle ++ sfx))) := by
    intro y
    refine Outcome.bind_congr (fun varying hv => ?_)
    rw [h varying (c3 varying hv)]
    refine Outcome.bind_congr (fun middle _ => ?_)
    split
    · rename_i hlt
      rw [h _ (c2 hlt)]
    · rfl
  unfold recurse
  simp only [Outcome.bind_def]
  split
  · rename_i hpos
    rw [h _ (c1 hpos)]
    refine Outcome.bind_congr (fun r _ => ?_)
    exact Outcome.bind_congr (fun y _ => rest y)
  · exact Outcome.bind_congr (fun y _ => rest y)

theorem suffixPass_congr (self1 self2 : List Str → Outcome Str) (vs work : List Str)
    (h : ∀ l, weight l < weight vs → self1 l = self2 l) (hw : weight work ≤ weight vs) :
    ∀ (cands : List (Str × commonSs)) (b : Best),
      (∀ e ∈ cands, GoodEntry work.length 2 e) →
      suffixPass self1 work cands b = suffixPass self2 work cands b := by
  intro cands
  induction cands with
  | nil => intro b _; rfl
  | cons c cands ih =>
    intro b hc
    obtain ⟨sfx, loc⟩ := c
    obtain ⟨g1, g2, g3⟩ := hc (sfx, loc) (List.mem_cons_self _ _)
    simp only at g1 g2 g3
    simp only [suffixPass, Outcome.bind_def]
    refine Outcome.bind_congr (fun pfx _ => ?_)
    rw [recurse_congr self1 self2 vs work h pfx sfx loc
      (callsShrink_of_good vs work hw _ _ pfx sfx g3 g2 (by omega))]
    refine Outcome.bind_congr (fun str _ => ?_)
    exact ih _ (fun e he => hc e (List.mem_cons_of_mem _ he))

theorem prefixPass_congr (self1 self2 : List Str → Outcome Str) (vs work : List Str)
    (h : ∀ l, weight l < weight vs → self1 l = self2 l) (hw : weight work ≤ weight vs) :
    ∀ (cands : List (Str × commonSs)) (b : Best),
      (∀ e ∈ cands, GoodEntry work.length 2 e) →
      prefixPass self1 work cands b = prefixPass self2 work cands b := by
  intro cands
  induction cands with
  | nil => intro b _; rfl
  | cons c cands ih =>
    intro b hc
    obtain ⟨pfx, loc⟩ := c
    obtain ⟨g1, g2, g3⟩ := hc (pfx, loc) (List.mem_cons_self _ _)
    simp only at g1 g2 g3
    simp only [prefixPass, Outcome.bind_def]
    refine Outcome.bind_congr (fun sfx _ => ?_)
    rw [recurse_congr self1 self2 vs work h pfx sfx loc
      (callsShrink_of_good vs work hw _ _ pfx sfx g3 g2 (by omega))]
    refine Outcome.bind_congr (fun str _ => ?_)
    exact ih _ (fun e he => hc e (List.mem_cons_of_mem _ he))

theorem suffixView_eq (vs : List Str) :
    suffixView vs = (goSort reverseStrings.Less vs).destutter (· ≠ ·) :=
  removeDups_eq_destutter _

theorem weight_suffixView (vs : List Str) : weight (suffixView vs) ≤ weight vs := by
  rw [suffixView_eq, ← weight_perm (goSort_perm reverseStrings.Less vs)]
  exact weight_sublist (List.destutter_sublist _ _)

theorem weight_prefixView (vs : List Str) : weight (prefixView vs) ≤ weight vs := by
  unfold prefixView
  rw [weight_perm (goSort_perm strLess _)]
  exact weight_suffixView vs

/-- The general case consults the recursive call only on lists of smaller
weight than its arguments. -/
theorem generalCaseOrd_congr (self1 self2 : List Str → Outcome Str) (vs : List Str)
    (cs cp : List (Str × commonSs))
    (hcs : ∀ e ∈ cs, GoodEntry (suffixView vs).length 2 e)
    (hcp : ∀ e ∈ cp, GoodEntry (prefixView vs).length 2 e)
    (h : ∀ l, weight l < weight vs → self1 l = self2 l) :
    generalCaseOrd self1 vs cs cp = generalCaseOrd self2 vs cs cp := by
  have e1 := suffixPass_congr self1 self2 vs (suffixView vs) h (weight_suffixView vs) cs
    ⟨naiveCost vs, [], false⟩ hcs
  unfold generalCaseOrd
  simp only [Outcome.bind_def]
  change Outcome.bind (suffixPass self1 (suffixView vs) cs _) _ =
    Outcome.bind (suffixPass self2 (suffixView vs) cs _) _
  rw [e1]
  refine Outcome.bind_congr (fun b1 _ => ?_)
  change Outcome.bind (prefixPass self1 (prefixView vs) cp _) _ =
    Outcome.bind (prefixPass self2 (prefixView vs) cp _) _
  rw [prefixPass_congr self1 self2 vs (prefixView vs) h (weight_prefixView vs) cp b1 hcp]

theorem generalCase_congr_weight (self1 self2 : List Str → Outcome Str) (vs : List Str)
    (h : ∀ l, weight l < weight vs → self1 l = self2 l) :
    generalCase self1 vs = generalCase self2 vs := by
  rw [generalCase_eq_ord, generalCase_eq_ord]
  exact generalCaseOrd_congr self1 self2 vs _ _ (commonSuffixes_good _ 2)
    (commonPrefixes_good _ 2) h

/-- Any two budgets above the weight of the arguments give the same outcome. -/
theorem ShortRegexpStringFuel_stable :
    ∀ (fuel1 fuel2 : Nat) (vs : List Str), weight vs < fuel1 → weight vs < fuel2 →
      ShortRegexpStringFuel fuel1 vs = ShortRegexpStringFuel fuel2 vs := by
  intro fuel1
  induction fuel1 with
  | zero => intro _ vs h; omega
  | succ f1 ih =>
    intro fuel2 vs h1 h2
    cases fuel2 with
    | zero => omega
    | succ f2 =>
      match vs, h1, h2 with
      | [], _, _ => rfl
      | [v], _, _ => rfl
      | a :: b :: t, h1, h2 =>
        rw [ShortRegexpStringFuel_general, ShortRegexpStringFuel_general]
        apply generalCase_congr_weight
        intro l hl
        rw [ih f2 l (by omega) (by omega)]

theorem ShortRegexpString_of_fuel (fuel : Nat) (vs : List Str) (h : weight vs < fuel) :
    (ShortRegexpStringFuel fuel vs).map Prod.fst = ShortRegexpString vs := by
  unfold ShortRegexpString
  rw [ShortRegexpStringFuel_stable fuel (weight vs + 1) vs h (by omega)]

/-- The recursion equation of `ShortRegexpString` for two or more arguments. -/
theorem ShortRegexpString_unfold (vs : List Str) (h2 : 2 ≤ vs.length) :
    ShortRegexpString vs = (generalCase ShortRegexpString vs).map Prod.fst := by
  match vs, h2 with
  | a :: b :: t, _ =>
    conv_lhs => unfold ShortRegexpString
    rw [ShortRegexpStringFuel_general]
    rw [generalCase_congr_weight _ ShortRegexpString (a :: b :: t)
      (fun l hl => ShortRegexpString_of_fuel _ l hl)]

/-! ## The choice among the candidates does not depend on their order -/

theorem suffixPass_eq_evalAll (self : List Str → Outcome Str) (vs : List Str) :
    ∀ (cands : List (Str × commonSs)) (b : Best),
      suffixPass self vs cands b =
        (evalAll (suffixFragment self vs) cands).bind fun fs => .ok (fs.foldl Best.consider b) := by
  intro cands
  induction cands with
  | nil => intro b; rfl
  | cons c cands ih =>
    intro b
    obtain ⟨sfx, loc⟩ := c
    simp only [suffixPass, evalAll, suffixFragment, Outcome.bind_def, Outcome.pure_def]
    cases sharedPrefix sfx.length ((vs.drop loc.start).take (loc.stop - loc.start)) with
    | ok pfx =>
      simp only [Outcome.bind]
      cases recurse self vs pfx sfx loc with
      | ok str =>
        simp only [Outcome.bind]
        rw [ih]
        cases evalAll (suffixFragment self vs) cands <;> simp [Outcome.bind]
      | panic => rfl
      | outOfFuel => rfl
    | panic => rfl
    | outOfFuel => rfl

theorem prefixPass_eq_evalAll (self : List Str → Outcome Str) (vs : List Str) :
    ∀ (cands : List (Str × commonSs)) (b : Best),
      prefixPass self vs cands b =
        (evalAll (prefixFragment self vs) cands).bind fun fs => .ok (fs.foldl Best.consider b) := by
  intro cands
  induction cands with
  | nil => intro b; rfl
  | cons c cands ih =>
    intro b
    obtain ⟨pfx, loc⟩ := c
    simp only [prefixPass, evalAll, prefixFragment, Outcome.bind_def, Outcome.pure_def]
    cases sharedSuffix pfx.length ((vs.drop loc.start).take (loc.stop - loc.start)) with
    | ok sfx =>
      simp only [Outcome.bind]
      cases recurse self vs pfx sfx loc with
      | ok str =>
        simp only [Outcome.bind]
        rw [ih]
        cases evalAll (prefixFragment self vs) cands <;> simp [Outcome.bind]
      | panic => rfl
      | outOfFuel => rfl
    | panic => rfl
    | outOfFuel => rfl

theorem evalAll_ne_outOfFuel {α : Type} (f : α → Outcome Str) :
    ∀ l : List α, (∀ c ∈ l, f c ≠ .outOfFuel) → evalAll f l ≠ .outOfFuel := by
  intro l
  induction l with
  | nil => intro _; simp [evalAll]
  | cons c l ih =>
    intro h
    simp only [evalAll, Outcome.bind_def, Outcome.pure_def]
    refine Outcome.bind_ne_outOfFuel (h c (List.mem_cons_self _ _)) (fun s _ => ?_)
    refine Outcome.bind_ne_outOfFuel (ih (fun e he => h e (List.mem_cons_of_mem _ he)))
      (fun r _ => by simp)

/-- Visiting the candidates in another order gives the same fragments in
another order, or a panic in both orders. -/
theorem evalAll_perm {α : Type} (f : α → Outcome Str) {l1 l2 : List α} (hp : l1.Perm l2) :
    (∀ c ∈ l1, f c ≠ .outOfFuel) →
    (evalAll f l1 = .panic ∧ evalAll f l2 = .panic) ∨
    ∃ fs1 fs2, evalAll f l1 = .ok fs1 ∧ evalAll f l2 = .ok fs2 ∧ fs1.Perm fs2 := by
  induction hp with
  | nil => intro _; exact Or.inr ⟨[], [], rfl, rfl, List.Perm.refl _⟩
  | cons x _ ih =>
    intro h
    have hx := h x (List.mem_cons_self _ _)
    rcases ih (fun e he => h e (List.mem_cons_of_mem _ he)) with ⟨e1, e2⟩ | ⟨fs1, fs2, e1, e2, hp⟩
    · left
      simp only [evalAll, Outcome.bind_def, Outcome.pure_def, e1, e2]
      cases hfx : f x with
      | ok s => exact ⟨rfl, rfl⟩
      | panic => exact ⟨rfl, rfl⟩
      | outOfFuel => exact absurd hfx hx
    · simp only [evalAll, Outcome.bind_def, Outcome.pure_def, e1, e2]
      cases hfx : f x with
      | ok s => right; exact ⟨s :: fs1, s :: fs2, rfl, rfl, hp.cons s⟩
      | panic => left; exact ⟨rfl, rfl⟩
      | outOfFuel => exact absurd hfx hx
  | swap x y l =>
    intro h
    have hx := h x (by simp)
    have hy := h y (by simp)
    have hl := evalAll_ne_outOfFuel f l (fun e he => h e (by simp [he]))
    simp only [evalAll, Outcome.bind_def, Outcome.pure_def]
    cases hfx : f x with
    | outOfFuel => exact absurd hfx hx
    | panic =>
      left
      cases hfy : f y with
      | outOfFuel => exact absurd hfy hy
      | panic => exact ⟨rfl, rfl⟩
      | ok t => exact ⟨rfl, rfl⟩
    | ok s =>
      cases hfy : f y with
      | outOfFuel => exact absurd hfy hy
      | panic => left; exact ⟨rfl, rfl⟩
      | ok t =>
        cases hfl : evalAll f l with
        | outOfFuel => exact absurd hfl hl
        | panic => left; exact ⟨rfl, rfl⟩
        | ok fs => right; exact ⟨t :: s :: fs, s :: t :: fs, rfl, rfl, List.Perm.swap _ _ _⟩
  | trans h12 _ ih1 ih2 =>
    intro h
    have h2 := ih2 (fun c hc => h c (h12.mem_iff.mpr hc))
    rcases ih1 h with ⟨e1, e2⟩ | ⟨fs1, fs2, e1, e2, hp⟩
    · rcases h2 with ⟨e3, e4⟩ | ⟨fs3, fs4, e3, e4, hp2⟩
      · exact Or.inl ⟨e1, e4⟩
      · rw [e2] at e3; cases e3
    · rcases h2 with ⟨e3, e4⟩ | ⟨fs3, fs4, e3, e4, hp2⟩
      · rw [e2] at e3; cases e3
      · rw [e2] at e3
        cases e3
        exact Or.inr ⟨fs1, fs4, e1, e4, hp.trans hp2⟩

theorem KeyLe_refl (r : Str) : KeyLe r r := Or.inr ⟨rfl, Or.inl rfl⟩

theorem KeyLe_antisymm (r f : Str) (h1 : KeyLe r f) (h2 : KeyLe f r) : r = f := by
  rcases h1 with h1 | ⟨h1, h1e | h1l⟩
  · rcases h2 with h2 | ⟨h2, _⟩ <;> omega
  · exact h1e
  · rcases h2 with h2 | ⟨h2, h2e | h2l⟩
    · omega
    · exact h2e.symm
    · have := strLess_trans _ _ _ h1l h2l
      rw [strLess_irrefl] at this
      cases this

theorem bestSpec_consider (cost : Int) (seen : List Str) (b : Best) (s : Str)
    (h : BestSpec cost seen b) : BestSpec cost (seen ++ [s]) (b.consider s) := by
  unfold Best.consider
  rcases h with ⟨hf, hc, hb, hall⟩ | ⟨hf, hmem, hc, hlt, hmin⟩
  · rw [hc, hb]
    have hno : strLess s [] = false := by cases s <;> rfl
    by_cases hs : (s.length : Int) < cost
    · rw [if_pos (Or.inl hs)]
      right
      refine ⟨rfl, by simp, rfl, hs, ?_⟩
      intro f hfm hfl
      rcases List.mem_append.mp hfm with hfm | hfm
      · exact absurd hfl (hall f hfm)
      · simp only [List.mem_singleton] at hfm
        subst hfm
        exact KeyLe_refl _
    · rw [if_neg (by simp [hs, hno])]
      left
      refine ⟨hf, hc, hb, ?_⟩
      intro f hfm
      rcases List.mem_append.mp hfm with hfm | hfm
      · exact hall f hfm
      · simp only [List.mem_singleton] at hfm
        subst hfm
        exact hs
  · rw [hc]
    by_cases hacc : (s.length : Int) < (b.best.length : Int) ∨
        ((s.length : Int) = (b.best.length : Int) ∧ strLess s b.best = true)
    · rw [if_pos hacc]
      right
      have hsl : (s.length : Int) < cost := by rcases hacc with h | ⟨h, _⟩ <;> omega
      refine ⟨rfl, by simp, rfl, hsl, ?_⟩
      intro f hfm hfl
      rcases List.mem_append.mp hfm with hfm | hfm
      · have hk := hmin f hfm hfl
        show KeyLe s f
        rcases hacc with h | ⟨h, hl⟩
        · rcases hk with hk | ⟨hk, _⟩
          · left; omega
          · left; omega
        · rcases hk with hk | ⟨hk, hke | hkl⟩
          · left; omega
          · right; exact ⟨by omega, Or.inr (hke ▸ hl)⟩
          · right; exact ⟨by omega, Or.inr (strLess_trans _ _ _ hl hkl)⟩
      · simp only [List.mem_singleton] at hfm
        subst hfm
        exact KeyLe_refl _
    · rw [if_neg hacc]
      right
      refine ⟨hf, List.mem_append_left _ hmem, hc, hlt, ?_⟩
      intro f hfm hfl
      rcases List.mem_append.mp hfm with hfm | hfm
      · exact hmin f hfm hfl
      · simp only [List.mem_singleton] at hfm
        subst hfm
        have h1 : ¬ (f.length : Int) < (b.best.length : Int) := fun h => hacc (Or.inl h)
        by_cases hlen : f.length = b.best.length
        · right
          refine ⟨hlen.symm, ?_⟩
          by_cases heq : b.best = f
          · exact Or.inl heq
          · rcases strLess_total _ _ heq with h | h
            · exact Or.inr h
            · exact absurd (Or.inr ⟨by omega, h⟩) hacc
        · left; omega

theorem bestSpec_foldl (cost : Int) : ∀ (fs seen : List Str) (b : Best),
    BestSpec cost seen b → BestSpec cost (seen ++ fs) (fs.foldl Best.consider b) := by
  intro fs
  induction fs with
  | nil => intro seen b h; simpa using h
  | cons s fs ih =>
    intro seen b h
    have := ih (seen ++ [s]) (b.consider s) (bestSpec_consider cost seen b s h)
    simpa using this

theorem bestSpec_init (cost : Int) : BestSpec cost [] ⟨cost, [], false⟩ :=
  Or.inl ⟨rfl, rfl, rfl, by simp⟩

/-- The state of the choice is determined by the fragments seen, whatever
their order. -/
theorem bestSpec_unique (cost : Int) (fs1 fs2 : List Str) (hp : fs1.Perm fs2) (b1 b2 : Best)
    (h1 : BestSpec cost fs1 b1) (h2 : BestSpec cost fs2 b2) : b1 = b2 := by
  obtain ⟨c1, s1, f1⟩ := b1
  obtain ⟨c2, s2, f2⟩ := b2
  simp only [BestSpec] at h1 h2
  rcases h1 with ⟨hf1, hc1, hb1, hall1⟩ | ⟨hf1, hm1, hc1, hl1, hmin1⟩
  · rcases h2 with ⟨hf2, hc2, hb2, hall2⟩ | ⟨hf2, hm2, hc2, hl2, hmin2⟩
    · subst hf1 hc1 hb1 hf2 hc2 hb2; rfl
    · exact absurd hl2 (hall1 _ (hp.mem_iff.mpr hm2))
  · rcases h2 with ⟨hf2, hc2, hb2, hall2⟩ | ⟨hf2, hm2, hc2, hl2, hmin2⟩
    · exact absurd hl1 (hall2 _ (hp.mem_iff.mp hm1))
    · have e : s1 = s2 := KeyLe_antisymm _ _ (hmin1 _ (hp.mem_iff.mpr hm2) hl2)
        (hmin2 _ (hp.mem_iff.mp hm1) hl1)
      subst e hf1 hf2 hc1 hc2
      rfl

theorem foldl_consider_perm (cost : Int) (fs1 fs2 : List Str) (hp : fs1.Perm fs2) :
    fs1.foldl Best.consider ⟨cost, [], false⟩ = fs2.foldl Best.consider ⟨cost, [], false⟩ := by
  have h1 := bestSpec_foldl cost fs1 [] _ (bestSpec_init cost)
  have h2 := bestSpec_foldl cost fs2 [] _ (bestSpec_init cost)
  simp only [List.nil_append] at h1 h2
  exact bestSpec_unique cost fs1 fs2 hp _ _ h1 h2

theorem foldl_consider_ok_bind {β : Type} (x : Outcome (List Str)) (b : Best)
    (k : Best → Outcome β) :
    (x.bind fun fs => Outcome.ok (fs.foldl Best.consider b)).bind k =
      x.bind fun fs => k (fs.foldl Best.consider b) := by
  cases x <;> rfl

/-- The general case as: compute the fragments of the suffix candidates, then
those of the prefix candidates, choose among them, finish. -/
theorem generalCaseOrd_eq (self : List Str → Outcome Str) (vs : List Str)
    (cs cp : List (Str × commonSs)) :
    generalCaseOrd self vs cs cp =
      (evalAll (suffixFragment self (suffixView vs)) cs).bind fun fs1 =>
        (evalAll (prefixFragment self (prefixView vs)) cp).bind fun fs2 =>
          finish vs ((fs1 ++ fs2).foldl Best.consider ⟨naiveCost vs, [], false⟩) := by
  unfold generalCaseOrd
  simp only [Outcome.bind_def]
  change Outcome.bind (suffixPass self (suffixView vs) cs _)
    (fun b1 => Outcome.bind (prefixPass self (prefixView vs) cp b1) (fun b2 => finish vs b2)) = _
  rw [suffixPass_eq_evalAll, foldl_consider_ok_bind]
  refine Outcome.bind_congr (fun fs1 _ => ?_)
  rw [prefixPass_eq_evalAll, foldl_consider_ok_bind]
  refine Outcome.bind_congr (fun fs2 _ => ?_)
  rw [List.foldl_append]

theorem suffixFragment_ne_outOfFuel (self : List Str → Outcome Str)
    (hself : ∀ l, self l ≠ .outOfFuel) (vs : List Str) (c : Str × commonSs)
    (hc : GoodEntry vs.length 2 c) : suffixFragment self vs c ≠ .outOfFuel := by
  obtain ⟨g1, g2, g3⟩ := hc
  simp only [suffixFragment, Outcome.bind_def]
  refine Outcome.bind_ne_outOfFuel (sharedPrefix_ne_outOfFuel _ _) (fun pfx _ => ?_)
  exact recurse_ne_outOfFuel self (weight vs) (fun l _ => hself l) vs (le_refl _) pfx c.1 c.2
    g3 g2 (by omega)

theorem prefixFragment_ne_outOfFuel (self : List Str → Outcome Str)
    (hself : ∀ l, self l ≠ .outOfFuel) (vs : List Str) (c : Str × commonSs)
    (hc : GoodEntry vs.length 2 c) : prefixFragment self vs c ≠ .outOfFuel := by
  obtain ⟨g1, g2, g3⟩ := hc
  simp only [prefixFragment, Outcome.bind_def]
  refine Outcome.bind_ne_outOfFuel (sharedSuffix_ne_outOfFuel _ _) (fun sfx _ => ?_)
  exact recurse_ne_outOfFuel self (weight vs) (fun l _ => hself l) vs (le_refl _) c.1 sfx c.2
    g3 g2 (by omega)

theorem good_of_perm {n : Nat} {l1 l2 : List (Str × commonSs)} (hp : l1.Perm l2)
    (h : ∀ e ∈ l2, GoodEntry n 2 e) : ∀ e ∈ l1, GoodEntry n 2 e :=
  fun e he => h e (hp.mem_iff.mp he)

theorem finish_fst (vs : List Str) (b : Best) :
    (finish vs b).map Prod.fst =
      .ok (if b.found then b.best else joinBar ((prefixView vs).map QuoteMeta)) := by
  unfold finish
  cases b.found <;> rfl

theorem isBestOf_iff (cost : Int) (fs : List Str) (fallback r : Str) :
    IsBestOf cost fs fallback r ↔
      r = (if (fs.foldl Best.consider ⟨cost, [], false⟩).found
        then (fs.foldl Best.consider ⟨cost, [], false⟩).best else fallback) := by
  have hb := bestSpec_foldl cost fs [] _ (bestSpec_init cost)
  simp only [List.nil_append] at hb
  generalize fs.foldl Best.consider ⟨cost, [], false⟩ = b at hb
  rcases hb with ⟨hf, hc, hbb, hall⟩ | ⟨hf, hmem, hc, hlt, hmin⟩
  · rw [hf]
    simp only [Bool.false_eq_true, if_false]
    constructor
    · rintro (⟨hm, hl, _⟩ | ⟨_, hr⟩)
      · exact absurd hl (hall r hm)
      · exact hr
    · intro hr
      exact Or.inr ⟨hall, hr⟩
  · rw [hf]
    simp only [if_true]
    constructor
    · rintro (⟨hm, hl, hmn⟩ | ⟨hno, _⟩)
      · exact KeyLe_antisymm _ _ (hmn _ hmem hlt) (hmin _ hm hl)
      · exact absurd hlt (hno _ hmem)
    · intro hr
      subst hr
      exact Or.inl ⟨hmem, hlt, hmin⟩

/-! ## Reading the returned pattern -/

theorem mem_langOf (vs : List Str) (s : Str) : s ∈ langOf vs ↔ s ∈ vs := Iff.rfl

theorem segment_self (text : Str) (i : Nat) : segment text i i = [] := by
  simp [segment]

theorem segment_length (text : Str) (i j : Nat) (hj : j ≤ text.length) :
    (segment text i j).length = j - i := by
  simp only [segment, List.length_take, List.length_drop]
  omega

theorem segment_append (text : Str) (i k j : Nat) (hik : i ≤ k) (hkj : k ≤ j) :
    segment text i j = segment text i k ++ segment text k j := by
  unfold segment
  have e1 : j - i = (k - i) + (j - k) := by omega
  have e2 : List.drop k text = List.drop (k - i) (List.drop i text) := by
    rw [List.drop_drop]; congr 1; omega
  rw [e1, e2, List.take_add]

theorem segment_split (text : Str) (i j : Nat) (a b : Str) (hij : i ≤ j)
    (hj : j ≤ text.length) (h : segment text i j = a ++ b) :
    i + a.length ≤ j ∧ segment text i (i + a.length) = a ∧ segment text (i + a.length) j = b := by
  have hl := segment_length text i j hj
  rw [h, List.length_append] at hl
  have hk : i + a.length ≤ j := by omega
  have hs := segment_append text i (i + a.length) j (by omega) hk
  rw [h] at hs
  have hla : (segment text i (i + a.length)).length = a.length := by
    rw [segment_length text i _ (by omega)]; omega
  have := List.append_inj hs hla.symm
  exact ⟨hk, this.1.symm, this.2.symm⟩

theorem Sem.congr {r : Regex} {L1 L2 : Language Nat} (h : Sem r L1) (e : L1 = L2) : Sem r L2 :=
  e ▸ h

theorem sem_empty : Sem Regex.empty 1 := by
  intro text i j hi
  simp only [Regex.ends, List.mem_singleton, Language.mem_one]
  constructor
  · rintro rfl
    exact ⟨le_refl _, hi, segment_self _ _⟩
  · rintro ⟨h1, h2, h3⟩
    have := segment_length text i j h2
    rw [h3] at this
    simp at this
    omega

theorem segment_one (text : Str) (i : Nat) (b : Nat) (h : text.get? i = some b) :
    segment text i (i + 1) = [b] := by
  unfold segment
  have hlt : i < text.length := by
    rcases Nat.lt_or_ge i text.length with h1 | h1
    · exact h1
    · rw [List.get?_eq_none.mpr h1] at h; cases h
  rw [List.drop_eq_getElem_cons hlt]
  rw [List.get?_eq_get hlt] at h
  simp only [List.get_eq_getElem, Option.some.injEq] at h
  simp [h]

theorem sem_lit (b : Nat) : Sem (Regex.lit b) (langOf [b :: []]) := by
  intro text i j hi
  simp only [Regex.ends, mem_langOf, List.mem_singleton]
  constructor
  · intro h
    split at h
    · rename_i hb
      simp only [List.mem_singleton] at h
      subst h
      have hlt : i < text.length := by
        rcases Nat.lt_or_ge i text.length with h1 | h1
        · exact h1
        · rw [List.get?_eq_none.mpr h1] at hb; cases hb
      exact ⟨by omega, by omega, segment_one text i b hb⟩
    · simp at h
  · rintro ⟨h1, h2, h3⟩
    have hl := segment_length text i j h2
    rw [h3] at hl
    simp only [List.length_singleton] at hl
    have hj : j = i + 1 := by omega
    subst hj
    have hlt : i < text.length := by omega
    have hb : text.get? i = some b := by
      have e : text.drop i = text[i] :: text.drop (i + 1) := List.drop_eq_getElem_cons hlt
      unfold segment at h3
      rw [e] at h3
      have e2 : i + 1 - i = 1 := by omega
      rw [e2] at h3
      simp only [List.take_succ_cons, List.take_zero, List.cons.injEq, and_true] at h3
      rw [List.get?_eq_get hlt]
      simp [h3]
    rw [if_pos hb]
    simp

theorem sem_cat {r s : Regex} {L1 L2 : Language Nat} (h1 : Sem r L1) (h2 : Sem s L2) :
    Sem (Regex.cat r s) (L1 * L2) := by
  intro text i j hi
  simp only [Regex.ends, List.mem_flatMap, Language.mem_mul]
  constructor
  · rintro ⟨k, hk, hj⟩
    obtain ⟨a1, a2, a3⟩ := (h1 text i k hi).mp hk
    obtain ⟨b1, b2, b3⟩ := (h2 text k j a2).mp hj
    exact ⟨by omega, b2, _, a3, _, b3, (segment_append text i k j a1 b1).symm⟩
  · rintro ⟨hij, hj, a, ha, b, hb, hab⟩
    obtain ⟨c1, c2, c3⟩ := segment_split text i j a b hij hj hab.symm
    refine ⟨i + a.length, (h1 text i _ hi).mpr ⟨by omega, by omega, by rw [c2]; exact ha⟩, ?_⟩
    exact (h2 text _ j (by omega)).mpr ⟨c1, hj, by rw [c3]; exact hb⟩

theorem sem_alt {r s : Regex} {L1 L2 : Language Nat} (h1 : Sem r L1) (h2 : Sem s L2) :
    Sem (Regex.alt r s) (L1 + L2) := by
  intro text i j hi
  simp only [Regex.ends, List.mem_append, Language.mem_add, h1 text i j hi, h2 text i j hi]
  tauto

theorem sem_opt {r : Regex} {L : Language Nat} (h : Sem r L) : Sem (Regex.opt r) (L + 1) := by
  intro text i j hi
  simp only [Regex.ends, List.mem_append, Language.mem_add, h text i j hi,
    sem_empty text i j hi, List.mem_singleton]
  have := sem_empty text i j hi
  simp only [Regex.ends, List.mem_singleton] at this
  rw [this]
  tauto

theorem semItems_nil : SemItems [] 1 := by
  intro acc La h
  simpa using h

theorem semItems_cons {items : List Regex} {Li L : Language Nat} {r : Regex}
    (h : SemItems items Li) (hr : Sem r L) : SemItems (r :: items) (Li * L) := by
  intro acc La ha
  simp only [List.foldl_cons]
  have := h (Regex.cat r acc) (L * La) (sem_cat hr ha)
  rwa [← mul_assoc] at this

theorem semItems_catOf {items : List Regex} {Li : Language Nat} (h : SemItems items Li) :
    Sem (catOf items) Li := by
  have := h Regex.empty 1 sem_empty
  rwa [mul_one] at this

theorem semAlts_nil : SemAlts [] 0 := by
  intro cur Lc h
  simpa [altOf] using h

theorem semAlts_cons {alts : List Regex} {La L : Language Nat} {r : Regex}
    (h : SemAlts alts La) (hr : Sem r L) : SemAlts (r :: alts) (La + L) := by
  intro cur Lc hc
  simp only [altOf, List.foldl_cons]
  have := h (Regex.alt r cur) (L + Lc) (sem_alt hr hc)
  rwa [← add_assoc] at this

theorem readsItem_seq {q : Str} {L : Language Nat} (h : ReadsItem q L) : ReadsSeq q L := by
  intro n rest alts items Li hn hi
  obtain ⟨m, r, hm, hp, hr⟩ := h n rest alts items hn
  exact ⟨m, r :: items, hm, hp, semItems_cons hi hr⟩

theorem readsSeq_nil : ReadsSeq [] 1 := by
  intro n rest alts items Li hn hi
  exact ⟨n, items, by simpa using hn, rfl, by rwa [mul_one]⟩

theorem readsSeq_append {q1 q2 : Str} {L1 L2 : Language Nat} (h1 : ReadsSeq q1 L1)
    (h2 : ReadsSeq q2 L2) : ReadsSeq (q1 ++ q2) (L1 * L2) := by
  intro n rest alts items Li hn hi
  obtain ⟨m1, it1, hm1, hp1, hs1⟩ := h1 n (q2 ++ rest) alts items Li
    (by simp only [List.length_append] at hn ⊢; omega) hi
  obtain ⟨m2, it2, hm2, hp2, hs2⟩ := h2 m1 rest alts it1 (Li * L1)
    (by simp only [List.length_append] at hm1 ⊢; omega) hs1
  refine ⟨m2, it2, hm2, ?_, by rwa [← mul_assoc]⟩
  rw [List.append_assoc, hp1, hp2]

theorem readsSeq_alt {q : Str} {L : Language Nat} (h : ReadsSeq q L) : ReadsAlt q L := by
  intro n rest alts La hn ha
  obtain ⟨m, it, hm, hp, hs⟩ := h n rest alts [] 1 hn semItems_nil
  exact ⟨m, alts, it, La, 1 * L, hm, hp, ha, hs, by rw [one_mul]⟩

theorem readsAlt_bar {p1 p2 : Str} {L1 L2 : Language Nat} (h1 : ReadsAlt p1 L1)
    (h2 : ReadsAlt p2 L2) : ReadsAlt (p1 ++ 124 :: p2) (L1 + L2) := by
  intro n rest alts La hn ha
  obtain ⟨m1, al1, it1, La1, Li1, hm1, hp1, hsa1, hsi1, e1⟩ :=
    h1 n (124 :: p2 ++ rest) alts La
      (by simp only [List.length_append, List.length_cons] at hn ⊢; omega) ha
  cases m1 with
  | zero => simp at hm1
  | succ m1 =>
    obtain ⟨m2, al2, it2, La2, Li2, hm2, hp2, hsa2, hsi2, e2⟩ :=
      h2 m1 rest (catOf it1 :: al1) (La1 + Li1)
        (by simp only [List.length_append, List.length_cons] at hm1 ⊢; omega)
        (semAlts_cons hsa1 (semItems_catOf hsi1))
    refine ⟨m2, al2, it2, La2, Li2, hm2, ?_, hsa2, hsi2, ?_⟩
    · rw [List.append_assoc, hp1]
      simp only [List.cons_append, parseRegex, if_true]
      exact hp2
    · rw [e2, e1, add_assoc]

theorem readsItem_group {p : Str} {L : Language Nat} (h : ReadsAlt p L) :
    ReadsItem (40 :: p ++ [41]) L := by
  intro n rest alts items hn
  cases n with
  | zero => omega
  | succ n =>
    simp only [List.length_append, List.length_cons, List.length_singleton, List.length_nil]
      at hn
    obtain ⟨m, al, it, La1, Li1, hm, hp, hsa, hsi, e⟩ :=
      h n (41 :: rest) [] 0 (by simp only [List.length_cons]; omega) semAlts_nil
    cases m with
    | zero => simp at hm
    | succ m =>
      refine ⟨n, altOf al (catOf it), by omega, ?_, ?_⟩
      · have e1 : 40 :: p ++ [41] ++ rest = 40 :: (p ++ 41 :: rest) := by simp
        rw [e1]
        simp only [parseRegex, ↓reduceIte, hp]
        simp
      · have := hsa (catOf it) Li1 (semItems_catOf hsi)
        rw [e, zero_add] at this
        exact this

theorem readsItem_opt {q : Str} {L : Language Nat} (h : ReadsItem q L) :
    ReadsItem (q ++ [63]) (L + 1) := by
  intro n rest alts items hn
  simp only [List.length_append, List.length_singleton] at hn
  obtain ⟨m, r, hm, hp, hr⟩ := h n (63 :: rest) alts items
    (by simp only [List.length_cons]; omega)
  cases m with
  | zero => simp at hm
  | succ m =>
    simp only [List.length_cons] at hm
    refine ⟨m, Regex.opt r, by omega, ?_, sem_opt hr⟩
    rw [List.append_assoc, List.singleton_append, hp]
    simp only [parseRegex, ↓reduceIte]
    simp

theorem isAlnum_not_special (c : Nat) (h : isAlnum c = true) :
    special c = false ∧ c ≠ 124 ∧ c ≠ 41 ∧ c ≠ 40 ∧ c ≠ 63 ∧ c ≠ 92 ∧ c ≠ 46 ∧ c ≠ 94 ∧
      c ≠ 36 ∧ c < 128 := by
  simp only [isAlnum, Bool.or_eq_true, Bool.and_eq_true, decide_eq_true_eq] at h
  have hs : special c = false := by
    simp only [special, decide_eq_false_iff_not, List.mem_cons, List.mem_singleton,
      List.mem_nil_iff, or_false]
    omega
  refine ⟨hs, ?_, ?_, ?_, ?_, ?_, ?_, ?_, ?_, ?_⟩ <;> omega

theorem readsItem_lit (c : Nat) (h : isAlnum c = true) : ReadsItem [c] (langOf [[c]]) := by
  intro n rest alts items hn
  obtain ⟨h0, h1, h2, h3, h4, h5, h6, h7, h8, _⟩ := isAlnum_not_special c h
  cases n with
  | zero => omega
  | succ n =>
    simp only [List.length_singleton] at hn
    refine ⟨n, Regex.lit c, by omega, ?_, sem_lit c⟩
    simp only [List.singleton_append, parseRegex]
    rw [if_neg h1, if_neg h2, if_neg h3, if_neg h4, if_neg h5, if_neg h6, if_neg h7,
      if_neg h8, h0]
    simp

theorem langOf_single_mul (a b : Str) : langOf [a] * langOf [b] = langOf [a ++ b] := by
  ext x
  simp only [Language.mem_mul, mem_langOf, List.mem_singleton]
  constructor
  · rintro ⟨u, rfl, v, rfl, rfl⟩; rfl
  · rintro rfl; exact ⟨a, rfl, b, rfl, rfl⟩

theorem langOf_nil_single : langOf [[]] = 1 := by
  ext x
  simp [mem_langOf, Language.mem_one]

/-- A string of letters and digits is read as itself. -/
theorem readsSeq_word : ∀ (w : Str), (∀ b ∈ w, isAlnum b = true) → ReadsSeq w (langOf [w]) := by
  intro w
  induction w with
  | nil => intro _; rw [langOf_nil_single]; exact readsSeq_nil
  | cons c w ih =>
    intro h
    have h1 := readsItem_seq (readsItem_lit c (h c (List.mem_cons_self _ _)))
    have h2 := ih (fun b hb => h b (List.mem_cons_of_mem _ hb))
    have := readsSeq_append h1 h2
    rwa [langOf_single_mul] at this

/-- A pattern that is read with language `L` fully matches exactly the strings
of `L`. -/
theorem readsAlt_fullMatch {p : Str} {L : Language Nat} (h : ReadsAlt p L) (s : Str) :
    fullMatch p s = true ↔ s ∈ L := by
  obtain ⟨m, al, it, La1, Li1, hm, hp, hsa, hsi, e⟩ :=
    h (p.length + 1) [] [] 0 (by simp) semAlts_nil
  cases m with
  | zero => simp at hm
  | succ m =>
    have hr := hsa (catOf it) Li1 (semItems_catOf hsi)
    rw [e, zero_add] at hr
    simp only [List.append_nil] at hp
    have hpp : parsePattern p = some (altOf al (catOf it)) := by
      unfold parsePattern
      rw [hp]
      simp [parseRegex]
    unfold fullMatch
    rw [hpp]
    simp only [decide_eq_true_eq]
    rw [hr s 0 s.length (Nat.zero_le _)]
    simp [segment]

theorem readsAlt_unique {p : Str} {L1 L2 : Language Nat} (h1 : ReadsAlt p L1)
    (h2 : ReadsAlt p L2) : L1 = L2 := by
  ext s
  rw [← readsAlt_fullMatch h1 s, ← readsAlt_fullMatch h2 s]

theorem wrapMiddle_bar (t : Str) :
    wrapMiddle (124 :: t) =
      if t.length > 1 then 40 :: t ++ [41, 63] else if t ≠ [] then t ++ [63] else [] := by
  have hp : hasPrefix (124 :: t) [124] = true := by simp [hasPrefix]
  simp only [wrapMiddle, hp, if_true, List.drop_one, List.tail_cons]
  split
  · simp
  · split
    · rfl
    · simp_all

theorem wrapMiddle_nobar (m : Str) (h : ∀ t, m ≠ 124 :: t) :
    wrapMiddle m = if m.length > 1 then 40 :: m ++ [41] else m := by
  have hp : hasPrefix m [124] = false := by
    cases m with
    | nil => simp [hasPrefix]
    | cons c t =>
      have : c ≠ 124 := fun e => h t (by rw [e])
      simp [hasPrefix, this]
  simp only [wrapMiddle, hp, Bool.false_eq_true, if_false, List.append_nil]
  split
  · simp
  · split <;> simp_all

theorem readsAlt_lit (c : Nat) (h : isAlnum c = true) : ReadsAlt [c] (langOf [[c]]) :=
  readsSeq_alt (readsItem_seq (readsItem_lit c h))

/-- The middle as `recurse` wraps it is read as one unit with the language of
the middle, and it does not start with a bar. -/
theorem wrapMiddle_reads (m : Str) (L : Language Nat) (h : GoodPattern m L) :
    ReadsSeq (wrapMiddle m) L ∧ (∀ c t, wrapMiddle m = c :: t → c ≠ 124) := by
  obtain ⟨hr, hbar, hone⟩ := h
  by_cases hb : ∃ t, m = 124 :: t
  · obtain ⟨t, rfl⟩ := hb
    obtain ⟨L1, hr1, hL, h1⟩ := hbar t rfl
    rw [wrapMiddle_bar]
    by_cases hlen : t.length > 1
    · rw [if_pos hlen]
      constructor
      · have := readsItem_seq (readsItem_opt (readsItem_group hr1))
        rw [hL, add_comm]
        simpa using this
      · intro c t2 e
        simp only [List.cons_append, List.cons.injEq] at e
        omega
    · rw [if_neg hlen]
      by_cases hne : t ≠ []
      · rw [if_pos hne]
        have hl1 : t.length = 1 := by
          cases t with
          | nil => exact absurd rfl hne
          | cons a t => simp only [List.length_cons] at hlen ⊢; omega
        obtain ⟨c, rfl, hc⟩ := h1 hl1
        constructor
        · have := readsItem_seq (readsItem_opt (readsItem_lit c hc))
          rw [hL, add_comm, readsAlt_unique hr1 (readsAlt_lit c hc)]
          exact this
        · intro c2 t2 e
          simp only [List.singleton_append, List.cons.injEq] at e
          have := (isAlnum_not_special c hc).2.1
          omega
      · rw [if_neg hne]
        have ht : t = [] := by simpa using hne
        subst ht
        constructor
        · rw [hL, readsAlt_unique hr1 (readsSeq_alt readsSeq_nil), Language.add_self]
          exact readsSeq_nil
        · intro c t e; cases e
  · have hnb : ∀ t, m ≠ 124 :: t := fun t e => hb ⟨t, e⟩
    rw [wrapMiddle_nobar m hnb]
    by_cases hlen : m.length > 1
    · rw [if_pos hlen]
      constructor
      · exact readsItem_seq (readsItem_group hr)
      · intro c t e
        simp only [List.cons_append, List.cons.injEq] at e
        omega
    · rw [if_neg hlen]
      cases m with
      | nil =>
        constructor
        · rw [readsAlt_unique hr (readsSeq_alt readsSeq_nil)]
          exact readsSeq_nil
        · intro c t e; cases e
      | cons a t =>
        have hl1 : (a :: t).length = 1 := by
          simp only [List.length_cons] at hlen ⊢; omega
        obtain ⟨c, e, hc⟩ := hone hl1
        rw [e]
        constructor
        · rw [e] at hr
          rw [readsAlt_unique hr (readsAlt_lit c hc)]
          exact readsItem_seq (readsItem_lit c hc)
        · intro c2 t2 e2
          simp only [List.cons.injEq] at e2
          have := (isAlnum_not_special c hc).2.1
          omega

theorem good_word (w : Str) (h : ∀ b ∈ w, isAlnum b = true) : GoodPattern w (langOf [w]) := by
  refine ⟨readsSeq_alt (readsSeq_word w h), ?_, ?_⟩
  · intro p1 e
    have := (isAlnum_not_special 124 (h 124 (by rw [e]; exact List.mem_cons_self _ _))).2.1
    exact absurd rfl this
  · intro hl
    match w, hl, h with
    | [c], _, h => exact ⟨c, rfl, h c (List.mem_cons_self _ _)⟩

theorem good_of_head (p : Str) (L : Language Nat) (hr : ReadsAlt p L)
    (hh : ∀ t, p ≠ 124 :: t) (hl : 2 ≤ p.length) : GoodPattern p L :=
  ⟨hr, fun p1 e => absurd e (hh p1), fun h1 => by omega⟩

theorem good_bar_left (p1 p2 : Str) (L1 L2 : Language Nat) (h1 : ReadsAlt p1 L1)
    (hh : ∀ t, p1 ≠ 124 :: t) (hne : p1 ≠ []) (h2 : ReadsAlt p2 L2) :
    GoodPattern (p1 ++ 124 :: p2) (L1 + L2) := by
  refine good_of_head _ _ (readsAlt_bar h1 h2) ?_ ?_
  · intro t e
    cases p1 with
    | nil => exact hne rfl
    | cons c t1 =>
      simp only [List.cons_append, List.cons.injEq] at e
      exact hh t1 (by rw [e.1])
  · cases p1 with
    | nil => exact absurd rfl hne
    | cons c t1 =>
      simp only [List.cons_append, List.length_cons, List.length_append]
      omega

theorem good_bar_right (p1 p2 : Str) (L1 L2 : Language Nat) (h1 : GoodPattern p1 L1)
    (h2 : ReadsAlt p2 L2) (hl : 2 ≤ p2.length) :
    GoodPattern (p1 ++ 124 :: p2) (L1 + L2) := by
  obtain ⟨hr, hbar, hone⟩ := h1
  refine ⟨readsAlt_bar hr h2, ?_, ?_⟩
  · intro q e
    cases p1 with
    | nil =>
      simp only [List.nil_append, List.cons.injEq, true_and] at e
      subst e
      refine ⟨L2, h2, ?_, fun h => by omega⟩
      rw [readsAlt_unique hr (readsSeq_alt readsSeq_nil)]
    | cons c t1 =>
      simp only [List.cons_append, List.cons.injEq] at e
      obtain ⟨rfl, rfl⟩ := e
      obtain ⟨L1a, hr1, hL, _⟩ := hbar t1 rfl
      refine ⟨L1a + L2, readsAlt_bar hr1 h2, by rw [hL, add_assoc], fun h => ?_⟩
      simp only [List.length_append, List.length_cons] at h
      omega
  · intro h
    simp only [List.length_append, List.length_cons] at h
    omega

theorem langOf_cons (a : Str) (l : List Str) : langOf (a :: l) = langOf [a] + langOf l := by
  ext x
  simp [mem_langOf, Language.mem_add]

theorem langOf_append (l1 l2 : List Str) : langOf (l1 ++ l2) = langOf l1 + langOf l2 := by
  ext x
  simp [mem_langOf, Language.mem_add]

theorem joinBar_single (w : Str) : joinBar [w] = w := by
  simp [joinBar, List.intercalate, List.intersperse]

theorem joinBar_nil : joinBar [] = [] := by
  simp [joinBar, List.intercalate, List.intersperse]

theorem readsAlt_joinBar : ∀ (ws : List Str), ws ≠ [] →
    (∀ w ∈ ws, ∀ b ∈ w, isAlnum b = true) → ReadsAlt (joinBar ws) (langOf ws) := by
  intro ws
  induction ws with
  | nil => intro h; exact absurd rfl h
  | cons a t ih =>
    intro _ h
    cases t with
    | nil =>
      rw [joinBar_single]
      exact readsSeq_alt (readsSeq_word a (h a (List.mem_cons_self _ _)))
    | cons b t =>
      rw [joinBar_cons_cons, langOf_cons]
      exact readsAlt_bar (readsSeq_alt (readsSeq_word a (h a (List.mem_cons_self _ _))))
        (ih (by simp) (fun w hw => h w (List.mem_cons_of_mem _ hw)))

theorem joinBar_eq_nil (ws : List Str) (h : joinBar ws = []) : ws = [] ∨ ws = [[]] := by
  match ws, h with
  | [], _ => exact Or.inl rfl
  | [w], h => rw [joinBar_single] at h; rw [h]; exact Or.inr rfl
  | a :: b :: t, h =>
    rw [joinBar_cons_cons] at h
    simp at h

theorem joinBar_length_one (ws : List Str) (hnd : ws.Nodup) (c : Nat) (h : joinBar ws = [c]) :
    ws = [[c]] := by
  match ws, hnd, h with
  | [], _, h => rw [joinBar_nil] at h; cases h
  | [w], _, h => rw [joinBar_single] at h; rw [h]
  | a :: b :: t, hnd, h =>
    rw [joinBar_cons_cons] at h
    cases a with
    | nil =>
      simp only [List.nil_append, List.cons.injEq] at h
      rcases joinBar_eq_nil _ h.2 with e | e
      · cases e
      · simp only [List.cons.injEq] at e
        rw [e.1] at hnd
        simp at hnd
    | cons x a =>
      simp only [List.cons_append, List.cons.injEq] at h
      have := congrArg List.length h.2
      simp at this

/-- The plain alternation of distinct strings of letters and digits is a good
pattern for them. -/
theorem good_joinBar (ws : List Str) (hne : ws ≠ []) (hnd : ws.Nodup)
    (h : ∀ w ∈ ws, ∀ b ∈ w, isAlnum b = true) : GoodPattern (joinBar ws) (langOf ws) := by
  refine ⟨readsAlt_joinBar ws hne h, ?_, ?_⟩
  · intro p1 e
    match ws, hne, hnd, h, e with
    | [w], _, _, h, e =>
      rw [joinBar_single] at e
      have := (isAlnum_not_special 124
        (h w (List.mem_cons_self _ _) 124 (by rw [e]; exact List.mem_cons_self _ _))).2.1
      exact absurd rfl this
    | a :: b :: t, _, hnd, h, e =>
      rw [joinBar_cons_cons] at e
      cases a with
      | cons x a =>
        simp only [List.cons_append, List.cons.injEq] at e
        have := (isAlnum_not_special x
          (h (x :: a) (List.mem_cons_self _ _) x (List.mem_cons_self _ _))).2.1
        exact absurd e.1 this
      | nil =>
        simp only [List.nil_append, List.cons.injEq, true_and] at e
        subst e
        have hnd2 : (b :: t).Nodup := (List.nodup_cons.mp hnd).2
        have h2 : ∀ w ∈ b :: t, ∀ x ∈ w, isAlnum x = true :=
          fun w hw => h w (List.mem_cons_of_mem _ hw)
        refine ⟨langOf (b :: t), readsAlt_joinBar _ (by simp) h2, ?_, ?_⟩
        · rw [langOf_cons, langOf_nil_single]
        · intro hl
          obtain ⟨c, hc⟩ : ∃ c, joinBar (b :: t) = [c] := by
            match joinBar (b :: t), hl with
            | [c], _ => exact ⟨c, rfl⟩
          have e := joinBar_length_one _ hnd2 c hc
          refine ⟨c, hc, h2 [c] (by rw [e]; exact List.mem_cons_self _ _) c
            (List.mem_cons_self _ _)⟩
  · intro hl
    obtain ⟨c, hc⟩ : ∃ c, joinBar ws = [c] := by
      match joinBar ws, hl with
      | [c], _ => exact ⟨c, rfl⟩
    have e := joinBar_length_one _ hnd c hc
    exact ⟨c, hc, h [c] (by rw [e]; exact List.mem_cons_self _ _) c (List.mem_cons_self _ _)⟩

/-! ## The shared affix and the varying middles -/

theorem getD_eq_getElem_nat (v : Str) (i : Nat) (h : i < v.length) : v.getD i 0 = v[i] := by
  simp [List.getD_eq_getElem?_getD, List.getElem?_eq_getElem h]

theorem take_succ_eq (v : Str) (i : Nat) (h : i < v.length) :
    v.take (i + 1) = v.take i ++ [v.getD i 0] := by
  rw [getD_eq_getElem_nat v i h, List.take_succ, List.getElem?_eq_getElem h]
  rfl

theorem drop_pred_eq (v : Str) (i : Nat) (h : i < v.length) :
    v.drop (v.length - (i + 1)) = v.getD (v.length - i - 1) 0 :: v.drop (v.length - i) := by
  have hlt : v.length - (i + 1) < v.length := by omega
  rw [List.drop_eq_getElem_cons hlt, getD_eq_getElem_nat v _ (by omega)]
  have e1 : v.length - (i + 1) = v.length - i - 1 := by omega
  have e2 : v.length - (i + 1) + 1 = v.length - i := by omega
  simp only [e1]
  congr 1
  rw [← e1, e2]

theorem sharedPrefixLoop_spec (ignore : Nat) (v0 : Str) (rest : List Str) :
    ∀ (n i : Nat), i + n + ignore ≤ v0.length →
      (∀ v ∈ rest, i + ignore ≤ v.length ∧ v.take i = v0.take i) →
      (sharedPrefixLoop ignore v0 rest n i ≤ i + n ∧
        ∀ v ∈ rest, sharedPrefixLoop ignore v0 rest n i + ignore ≤ v.length ∧
          v.take (sharedPrefixLoop ignore v0 rest n i) =
            v0.take (sharedPrefixLoop ignore v0 rest n i)) := by
  intro n
  induction n with
  | zero => intro i _ h; exact ⟨le_refl _, h⟩
  | succ n ih =>
    intro i hn h
    simp only [sharedPrefixLoop]
    split
    · exact ⟨by omega, h⟩
    · rename_i hany
      simp only [List.any_eq_true, Bool.or_eq_true, decide_eq_true_eq, not_exists, not_and,
        not_or, not_le, ne_eq, not_not] at hany
      have := ih (i + 1) (by omega) (fun v hv => by
        obtain ⟨a1, a2⟩ := hany v hv
        obtain ⟨b1, b2⟩ := h v hv
        have hi : i < v.length := by omega
        refine ⟨by omega, ?_⟩
        rw [take_succ_eq v i hi, take_succ_eq v0 i (by omega), b2, a2])
      exact ⟨by omega, this.2⟩

theorem sharedSuffixLoop_spec (ignore : Nat) (v0 : Str) (rest : List Str) :
    ∀ (n i : Nat), i + n + ignore ≤ v0.length →
      (∀ v ∈ rest, i + ignore ≤ v.length ∧ v.drop (v.length - i) = v0.drop (v0.length - i)) →
      (sharedSuffixLoop ignore v0 rest n i ≤ i + n ∧
        ∀ v ∈ rest, sharedSuffixLoop ignore v0 rest n i + ignore ≤ v.length ∧
          v.drop (v.length - sharedSuffixLoop ignore v0 rest n i) =
            v0.drop (v0.length - sharedSuffixLoop ignore v0 rest n i)) := by
  intro n
  induction n with
  | zero => intro i _ h; exact ⟨le_refl _, h⟩
  | succ n ih =>
    intro i hn h
    simp only [sharedSuffixLoop]
    split
    · exact ⟨by omega, h⟩
    · rename_i hany
      simp only [List.any_eq_true, Bool.or_eq_true, decide_eq_true_eq, not_exists, not_and,
        not_or, not_le, ne_eq, not_not] at hany
      have := ih (i + 1) (by omega) (fun v hv => by
        obtain ⟨a1, a2⟩ := hany v hv
        obtain ⟨b1, b2⟩ := h v hv
        have hi : i < v.length := by omega
        refine ⟨by omega, ?_⟩
        rw [drop_pred_eq v i hi, drop_pred_eq v0 i (by omega), b2, a2])
      exact ⟨by omega, this.2⟩

/-- For two or more strings that are all at least `ignore` bytes long,
`sharedPrefix` returns a prefix that every string has in front of its last
`ignore` bytes. -/
theorem sharedPrefix_ok (ignore : Nat) (v0 v1 : Str) (rest : List Str)
    (h : ∀ v ∈ v0 :: v1 :: rest, ignore ≤ v.length) :
    ∃ pfx, sharedPrefix ignore (v0 :: v1 :: rest) = .ok pfx ∧ pfx = v0.take pfx.length ∧
      ∀ v ∈ v0 :: v1 :: rest, pfx.length + ignore ≤ v.length ∧ v.take pfx.length = pfx := by
  have h0 : ignore ≤ v0.length := h v0 (List.mem_cons_self _ _)
  obtain ⟨s1, s2⟩ := sharedPrefixLoop_spec ignore v0 (v1 :: rest) (v0.length - ignore) 0
    (by omega) (fun v hv => ⟨by simpa using h v (List.mem_cons_of_mem _ hv), by simp⟩)
  generalize hr : sharedPrefixLoop ignore v0 (v1 :: rest) (v0.length - ignore) 0 = r at s1 s2
  have hl : (v0.take r).length = r := by
    rw [List.length_take]; omega
  have key : ∀ v ∈ v0 :: v1 :: rest, (v0.take r).length + ignore ≤ v.length ∧
      v.take (v0.take r).length = v0.take r := by
    intro v hv
    rw [hl]
    rcases List.mem_cons.mp hv with e | hv
    · subst e; exact ⟨by omega, rfl⟩
    · exact s2 v hv
  refine ⟨v0.take r, ?_, by rw [hl], key⟩
  simp only [sharedPrefix, hr]
  split
  · simp only [slice]
    rw [if_pos (by omega)]
    simp
  · have e : r = v0.length - ignore := by omega
    simp only [slice]
    rw [if_pos (by omega)]
    simp only [Int.toNat_zero, List.drop_zero, Nat.sub_zero]
    congr 2
    omega

/-- For two or more strings that are all at least `ignore` bytes long,
`sharedSuffix` returns a suffix that every string has behind its first
`ignore` bytes. -/
theorem sharedSuffix_ok (ignore : Nat) (v0 v1 : Str) (rest : List Str)
    (h : ∀ v ∈ v0 :: v1 :: rest, ignore ≤ v.length) :
    ∃ sfx, sharedSuffix ignore (v0 :: v1 :: rest) = .ok sfx ∧
      ∀ v ∈ v0 :: v1 :: rest, sfx.length + ignore ≤ v.length ∧
        v.drop (v.length - sfx.length) = sfx := by
  have h0 : ignore ≤ v0.length := h v0 (List.mem_cons_self _ _)
  obtain ⟨s1, s2⟩ := sharedSuffixLoop_spec ignore v0 (v1 :: rest) (v0.length - ignore) 0
    (by omega) (fun v hv => ⟨by simpa using h v (List.mem_cons_of_mem _ hv), by simp⟩)
  generalize hr : sharedSuffixLoop ignore v0 (v1 :: rest) (v0.length - ignore) 0 = r at s1 s2
  have hl : (v0.drop (v0.length - r)).length = r := by
    rw [List.length_drop]; omega
  have key : ∀ v ∈ v0 :: v1 :: rest, (v0.drop (v0.length - r)).length + ignore ≤ v.length ∧
      v.drop (v.length - (v0.drop (v0.length - r)).length) = v0.drop (v0.length - r) := by
    intro v hv
    rw [hl]
    rcases List.mem_cons.mp hv with e | hv
    · subst e; exact ⟨by omega, rfl⟩
    · exact s2 v hv
  refine ⟨v0.drop (v0.length - r), ?_, key⟩
  simp only [sharedSuffix, hr]
  split
  · simp only [slice]
    rw [if_pos (by omega)]
    have e1 : ((v0.length : Int) - (r : Int)).toNat = v0.length - r := by omega
    rw [e1, List.take_of_length_le (by rw [hl]; omega)]
  · have e : r = v0.length - ignore := by omega
    simp only [slice]
    rw [if_pos (by omega)]
    have e1 : ((ignore : Nat) : Int).toNat = ignore := by omega
    rw [e1, List.take_of_length_le (by rw [List.length_drop]; omega)]
    congr 2
    omega

theorem index_eq_ok (l : List Str) (i : Nat) (h : i < l.length) :
    index l i = .ok (l.getD i []) := by
  simp [index, List.getD_eq_getElem?_getD, List.get?_eq_getElem?, List.getElem?_eq_getElem h]

/-- When every string of the range is long enough for the prefix and the
suffix, the loop of `recurse` collects the middles. -/
theorem varyingOf_ok (vs : List Str) (pfx sfx : Str) :
    ∀ (n start : Nat), start + n ≤ vs.length →
      (∀ v ∈ (vs.drop start).take n, pfx.length + sfx.length ≤ v.length) →
      varyingOf vs pfx sfx start n =
        .ok (((vs.drop start).take n).map (middleOf pfx.length sfx.length)) := by
  intro n
  induction n with
  | zero => intro start _ _; simp [varyingOf]
  | succ n ih =>
    intro start hn h
    have hlt : start < vs.length := by omega
    have hd : vs.drop start = vs.getD start [] :: vs.drop (start + 1) := by
      rw [List.drop_eq_getElem_cons hlt]
      simp [List.getD_eq_getElem?_getD, List.getElem?_eq_getElem hlt]
    have hlen := h (vs.getD start []) (by rw [hd]; simp)
    have hrest := ih (start + 1) (by omega) (fun v hv => h v (by
      rw [hd, List.take_succ_cons]; exact List.mem_cons_of_mem _ hv))
    simp only [varyingOf, Outcome.bind_def, Outcome.pure_def, index_eq_ok vs start hlt,
      Outcome.bind, hrest]
    simp only [slice]
    rw [if_pos (by omega)]
    simp only [Outcome.bind]
    rw [hd, List.take_succ_cons, List.map_cons]
    congr 2
    unfold middleOf
    congr 1
    omega

theorem middleOf_spec (pfx sfx v : Str) (h1 : pfx.length + sfx.length ≤ v.length)
    (h2 : v.take pfx.length = pfx) (h3 : v.drop (v.length - sfx.length) = sfx) :
    v = pfx ++ middleOf pfx.length sfx.length v ++ sfx := by
  unfold middleOf
  conv_lhs => rw [← List.take_append_drop pfx.length v, h2]
  rw [List.append_assoc]
  congr 1
  conv_lhs => rw [← List.take_append_drop (v.length - sfx.length - pfx.length)
    (v.drop pfx.length)]
  congr 1
  rw [List.drop_drop]
  conv_rhs => rw [← h3]
  congr 1
  omega

/-! ## The two orders on ASCII strings, and the suffix ranges -/

theorem valid_ascii : ∀ (s : Str), (∀ x ∈ s, x < 128) → ValidString s = true := by
  intro s
  unfold ValidString
  induction s with
  | nil => intro _; rfl
  | cons x t ih =>
    intro h
    have hx : x < 128 := h x (List.mem_cons_self _ _)
    have hd : DecodeRuneInString (x :: t) = (x, 1) := by
      simp only [DecodeRuneInString]
      rw [if_pos (by omega)]
    simp only [List.length_cons, validLoop, hd, List.drop_one, List.tail_cons]
    rw [ih (fun y hy => h y (List.mem_cons_of_mem _ hy))]
    have hne : x ≠ RuneError := by unfold RuneError; omega
    simp [hne]

theorem flatR_ascii (a : Str) (h : ∀ x ∈ a, x < 128) :
    flatR ((a.map fun x => ([x], x)).reverse) = a ∧
    (∀ p ∈ (a.map fun x => (([x] : Str), x)).reverse, Enc p.1 p.2) ∧
    ((a.map fun x => (([x] : Str), x)).reverse).map Prod.snd = a.reverse := by
  refine ⟨?_, ?_, ?_⟩
  · rw [flatR_reverse_eq]
    induction a with
    | nil => rfl
    | cons x t ih =>
      simp only [List.map_cons, List.flatten_cons, List.singleton_append, List.cons.injEq,
        true_and]
      exact ih (fun y hy => h y (List.mem_cons_of_mem _ hy))
  · intro p hp
    simp only [List.mem_reverse, List.mem_map] at hp
    obtain ⟨x, hx, rfl⟩ := hp
    exact ⟨h x hx, rfl⟩
  · rw [List.map_reverse, List.map_map]
    congr 1
    induction a with
    | nil => rfl
    | cons x t ih =>
      simp only [List.map_cons, Function.comp, List.cons.injEq, true_and]
      exact ih (fun y hy => h y (List.mem_cons_of_mem _ hy))

/-- On ASCII strings `Less` is the byte order of the reversed strings. -/
theorem less_ascii (a b : Str) (ha : ∀ x ∈ a, x < 128) (hb : ∀ x ∈ b, x < 128) :
    reverseStrings.Less a b = strLess a.reverse b.reverse := by
  obtain ⟨a1, a2, a3⟩ := flatR_ascii a ha
  obtain ⟨b1, b2, b3⟩ := flatR_ascii b hb
  have := less_flatR _ _ a2 b2
  rw [a1, b1, a3, b3] at this
  exact this

theorem allAlnum_ascii {vs : List Str} (h : AllAlnum vs) : ∀ v ∈ vs, ∀ x ∈ v, x < 128 :=
  fun v hv x hx => (isAlnum_not_special x (h v hv x hx)).2.2.2.2.2.2.2.2.2

theorem allAlnum_valid {vs : List Str} (h : AllAlnum vs) : ∀ v ∈ vs, ValidString v = true :=
  fun v hv => valid_ascii v (allAlnum_ascii h v hv)

theorem suffixView_subset (vs : List Str) : ∀ v ∈ suffixView vs, v ∈ vs := by
  intro v hv
  rw [suffixView_eq] at hv
  exact (goSort_perm reverseStrings.Less vs).subset
    ((List.destutter_sublist _ _).subset hv)

theorem suffixView_mem (vs : List Str) (v : Str) : v ∈ suffixView vs ↔ v ∈ vs := by
  constructor
  · exact suffixView_subset vs v
  · intro hv
    rw [suffixView_eq]
    exact (mem_destutter _ v).mpr ((goSort_perm reverseStrings.Less vs).symm.subset hv)

theorem prefixView_mem (vs : List Str) (v : Str) : v ∈ prefixView vs ↔ v ∈ vs := by
  unfold prefixView
  rw [(goSort_perm strLess (suffixView vs)).mem_iff, suffixView_mem]

/-- The suffix view of ASCII strings is strictly ascending in the reverse
order. -/
theorem suffixView_strict (vs : List Str) (h : AllAlnum vs) :
    (suffixView vs).Pairwise (fun a b => reverseStrings.Less a b = true) := by
  have hv := allAlnum_valid h
  have hperm := goSort_perm reverseStrings.Less vs
  have hsub := List.destutter_sublist (· ≠ ·) (goSort reverseStrings.Less vs)
  have hsorted := goSort_sorted reverseStrings.Less (fun s => ValidString s = true)
    less_irrefl (fun a b c ha hb hc => less_trans a b c ha hb hc)
    (fun a b ha hb => less_total a b ha hb) vs hv
  have hP : ∀ x ∈ (goSort reverseStrings.Less vs).destutter (· ≠ ·), ValidString x = true :=
    fun x hx => hv x (hperm.subset (hsub.subset hx))
  rw [suffixView_eq]
  exact strict_of_chain reverseStrings.Less (fun s => ValidString s = true)
    (fun a b c ha hb hc => less_trans a b c ha hb hc)
    (fun a b ha hb => less_total a b ha hb) _ hP (hsorted.sublist hsub)
    (List.destutter_is_chain' _ _)

theorem suffixView_nodup (vs : List Str) (h : AllAlnum vs) : (suffixView vs).Nodup := by
  rw [suffixView_eq]
  exact removeDups_nodup vs (Or.inl (allAlnum_valid h))

/-- The prefix view of ASCII strings is strictly ascending in the byte order. -/
theorem prefixView_strict (vs : List Str) (h : AllAlnum vs) :
    (prefixView vs).Pairwise (fun a b => strLess a b = true) := by
  have hnd : (prefixView vs).Nodup :=
    (goSort_perm strLess (suffixView vs)).nodup_iff.mpr (suffixView_nodup vs h)
  have hs := goSort_sorted strLess (fun _ => True) (fun a _ => strLess_irrefl a)
    (fun a b c _ _ _ => strLess_trans a b c) (fun a b _ _ => strLess_total a b)
    (suffixView vs) (fun _ _ => trivial)
  have := List.Pairwise.and hs hnd
  refine this.imp ?_
  intro a b hab
  rcases strLess_total a b hab.2 with h1 | h1
  · exact h1
  · rw [h1] at hab; exact Bool.noConfusion hab.1

theorem hasSuffix_reverse (v s : Str) : hasSuffix v s = hasPrefix v.reverse s.reverse := by
  unfold hasSuffix hasPrefix
  simp only [List.length_reverse]
  congr 1
  rw [List.take_reverse]
  simp only [decide_eq_decide]
  exact ⟨fun h => by rw [h], fun h => List.reverse_injective h⟩

theorem getD_map_reverse (l : List Str) (m : Nat) :
    (l.map List.reverse).getD m [] = (l.getD m []).reverse := by
  simp only [List.getD_eq_getElem?_getD, List.getElem?_map]
  cases l[m]? <;> simp

theorem findFirstLoop_congr (l1 l2 : List Str) (p1 p2 : Str → Bool)
    (h : ∀ m, p1 (l1.getD m []) = p2 (l2.getD m [])) :
    ∀ (n : Nat) (lo hi : Int), findFirstLoop l1 p1 n lo hi = findFirstLoop l2 p2 n lo hi := by
  intro n
  induction n with
  | zero => intro lo hi; rfl
  | succ n ih =>
    intro lo hi
    simp only [findFirstLoop, h, ih]

theorem findFirst_reverse (l : List Str) (p : Str) :
    findFirst l (fun s => hasSuffix s p) =
      findFirst (l.map List.reverse) (fun s => hasPrefix s p.reverse) ∧
    findFirst l (fun s => !hasSuffix s p) =
      findFirst (l.map List.reverse) (fun s => !hasPrefix s p.reverse) := by
  unfold findFirst
  simp only [List.length_map]
  constructor
  · rw [findFirstLoop_congr l (l.map List.reverse) (fun s => hasSuffix s p)
      (fun s => hasPrefix s p.reverse)
      (fun m => by simp only [getD_map_reverse, hasSuffix_reverse])]
  · rw [findFirstLoop_congr l (l.map List.reverse) (fun s => !hasSuffix s p)
      (fun s => !hasPrefix s p.reverse)
      (fun m => by simp only [getD_map_reverse, hasSuffix_reverse])]

theorem lookup_map_reverse (res : List (Str × commonSs)) (key : Str) :
    ((res.map fun e => (e.1.reverse, e.2)).lookup key.reverse).isSome =
      (res.lookup key).isSome := by
  induction res with
  | nil => rfl
  | cons e res ih =>
    obtain ⟨k, d⟩ := e
    simp only [List.map_cons, List.lookup_cons]
    have : (key.reverse == k.reverse) = (key == k) := by
      by_cases e : key = k
      · subst e; simp
      · have e2 : key.reverse ≠ k.reverse := fun h => e (List.reverse_injective h)
        simp [e, e2]
    rw [this]
    cases key == k
    · exact ih
    · rfl

/-- The suffix candidates of `vs` are the prefix candidates of the reversed
strings, with the keys reversed. -/
theorem commonSuffixes_eq_reverse (vs : List Str) (minLength : Nat) :
    commonSuffixes vs minLength =
      (commonPrefixes (vs.map List.reverse) minLength).map fun e => (e.1.reverse, e.2) := by
  unfold commonSuffixes commonPrefixes
  simp only [List.length_map]
  rw [← List.foldl_hom (fun res : List (Str × commonSs) => res.map fun e => (e.1.reverse, e.2))]
  · rfl
  · intro res i
    simp only [getD_map_reverse, commonSuffixLen]
    split
    · rfl
    · have ek : (vs.getD i []).drop ((vs.getD i []).length -
          commonPrefixLen (vs.getD i []).reverse (vs.getD (i + 1) []).reverse) =
          ((vs.getD i []).reverse.take
            (commonPrefixLen (vs.getD i []).reverse (vs.getD (i + 1) []).reverse)).reverse := by
        rw [List.take_reverse, List.reverse_reverse]
      rw [ek, lookup_map_reverse]
      split
      · rfl
      · have e0 : ∀ q : Str, q.reverse = [] ↔ q = [] := fun q => List.reverse_eq_nil_iff
        simp only [suffixStart, suffixEnd, prefixStart, prefixEnd, e0, List.map_take,
          List.map_drop, List.length_map, List.length_drop]
        rw [(findFirst_reverse _ _).1, (findFirst_reverse _ _).2]
        simp only [List.reverse_reverse, List.map_take, List.map_drop, List.map_append,
          List.map_cons, List.map_nil]

/-- On ASCII strings the ranges of the suffix candidates of a
list that is strictly ascending in the reverse order are the blocks of the
strings with that suffix. -/
theorem suffix_ranges_ascii (vs : List Str) (minLength : Nat) (hm : 1 ≤ minLength)
    (hs : vs.Pairwise (fun a b => reverseStrings.Less a b = true))
    (ha : ∀ v ∈ vs, ∀ x ∈ v, x < 128) :
    ∀ e ∈ commonSuffixes vs minLength, SuffixBlock vs minLength e := by
  intro e he
  rw [commonSuffixes_eq_reverse] at he
  obtain ⟨e1, he1, rfl⟩ := List.mem_map.mp he
  have hs2 : (vs.map List.reverse).Pairwise (fun a b => strLess a b = true) := by
    rw [List.pairwise_map]
    refine List.Pairwise.imp_of_mem ?_ hs
    intro a b ha1 hb1 hab
    rw [← less_ascii a b (ha a ha1) (ha b hb1)]
    exact hab
  obtain ⟨b1, b2, b3, b4, b5⟩ :=
    prefixBlock_of_sorted (vs.map List.reverse) minLength hs2 hm e1 he1
  simp only [List.length_map] at b3 b5
  refine ⟨by simpa using b1, b2, b3, b4, fun i hi => ?_⟩
  rw [b5 i hi, getD_map_reverse, hasSuffix_reverse]
  simp only [List.reverse_reverse]

/-! ## Exactness on ASCII letters and digits -/

theorem quoteMeta_alnum : ∀ (w : Str), (∀ b ∈ w, isAlnum b = true) → QuoteMeta w = w := by
  intro w
  induction w with
  | nil => intro _; rfl
  | cons c w ih =>
    intro h
    have hc := (isAlnum_not_special c (h c (List.mem_cons_self _ _))).1
    have := ih (fun b hb => h b (List.mem_cons_of_mem _ hb))
    simp only [QuoteMeta, List.flatMap_cons, hc, Bool.false_eq_true, if_false,
      List.singleton_append, List.cons.injEq, true_and] at this ⊢
    exact this

theorem mem_slice_getD (work : List Str) (start n : Nat) (v : Str)
    (hv : v ∈ (work.drop start).take n) :
    ∃ i, start ≤ i ∧ i < start + n ∧ i < work.length ∧ v = work.getD i [] := by
  obtain ⟨k, hk, rfl⟩ := List.getElem_of_mem hv
  simp only [List.length_take, List.length_drop] at hk
  refine ⟨start + k, by omega, by omega, by omega, ?_⟩
  rw [List.getElem_take, List.getElem_drop]
  simp [List.getD_eq_getElem?_getD, List.getElem?_eq_getElem (show start + k < work.length by omega)]

theorem slice_lang (work : List Str) (start stop : Nat) (h1 : start ≤ stop) :
    langOf work = langOf (work.take start) +
      (langOf ((work.drop start).take (stop - start)) + langOf (work.drop stop)) := by
  rw [← langOf_append, ← langOf_append]
  have e : work.drop stop = (work.drop start).drop (stop - start) := by
    rw [List.drop_drop]; congr 1; omega
  rw [e, List.take_append_drop, List.take_append_drop]

theorem langOf_nil : langOf [] = 0 := by
  ext x
  simp [mem_langOf]

theorem middles_lang (pfx sfx : Str) (R : List Str)
    (hR : ∀ v ∈ R, pfx.length + sfx.length ≤ v.length ∧ v.take pfx.length = pfx ∧
      v.drop (v.length - sfx.length) = sfx) :
    langOf [pfx] * langOf (R.map (middleOf pfx.length sfx.length)) * langOf [sfx] = langOf R := by
  ext x
  simp only [Language.mem_mul, mem_langOf, List.mem_singleton, List.mem_map]
  constructor
  · rintro ⟨u, ⟨a, rfl, b, ⟨v, hv, rfl⟩, rfl⟩, c, rfl, rfl⟩
    obtain ⟨h1, h2, h3⟩ := hR v hv
    rw [← middleOf_spec a c v h1 h2 h3]
    exact hv
  · intro hx
    obtain ⟨h1, h2, h3⟩ := hR x hx
    exact ⟨_, ⟨pfx, rfl, _, ⟨x, hx, rfl⟩, rfl⟩, sfx, rfl, (middleOf_spec pfx sfx x h1 h2 h3).symm⟩

theorem allAlnum_sublist {l1 l2 : List Str} (h : AllAlnum l2) (hs : ∀ v ∈ l1, v ∈ l2) :
    AllAlnum l1 := fun v hv => h v (hs v hv)

/-- The fragment that `recurse` builds for a range whose strings all have the
prefix and the suffix is a good pattern for the working slice, when the
recursive calls return good patterns. -/
theorem recurse_exact (self : List Str → Outcome Str) (W : Nat)
    (hself : ∀ l, weight l < W → l ≠ [] → AllAlnum l →
      ∃ p, self l = .ok p ∧ GoodPattern p (langOf l))
    (work : List Str) (hw : weight work ≤ W) (ha : AllAlnum work) (pfx sfx : Str)
    (hp : ∀ b ∈ pfx, isAlnum b = true) (hs : ∀ b ∈ sfx, isAlnum b = true)
    (h2 : 2 ≤ pfx.length + sfx.length) (data : commonSs)
    (hle : data.stop ≤ work.length) (htwo : 2 ≤ data.stop - data.start)
    (hR : ∀ v ∈ (work.drop data.start).take (data.stop - data.start),
      pfx.length + sfx.length ≤ v.length ∧ v.take pfx.length = pfx ∧
        v.drop (v.length - sfx.length) = sfx) :
    ∃ s, recurse self work pfx sfx data = .ok s ∧ GoodPattern s (langOf work) := by
  obtain ⟨c1, c2, c3⟩ := callsShrink_of_good work work (le_refl _) data.start data.stop pfx sfx
    (by omega) (by omega) (by omega)
  -- the middles
  have hvar := varyingOf_ok work pfx sfx (data.stop - data.start) data.start (by omega)
    (fun v hv => (hR v hv).1)
  have hMne : ((work.drop data.start).take (data.stop - data.start)).map
      (middleOf pfx.length sfx.length) ≠ [] := by
    intro e
    have := congrArg List.length e
    simp only [List.length_map, List.length_take, List.length_drop, List.length_nil] at this
    omega
  have hMa : AllAlnum (((work.drop data.start).take (data.stop - data.start)).map
      (middleOf pfx.length sfx.length)) := by
    intro w hw1 b hb
    obtain ⟨v, hv, rfl⟩ := List.mem_map.mp hw1
    have hvw : v ∈ work := List.mem_of_mem_drop (List.mem_of_mem_take hv)
    exact ha v hvw b (List.mem_of_mem_drop (List.mem_of_mem_take hb))
  obtain ⟨m, hm, hgm⟩ := hself _ (by have := c3 _ hvar; omega) hMne hMa
  obtain ⟨hwm, hwh⟩ := wrapMiddle_reads m _ hgm
  have hmid : ReadsSeq (pfx ++ wrapMiddle m ++ sfx)
      (langOf ((work.drop data.start).take (data.stop - data.start))) := by
    have := readsSeq_append (readsSeq_append (readsSeq_word pfx hp) hwm) (readsSeq_word sfx hs)
    rwa [middles_lang pfx sfx _ hR] at this
  have hmidlen : 2 ≤ (pfx ++ wrapMiddle m ++ sfx).length := by
    simp only [List.length_append]; omega
  have hmidhead : ∀ t, pfx ++ wrapMiddle m ++ sfx ≠ 124 :: t := by
    intro t e
    cases hpf : pfx with
    | cons c t1 =>
      rw [hpf] at e
      simp only [List.cons_append, List.cons.injEq] at e
      have := (isAlnum_not_special c (hp c (by rw [hpf]; exact List.mem_cons_self _ _))).2.1
      exact this e.1
    | nil =>
      rw [hpf] at e
      simp only [List.nil_append] at e
      cases hwf : wrapMiddle m with
      | cons c t1 =>
        rw [hwf] at e
        simp only [List.cons_append, List.cons.injEq] at e
        exact hwh c t1 hwf e.1
      | nil =>
        rw [hwf] at e
        simp only [List.nil_append] at e
        have := (isAlnum_not_special 124 (hs 124 (by rw [e]; exact List.mem_cons_self _ _))).2.1
        exact this rfl
  have hlang := slice_lang work data.start data.stop (by omega)
  unfold recurse
  simp only [Outcome.bind_def, Outcome.pure_def, dup, hvar, hm, Outcome.bind]
  by_cases hpos : data.start > 0
  · have hbne : work.take data.start ≠ [] := by
      intro e
      have := congrArg List.length e
      simp only [List.length_take, List.length_nil] at this
      omega
    obtain ⟨pb, hpb, hgb⟩ := hself _ (by have := c1 hpos; simp only [dup] at this; omega) hbne
      (allAlnum_sublist ha (fun v hv => List.mem_of_mem_take hv))
    simp only [if_pos hpos, hpb, Outcome.bind]
    by_cases hlt : data.stop < work.length
    · have hane : work.drop data.stop ≠ [] := by
        intro e
        have := congrArg List.length e
        simp only [List.length_drop, List.length_nil] at this
        omega
      obtain ⟨pa, hpa, hga⟩ := hself _ (by have := c2 hlt; simp only [dup] at this; omega) hane
        (allAlnum_sublist ha (fun v hv => List.mem_of_mem_drop hv))
      simp only [if_pos hlt, hpa, Outcome.bind]
      refine ⟨_, rfl, ?_⟩
      have e : pb ++ [124] ++ (pfx ++ wrapMiddle m ++ sfx) ++ [124] ++ pa =
          pb ++ 124 :: ((pfx ++ wrapMiddle m ++ sfx) ++ 124 :: pa) := by simp
      rw [e, hlang]
      refine good_bar_right _ _ _ _ hgb (readsAlt_bar (readsSeq_alt hmid) hga.1) ?_
      simp only [List.length_append, List.length_cons] at hmidlen ⊢
      omega
    · simp only [if_neg hlt]
      refine ⟨_, rfl, ?_⟩
      have e : pb ++ [124] ++ (pfx ++ wrapMiddle m ++ sfx) =
          pb ++ 124 :: (pfx ++ wrapMiddle m ++ sfx) := by simp
      have e2 : work.drop data.stop = [] := List.drop_eq_nil_of_le (by omega)
      rw [e, hlang, e2, langOf_nil, add_zero]
      exact good_bar_right _ _ _ _ hgb (readsSeq_alt hmid) hmidlen
  · have e0 : data.start = 0 := by omega
    have e1 : work.take data.start = [] := by rw [e0]; rfl
    simp only [if_neg hpos, Outcome.bind]
    rw [hlang, e1, langOf_nil, zero_add]
    by_cases hlt : data.stop < work.length
    · have hane : work.drop data.stop ≠ [] := by
        intro e
        have := congrArg List.length e
        simp only [List.length_drop, List.length_nil] at this
        omega
      obtain ⟨pa, hpa, hga⟩ := hself _ (by have := c2 hlt; simp only [dup] at this; omega) hane
        (allAlnum_sublist ha (fun v hv => List.mem_of_mem_drop hv))
      simp only [if_pos hlt, hpa, Outcome.bind]
      refine ⟨_, rfl, ?_⟩
      have e : [] ++ (pfx ++ wrapMiddle m ++ sfx) ++ [124] ++ pa =
          (pfx ++ wrapMiddle m ++ sfx) ++ 124 :: pa := by simp
      rw [e]
      refine good_bar_left _ _ _ _ (readsSeq_alt hmid) hmidhead ?_ hga.1
      intro e3
      rw [e3] at hmidlen
      simp at hmidlen
    · simp only [if_neg hlt]
      refine ⟨_, rfl, ?_⟩
      have e2 : work.drop data.stop = [] := List.drop_eq_nil_of_le (by omega)
      rw [e2, langOf_nil, add_zero, List.nil_append]
      exact good_of_head _ _ (readsSeq_alt hmid) hmidhead hmidlen

theorem two_of_length {α : Type} (R : List α) (h : 2 ≤ R.length) :
    ∃ v0 v1 rest, R = v0 :: v1 :: rest := by
  match R, h with
  | v0 :: v1 :: rest, _ => exact ⟨v0, v1, rest, rfl⟩

theorem hasPrefix_spec (v p : Str) (h : hasPrefix v p = true) :
    p.length ≤ v.length ∧ v.take p.length = p := by
  simpa [hasPrefix] using h

theorem hasSuffix_spec (v p : Str) (h : hasSuffix v p = true) :
    p.length ≤ v.length ∧ v.drop (v.length - p.length) = p := by
  simpa [hasSuffix] using h

/-- The fragment of a prefix candidate of a strictly ascending list of ASCII
strings is a good pattern for the list. -/
theorem prefixFragment_exact (self : List Str → Outcome Str) (W : Nat)
    (hself : ∀ l, weight l < W → l ≠ [] → AllAlnum l →
      ∃ p, self l = .ok p ∧ GoodPattern p (langOf l))
    (work : List Str) (hw : weight work ≤ W) (ha : AllAlnum work)
    (hsorted : work.Pairwise (fun a b => strLess a b = true))
    (c : Str × commonSs) (hc : c ∈ commonPrefixes work 2) :
    ∃ s, prefixFragment self work c = .ok s ∧ GoodPattern s (langOf work) := by
  obtain ⟨b1, b2, b3, b4, b5⟩ := prefixBlock_of_sorted work 2 hsorted (by omega) c hc
  have hlenR : ((work.drop c.2.start).take (c.2.stop - c.2.start)).length =
      c.2.stop - c.2.start := by
    simp only [List.length_take, List.length_drop]; omega
  obtain ⟨v0, v1, rest, hR⟩ := two_of_length _ (by rw [hlenR]; exact b4)
  have hpre : ∀ v ∈ (work.drop c.2.start).take (c.2.stop - c.2.start),
      c.1.length ≤ v.length ∧ v.take c.1.length = c.1 := by
    intro v hv
    obtain ⟨i, i1, i2, i3, rfl⟩ := mem_slice_getD _ _ _ _ hv
    exact hasPrefix_spec _ _ ((b5 i i3).mp ⟨i1, by omega⟩)
  obtain ⟨sfx, hsfx, hall⟩ := sharedSuffix_ok c.1.length v0 v1 rest
    (fun v hv => (hpre v (by rw [hR]; exact hv)).1)
  have hv0 : v0 ∈ work := by
    have : v0 ∈ (work.drop c.2.start).take (c.2.stop - c.2.start) := by
      rw [hR]; exact List.mem_cons_self _ _
    exact List.mem_of_mem_drop (List.mem_of_mem_take this)
  have hv0R : v0 ∈ v0 :: v1 :: rest := List.mem_cons_self _ _
  have hpa : ∀ b ∈ c.1, isAlnum b = true := by
    intro b hb
    rw [← (hpre v0 (by rw [hR]; exact hv0R)).2] at hb
    exact ha v0 hv0 b (List.mem_of_mem_take hb)
  have hsa : ∀ b ∈ sfx, isAlnum b = true := by
    intro b hb
    rw [← (hall v0 hv0R).2] at hb
    exact ha v0 hv0 b (List.mem_of_mem_drop hb)
  simp only [prefixFragment, Outcome.bind_def, hR, hsfx, Outcome.bind]
  refine recurse_exact self W hself work hw ha c.1 sfx hpa hsa (by omega) c.2 b3 b4 ?_
  intro v hv
  rw [hR] at hv
  have h1 := hall v hv
  have h2 := hpre v (by rw [hR]; exact hv)
  exact ⟨by omega, h2.2, h1.2⟩

/-- The fragment of a suffix candidate of a list of ASCII strings that is
strictly ascending in the reverse order is a good pattern for the list. -/
theorem suffixFragment_exact (self : List Str → Outcome Str) (W : Nat)
    (hself : ∀ l, weight l < W → l ≠ [] → AllAlnum l →
      ∃ p, self l = .ok p ∧ GoodPattern p (langOf l))
    (work : List Str) (hw : weight work ≤ W) (ha : AllAlnum work)
    (hsorted : work.Pairwise (fun a b => reverseStrings.Less a b = true))
    (c : Str × commonSs) (hc : c ∈ commonSuffixes work 2) :
    ∃ s, suffixFragment self work c = .ok s ∧ GoodPattern s (langOf work) := by
  obtain ⟨b1, b2, b3, b4, b5⟩ :=
    suffix_ranges_ascii work 2 (by omega) hsorted (allAlnum_ascii ha) c hc
  have hlenR : ((work.drop c.2.start).take (c.2.stop - c.2.start)).length =
      c.2.stop - c.2.start := by
    simp only [List.length_take, List.length_drop]; omega
  obtain ⟨v0, v1, rest, hR⟩ := two_of_length _ (by rw [hlenR]; exact b4)
  have hsuf : ∀ v ∈ (work.drop c.2.start).take (c.2.stop - c.2.start),
      c.1.length ≤ v.length ∧ v.drop (v.length - c.1.length) = c.1 := by
    intro v hv
    obtain ⟨i, i1, i2, i3, rfl⟩ := mem_slice_getD _ _ _ _ hv
    exact hasSuffix_spec _ _ ((b5 i i3).mp ⟨i1, by omega⟩)
  obtain ⟨pfx, hpfx, _, hall⟩ := sharedPrefix_ok c.1.length v0 v1 rest
    (fun v hv => (hsuf v (by rw [hR]; exact hv)).1)
  have hv0 : v0 ∈ work := by
    have : v0 ∈ (work.drop c.2.start).take (c.2.stop - c.2.start) := by
      rw [hR]; exact List.mem_cons_self _ _
    exact List.mem_of_mem_drop (List.mem_of_mem_take this)
  have hv0R : v0 ∈ v0 :: v1 :: rest := List.mem_cons_self _ _
  have hsa : ∀ b ∈ c.1, isAlnum b = true := by
    intro b hb
    rw [← (hsuf v0 (by rw [hR]; exact hv0R)).2] at hb
    exact ha v0 hv0 b (List.mem_of_mem_drop hb)
  have hpa : ∀ b ∈ pfx, isAlnum b = true := by
    intro b hb
    rw [← (hall v0 hv0R).2] at hb
    exact ha v0 hv0 b (List.mem_of_mem_take hb)
  simp only [suffixFragment, Outcome.bind_def, hR, hpfx, Outcome.bind]
  refine recurse_exact self W hself work hw ha pfx c.1 hpa hsa (by omega) c.2 b3 b4 ?_
  intro v hv
  rw [hR] at hv
  have h1 := hall v hv
  have h2 := hsuf v (by rw [hR]; exact hv)
  exact ⟨by omega, h1.2, h2.2⟩

theorem evalAll_all_ok {α : Type} (f : α → Outcome Str) (Q : Str → Prop) :
    ∀ (l : List α), (∀ c ∈ l, ∃ s, f c = .ok s ∧ Q s) →
      ∃ fs, evalAll f l = .ok fs ∧ ∀ s ∈ fs, Q s := by
  intro l
  induction l with
  | nil => intro _; exact ⟨[], rfl, by simp⟩
  | cons c l ih =>
    intro h
    obtain ⟨s, hs, hq⟩ := h c (List.mem_cons_self _ _)
    obtain ⟨fs, hfs, hqs⟩ := ih (fun d hd => h d (List.mem_cons_of_mem _ hd))
    refine ⟨s :: fs, ?_, ?_⟩
    · simp only [evalAll, Outcome.bind_def, Outcome.pure_def, hs, hfs, Outcome.bind]
    · intro x hx
      rcases List.mem_cons.mp hx with e | hx
      · rw [e]; exact hq
      · exact hqs x hx

theorem langOf_congr {l1 l2 : List Str} (h : ∀ v, v ∈ l1 ↔ v ∈ l2) : langOf l1 = langOf l2 := by
  ext x
  exact h x

/-- The general case returns a good pattern for its arguments when they are
ASCII letters and digits and the recursive calls return good patterns. -/
theorem generalCase_exact (self : List Str → Outcome Str) (vs : List Str)
    (hne : vs ≠ []) (ha : AllAlnum vs)
    (hself : ∀ l, weight l < weight vs → l ≠ [] → AllAlnum l →
      ∃ p, self l = .ok p ∧ GoodPattern p (langOf l)) :
    ∃ p, (generalCase self vs).map Prod.fst = .ok p ∧ GoodPattern p (langOf vs) := by
  have has : AllAlnum (suffixView vs) :=
    allAlnum_sublist ha (fun v hv => (suffixView_mem vs v).mp hv)
  have hap : AllAlnum (prefixView vs) :=
    allAlnum_sublist ha (fun v hv => (prefixView_mem vs v).mp hv)
  have els : langOf (suffixView vs) = langOf vs := langOf_congr (suffixView_mem vs)
  have elp : langOf (prefixView vs) = langOf vs := langOf_congr (prefixView_mem vs)
  obtain ⟨fs1, hfs1, hq1⟩ := evalAll_all_ok (suffixFragment self (suffixView vs))
    (fun s => GoodPattern s (langOf vs)) (commonSuffixes (suffixView vs) 2)
    (fun c hc => by
      have := suffixFragment_exact self (weight vs) hself (suffixView vs) (weight_suffixView vs)
        has (suffixView_strict vs ha) c hc
      rwa [els] at this)
  obtain ⟨fs2, hfs2, hq2⟩ := evalAll_all_ok (prefixFragment self (prefixView vs))
    (fun s => GoodPattern s (langOf vs)) (commonPrefixes (prefixView vs) 2)
    (fun c hc => by
      have := prefixFragment_exact self (weight vs) hself (prefixView vs) (weight_prefixView vs)
        hap (prefixView_strict vs ha) c hc
      rwa [elp] at this)
  rw [generalCase_eq_ord, generalCaseOrd_eq, hfs1, hfs2]
  simp only [Outcome.bind, finish_fst]
  refine ⟨_, rfl, ?_⟩
  have hb := bestSpec_foldl (naiveCost vs) (fs1 ++ fs2) [] _ (bestSpec_init (naiveCost vs))
  simp only [List.nil_append] at hb
  generalize (fs1 ++ fs2).foldl Best.consider ⟨naiveCost vs, [], false⟩ = b at hb
  rcases hb with ⟨hf, _, _, _⟩ | ⟨hf, hmem, _, _, _⟩
  · rw [hf]
    simp only [Bool.false_eq_true, if_false]
    have hq : (prefixView vs).map QuoteMeta = prefixView vs := by
      conv_rhs => rw [← List.map_id (prefixView vs)]
      exact List.map_congr_left (fun w hw => quoteMeta_alnum w (hap w hw))
    rw [hq, ← elp]
    refine good_joinBar _ ?_ ?_ hap
    · obtain ⟨v, hv⟩ := List.exists_mem_of_ne_nil vs hne
      exact List.ne_nil_of_mem ((prefixView_mem vs v).mpr hv)
    · exact (goSort_perm strLess (suffixView vs)).nodup_iff.mpr (suffixView_nodup vs ha)
  · rw [hf]
    simp only [if_true]
    rcases List.mem_append.mp hmem with h | h
    · exact hq1 _ h
    · exact hq2 _ h

/-- For every non-empty list of strings of ASCII letters and digits
`ShortRegexpString` returns a good pattern for the list. -/
theorem ShortRegexpString_good : ∀ (W : Nat) (vs : List Str), weight vs < W → vs ≠ [] →
    AllAlnum vs → ∃ p, ShortRegexpString vs = .ok p ∧ GoodPattern p (langOf vs) := by
  intro W
  induction W with
  | zero => intro vs h; omega
  | succ W ih =>
    intro vs hw hne ha
    match vs, hw, hne, ha with
    | [v], _, _, ha =>
      refine ⟨QuoteMeta v, rfl, ?_⟩
      rw [quoteMeta_alnum v (ha v (List.mem_cons_self _ _))]
      exact good_word v (ha v (List.mem_cons_self _ _))
    | a :: b :: t, hw, hne, ha =>
      rw [ShortRegexpString_unfold _ (by simp)]
      exact generalCase_exact ShortRegexpString _ hne ha
        (fun l hl hlne hla => ih l (by omega) hlne hla)

/-- C20: for every list of strings made only of ASCII letters and digits,
`ShortRegexpString` returns a pattern (it does not panic), and that pattern,
read as a regular expression, fully matches a string exactly when the string
is one of the arguments. -/
theorem exact_on_ascii_letters_and_digits (vs : List Str)
    (h : ∀ v ∈ vs, ∀ b ∈ v, isAlnum b = true) :
    ∃ p, ShortRegexpString vs = .ok p ∧ ∀ s : Str, fullMatch p s = true ↔ s ∈ vs := by
  by_cases hne : vs = []
  · subst hne
    refine ⟨unmatchable, rfl, fun s => ?_⟩
    have e : unmatchable = ascii "$.^" := by decide
    simp [e, fullMatch, parse_unmatchable, ends_unmatchable]
  · obtain ⟨p, hp, hg⟩ := ShortRegexpString_good (weight vs + 1) vs (by omega) hne h
    exact ⟨p, hp, fun s => by rw [readsAlt_fullMatch hg.1 s, mem_langOf]⟩

/-- C20 at the arguments `foobar`, `foobaz`, `bar`, `baz`, `foo`: the returned
pattern is `ba(r|z)|foo(bar|baz)?`, and the pattern returned fully matches
exactly these five strings. -/
theorem exact_on_ascii_letters_and_digits_witness :
    (∀ v ∈ [ascii "foobar", ascii "foobaz", ascii "bar", ascii "baz", ascii "foo"],
      ∀ b ∈ v, isAlnum b = true) ∧
    ShortRegexpString [ascii "foobar", ascii "foobaz", ascii "bar", ascii "baz", ascii "foo"] =
      .ok (ascii "ba(r|z)|foo(bar|baz)?") ∧
    ∃ p, ShortRegexpString
        [ascii "foobar", ascii "foobaz", ascii "bar", ascii "baz", ascii "foo"] = .ok p ∧
      ∀ s : Str, fullMatch p s = true ↔
        s ∈ [ascii "foobar", ascii "foobaz", ascii "bar", ascii "baz", ascii "foo"] :=
  ⟨by decide, by decide, exact_on_ascii_letters_and_digits _ (by decide)⟩

/-! ## The reverse sort as a parameter

The theorems of this part hold for every function `srt` that returns a
rearrangement of its argument, hence for whatever `sort.Sort` does with a
`Less` that is not a strict total order on the strings at hand. -/

theorem ShortRegexpStringFuelWith_general (srt : List Str → List Str) (fuel : Nat) (a b : Str)
    (t : List Str) :
    ShortRegexpStringFuelWith srt (fuel + 1) (a :: b :: t) =
      generalCaseWith srt (fun l => (ShortRegexpStringFuelWith srt fuel l).map Prod.fst)
        (a :: b :: t) := rfl

/-- With the insertion sort `goSort` the embedding is `ShortRegexpStringFuel`. -/
theorem ShortRegexpStringFuelWith_goSort : ∀ (fuel : Nat) (vs : List Str),
    ShortRegexpStringFuelWith (goSort reverseStrings.Less) fuel vs =
      ShortRegexpStringFuel fuel vs := by
  intro fuel
  induction fuel with
  | zero => intro vs; rfl
  | succ fuel ih =>
    intro vs
    match vs with
    | [] => rfl
    | [v] => rfl
    | a :: b :: t =>
      rw [ShortRegexpStringFuelWith_general, ShortRegexpStringFuel_general]
      have e : (fun l => (ShortRegexpStringFuelWith (goSort reverseStrings.Less) fuel l).map
          Prod.fst) = fun l => (ShortRegexpStringFuel fuel l).map Prod.fst := by
        funext l
        rw [ih l]
      rw [e]
      rfl

/-- With the insertion sort `goSort` the embedding is `ShortRegexpString`. -/
theorem ShortRegexpStringWith_goSort (vs : List Str) :
    ShortRegexpStringWith (goSort reverseStrings.Less) vs = ShortRegexpString vs := by
  unfold ShortRegexpStringWith ShortRegexpString
  rw [ShortRegexpStringFuelWith_goSort]

theorem suffixViewWith_eq (srt : List Str → List Str) (vs : List Str) :
    suffixViewWith srt vs = (srt vs).destutter (· ≠ ·) :=
  removeDups_eq_destutter _

theorem weight_suffixViewWith (srt : List Str → List Str) (hsrt : ∀ l, (srt l).Perm l)
    (vs : List Str) : weight (suffixViewWith srt vs) ≤ weight vs := by
  rw [suffixViewWith_eq, ← weight_perm (hsrt vs)]
  exact weight_sublist (List.destutter_sublist _ _)

theorem weight_prefixViewWith (srt : List Str → List Str) (hsrt : ∀ l, (srt l).Perm l)
    (vs : List Str) : weight (prefixViewWith srt vs) ≤ weight vs := by
  unfold prefixViewWith
  rw [weight_perm (goSort_perm strLess _)]
  exact weight_suffixViewWith srt hsrt vs

theorem generalCaseWith_eq_ord (srt : List Str → List Str) (self : List Str → Outcome Str)
    (vs : List Str) :
    generalCaseWith srt self vs =
      generalCaseOrdWith srt self vs (commonSuffixes (suffixViewWith srt vs) 2)
        (commonPrefixes (prefixViewWith srt vs) 2) := rfl

/-- The general case never returns a pattern longer than the baseline, for
every reverse sort. -/
theorem generalCaseWith_length (srt : List Str → List Str) (hsrt : ∀ l, (srt l).Perm l)
    (self : List Str → Outcome Str) (vs : List Str) (r : Str)
    (m : List Str) (h2 : 2 ≤ vs.length) (h : generalCaseWith srt self vs = .ok (r, m)) :
    (r.length : Int) ≤ naiveCost vs := by
  simp only [generalCaseWith, Outcome.bind_def, Outcome.bind_eq_ok, removeDups_take] at h
  obtain ⟨b1, h1, b2, hb2, h3⟩ := h
  have inv0 : Best.Inv (naiveCost vs) ⟨naiveCost vs, [], false⟩ :=
    ⟨fun hf => by simp at hf, fun _ => ⟨rfl, rfl⟩⟩
  have inv1 := suffixPass_inv self _ (naiveCost vs) _ _ _ inv0 h1
  have inv2 := prefixPass_inv self _ (naiveCost vs) _ _ _ inv1 hb2
  by_cases hf : b2.found = true
  · rw [if_pos hf, Outcome.pure_def] at h3
    simp only [Outcome.ok.injEq, Prod.mk.injEq] at h3
    have := inv2.1 hf
    rw [← h3.1]
    omega
  · rw [if_neg hf, Outcome.pure_def] at h3
    simp only [Outcome.ok.injEq, Prod.mk.injEq] at h3
    rw [← h3.1]
    have hp2 : (goSort strLess ((srt vs).destutter (· ≠ ·))).Perm
        ((srt vs).destutter (· ≠ ·)) := goSort_perm _ _
    have hsub : ((srt vs).destutter (· ≠ ·)).Sublist (srt vs) := List.destutter_sublist _ _
    have hp0 : (srt vs).Perm vs := hsrt vs
    have hsum : ((goSort strLess ((srt vs).destutter (· ≠ ·))).map
        fun v => (QuoteMeta v).length).sum ≤ (vs.map fun v => (QuoteMeta v).length).sum := by
      rw [(hp2.map _).sum_eq, ← (hp0.map _).sum_eq]
      exact quoteSum_le_of_sublist hsub
    have hlen : (goSort strLess ((srt vs).destutter (· ≠ ·))).length ≤ vs.length := by
      rw [hp2.length_eq, ← hp0.length_eq]
      exact hsub.length_le
    have hj := joinBar_length ((goSort strLess ((srt vs).destutter (· ≠ ·))).map QuoteMeta)
    rw [List.map_map, List.length_map] at hj
    have hcomp : (List.length ∘ QuoteMeta) = fun v => (QuoteMeta v).length := rfl
    rw [hcomp] at hj
    rw [naiveCost_eq]
    by_cases he : goSort strLess ((srt vs).destutter (· ≠ ·)) = []
    · have hz : (joinBar (List.map QuoteMeta
          (goSort strLess ((srt vs).destutter (· ≠ ·))))).length = 0 := by
        simp [he, joinBar, List.intercalate]
      rw [hz]
      have h2i : (2 : Int) ≤ vs.length := by exact_mod_cast h2
      omega
    · have he2 : List.map QuoteMeta (goSort strLess ((srt vs).destutter (· ≠ ·))) ≠ [] := by
        simpa using he
      rw [if_neg he2] at hj
      have : (((goSort strLess ((srt vs).destutter (· ≠ ·))).map
          fun v => (QuoteMeta v).length).sum : Int) ≤
          ((vs.map fun v => (QuoteMeta v).length).sum : Nat) := by exact_mod_cast hsum
      have : ((goSort strLess ((srt vs).destutter (· ≠ ·))).length : Int) ≤ vs.length := by
        exact_mod_cast hlen
      omega

theorem generalCaseWith_ne_outOfFuel (srt : List Str → List Str) (hsrt : ∀ l, (srt l).Perm l)
    (self : List Str → Outcome Str) (vs : List Str)
    (hself : ∀ l, weight l < weight vs → self l ≠ .outOfFuel) :
    generalCaseWith srt self vs ≠ .outOfFuel := by
  have hw1 := weight_suffixViewWith srt hsrt vs
  have hw2 := weight_prefixViewWith srt hsrt vs
  rw [generalCaseWith_eq_ord]
  unfold generalCaseOrdWith
  simp only [Outcome.bind_def]
  refine Outcome.bind_ne_outOfFuel
    (suffixPass_ne_outOfFuel self _ hself (suffixViewWith srt vs) hw1 _ _
      (commonSuffixes_good _ 2)) (fun b1 _ => ?_)
  refine Outcome.bind_ne_outOfFuel
    (prefixPass_ne_outOfFuel self _ hself (prefixViewWith srt vs) hw2 _ _
      (commonPrefixes_good _ 2)) (fun b2 _ => ?_)
  split <;> simp [Outcome.pure_def]

/-- With a budget above the weight of the arguments the budget is not used
up, for every reverse sort. -/
theorem ShortRegexpStringFuelWith_ne_outOfFuel (srt : List Str → List Str)
    (hsrt : ∀ l, (srt l).Perm l) :
    ∀ (fuel : Nat) (vs : List Str), weight vs < fuel →
      ShortRegexpStringFuelWith srt fuel vs ≠ .outOfFuel := by
  intro fuel
  induction fuel with
  | zero => intro vs h; omega
  | succ fuel ih =>
    intro vs h
    match vs, h with
    | [], _ => simp [ShortRegexpStringFuelWith]
    | [v], _ => simp [ShortRegexpStringFuelWith]
    | a :: b :: t, h =>
      rw [ShortRegexpStringFuelWith_general]
      apply generalCaseWith_ne_outOfFuel srt hsrt
      intro l hl
      have := ih l (by omega)
      cases hx : ShortRegexpStringFuelWith srt fuel l with
      | ok p => simp [Outcome.map]
      | panic => simp [Outcome.map]
      | outOfFuel => exact absurd hx this

theorem ShortRegexpStringWith_ne_outOfFuel (srt : List Str → List Str)
    (hsrt : ∀ l, (srt l).Perm l) (vs : List Str) :
    ShortRegexpStringWith srt vs ≠ .outOfFuel := by
  unfold ShortRegexpStringWith
  have := ShortRegexpStringFuelWith_ne_outOfFuel srt hsrt (weight vs + 1) vs (by omega)
  cases hx : ShortRegexpStringFuelWith srt (weight vs + 1) vs with
  | ok p => simp [Outcome.map]
  | panic => simp [Outcome.map]
  | outOfFuel => exact absurd hx this

/-- The general case consults the recursive call only on lists of smaller
weight than its arguments, for every reverse sort. -/
theorem generalCaseOrdWith_congr (srt : List Str → List Str) (hsrt : ∀ l, (srt l).Perm l)
    (self1 self2 : List Str → Outcome Str) (vs : List Str)
    (cs cp : List (Str × commonSs))
    (hcs : ∀ e ∈ cs, GoodEntry (suffixViewWith srt vs).length 2 e)
    (hcp : ∀ e ∈ cp, GoodEntry (prefixViewWith srt vs).length 2 e)
    (h : ∀ l, weight l < weight vs → self1 l = self2 l) :
    generalCaseOrdWith srt self1 vs cs cp = generalCaseOrdWith srt self2 vs cs cp := by
  have e1 := suffixPass_congr self1 self2 vs (suffixViewWith srt vs) h
    (weight_suffixViewWith srt hsrt vs) cs ⟨naiveCost vs, [], false⟩ hcs
  unfold generalCaseOrdWith
  simp only [Outcome.bind_def]
  change Outcome.bind (suffixPass self1 (suffixViewWith srt vs) cs _) _ =
    Outcome.bind (suffixPass self2 (suffixViewWith srt vs) cs _) _
  rw [e1]
  refine Outcome.bind_congr (fun b1 _ => ?_)
  change Outcome.bind (prefixPass self1 (prefixViewWith srt vs) cp _) _ =
    Outcome.bind (prefixPass self2 (prefixViewWith srt vs) cp _) _
  rw [prefixPass_congr self1 self2 vs (prefixViewWith srt vs) h
    (weight_prefixViewWith srt hsrt vs) cp b1 hcp]

theorem generalCaseWith_congr_weight (srt : List Str → List Str) (hsrt : ∀ l, (srt l).Perm l)
    (self1 self2 : List Str → Outcome Str) (vs : List Str)
    (h : ∀ l, weight l < weight vs → self1 l = self2 l) :
    generalCaseWith srt self1 vs = generalCaseWith srt self2 vs := by
  rw [generalCaseWith_eq_ord, generalCaseWith_eq_ord]
  exact generalCaseOrdWith_congr srt hsrt self1 self2 vs _ _ (commonSuffixes_good _ 2)
    (commonPrefixes_good _ 2) h

/-- Any two budgets above the weight of the arguments give the same outcome,
for every reverse sort. -/
theorem ShortRegexpStringFuelWith_stable (srt : List Str → List Str)
    (hsrt : ∀ l, (srt l).Perm l) :
    ∀ (fuel1 fuel2 : Nat) (vs : List Str), weight vs < fuel1 → weight vs < fuel2 →
      ShortRegexpStringFuelWith srt fuel1 vs = ShortRegexpStringFuelWith srt fuel2 vs := by
  intro fuel1
  induction fuel1 with
  | zero => intro _ vs h; omega
  | succ f1 ih =>
    intro fuel2 vs h1 h2
    cases fuel2 with
    | zero => omega
    | succ f2 =>
      match vs, h1, h2 with
      | [], _, _ => rfl
      | [v], _, _ => rfl
      | a :: b :: t, h1, h2 =>
        rw [ShortRegexpStringFuelWith_general, ShortRegexpStringFuelWith_general]
        apply generalCaseWith_congr_weight srt hsrt
        intro l hl
        rw [ih f2 l (by omega) (by omega)]

theorem ShortRegexpStringWith_of_fuel (srt : List Str → List Str) (hsrt : ∀ l, (srt l).Perm l)
    (fuel : Nat) (vs : List Str) (h : weight vs < fuel) :
    (ShortRegexpStringFuelWith srt fuel vs).map Prod.fst = ShortRegexpStringWith srt vs := by
  unfold ShortRegexpStringWith
  rw [ShortRegexpStringFuelWith_stable srt hsrt fuel (weight vs + 1) vs h (by omega)]

/-- The recursion equation of `ShortRegexpString` for two or more arguments,
for every reverse sort. -/
theorem ShortRegexpStringWith_unfold (srt : List Str → List Str) (hsrt : ∀ l, (srt l).Perm l)
    (vs : List Str) (h2 : 2 ≤ vs.length) :
    ShortRegexpStringWith srt vs =
      (generalCaseWith srt (ShortRegexpStringWith srt) vs).map Prod.fst := by
  match vs, h2 with
  | a :: b :: t, _ =>
    conv_lhs => unfold ShortRegexpStringWith
    rw [ShortRegexpStringFuelWith_general]
    rw [generalCaseWith_congr_weight srt hsrt _ (ShortRegexpStringWith srt) (a :: b :: t)
      (fun l hl => ShortRegexpStringWith_of_fuel srt hsrt _ l hl)]

/-- The general case for the reverse sort `srt` as: compute the fragments of
the suffix candidates, then those of the prefix candidates, choose among them,
finish. -/
theorem generalCaseOrdWith_eq (srt : List Str → List Str) (self : List Str → Outcome Str)
    (vs : List Str) (cs cp : List (Str × commonSs)) :
    generalCaseOrdWith srt self vs cs cp =
      (evalAll (suffixFragment self (suffixViewWith srt vs)) cs).bind fun fs1 =>
        (evalAll (prefixFragment self (prefixViewWith srt vs)) cp).bind fun fs2 =>
          finishWith srt vs ((fs1 ++ fs2).foldl Best.consider ⟨naiveCost vs, [], false⟩) := by
  unfold generalCaseOrdWith
  simp only [Outcome.bind_def]
  change Outcome.bind (suffixPass self (suffixViewWith srt vs) cs _)
    (fun b1 => Outcome.bind (prefixPass self (prefixViewWith srt vs) cp b1)
      (fun b2 => finishWith srt vs b2)) = _
  rw [suffixPass_eq_evalAll, foldl_consider_ok_bind]
  refine Outcome.bind_congr (fun fs1 _ => ?_)
  rw [prefixPass_eq_evalAll, foldl_consider_ok_bind]
  refine Outcome.bind_congr (fun fs2 _ => ?_)
  rw [List.foldl_append]

theorem finishWith_fst (srt : List Str → List Str) (vs : List Str) (b : Best) :
    (finishWith srt vs b).map Prod.fst =
      .ok (if b.found then b.best else joinBar ((prefixViewWith srt vs).map QuoteMeta)) := by
  unfold finishWith
  cases b.found <;> rfl

/-- The general case gives the same outcome for every order of the two
candidate lists, for every reverse sort. -/
theorem generalCaseOrdWith_perm (srt : List Str → List Str) (self : List Str → Outcome Str)
    (hself : ∀ l, self l ≠ .outOfFuel) (vs : List Str)
    (cs1 cs2 cp1 cp2 : List (Str × commonSs)) (hs : cs1.Perm cs2) (hp : cp1.Perm cp2)
    (gs : ∀ e ∈ cs1, GoodEntry (suffixViewWith srt vs).length 2 e)
    (gp : ∀ e ∈ cp1, GoodEntry (prefixViewWith srt vs).length 2 e) :
    generalCaseOrdWith srt self vs cs1 cp1 = generalCaseOrdWith srt self vs cs2 cp2 := by
  rw [generalCaseOrdWith_eq, generalCaseOrdWith_eq]
  have hS := evalAll_perm (suffixFragment self (suffixViewWith srt vs)) hs
    (fun c hc => suffixFragment_ne_outOfFuel self hself _ c (gs c hc))
  have hP := evalAll_perm (prefixFragment self (prefixViewWith srt vs)) hp
    (fun c hc => prefixFragment_ne_outOfFuel self hself _ c (gp c hc))
  rcases hS with ⟨e1, e2⟩ | ⟨fs1, fs2, e1, e2, hfs⟩
  · rw [e1, e2]
    rfl
  · rw [e1, e2]
    simp only [Outcome.bind]
    rcases hP with ⟨e3, e4⟩ | ⟨ft1, ft2, e3, e4, hft⟩
    · rw [e3, e4]
    · rw [e3, e4]
      simp only [Outcome.bind]
      rw [foldl_consider_perm (naiveCost vs) _ _ (hfs.append hft)]

/-- One call with the candidate maps visited in any order, the nested calls
being `ShortRegexpStringWith srt`, gives the outcome of
`ShortRegexpStringWith srt`. -/
theorem generalCaseOrdWith_any_order (srt : List Str → List Str) (hsrt : ∀ l, (srt l).Perm l)
    (vs : List Str) (h2 : 2 ≤ vs.length) (cs cp : List (Str × commonSs))
    (hcs : cs.Perm (commonSuffixes (suffixViewWith srt vs) 2))
    (hcp : cp.Perm (commonPrefixes (prefixViewWith srt vs) 2)) :
    (generalCaseOrdWith srt (ShortRegexpStringWith srt) vs cs cp).map Prod.fst =
      ShortRegexpStringWith srt vs := by
  rw [ShortRegexpStringWith_unfold srt hsrt vs h2, generalCaseWith_eq_ord]
  rw [generalCaseOrdWith_perm srt (ShortRegexpStringWith srt)
    (ShortRegexpStringWith_ne_outOfFuel srt hsrt) vs cs _ cp _ hcs hcp
    (good_of_perm hcs (commonSuffixes_good _ 2)) (good_of_perm hcp (commonPrefixes_good _ 2))]

/-- Every outcome of a run in which each call, nested ones too, visits its
candidate maps in some order is the outcome of `ShortRegexpStringWith srt`. -/
theorem ShortRegexpStringAny_unique (srt : List Str → List Str) (hsrt : ∀ l, (srt l).Perm l) :
    ∀ (fuel : Nat) (vs : List Str) (o : Outcome Str),
      weight vs < fuel → ShortRegexpStringAny srt fuel vs o → o = ShortRegexpStringWith srt vs := by
  intro fuel
  induction fuel with
  | zero => intro vs o h; omega
  | succ fuel ih =>
    intro vs o h hany
    match vs, h, hany with
    | [], _, hany => exact hany
    | [v], _, hany => exact hany
    | a :: b :: t, h, hany =>
      obtain ⟨self, cs, cp, hself, hcs, hcp, ho⟩ := hany
      rw [ho]
      rw [generalCaseOrdWith_congr srt hsrt self (ShortRegexpStringWith srt) (a :: b :: t) cs cp
        (good_of_perm hcs (commonSuffixes_good _ 2)) (good_of_perm hcp (commonPrefixes_good _ 2))
        (fun l hl => ih l (self l) (by omega) (hself l))]
      exact generalCaseOrdWith_any_order srt hsrt _ (by simp) cs cp hcs hcp

/-- Some run exists for every budget: the one that visits the maps in
insertion order. -/
theorem ShortRegexpStringAny_exists (srt : List Str → List Str) :
    ∀ (fuel : Nat) (vs : List Str),
      ShortRegexpStringAny srt fuel vs ((ShortRegexpStringFuelWith srt fuel vs).map Prod.fst) := by
  intro fuel
  induction fuel with
  | zero => intro vs; rfl
  | succ fuel ih =>
    intro vs
    match vs with
    | [] => rfl
    | [v] => rfl
    | a :: b :: t =>
      refine ⟨fun l => (ShortRegexpStringFuelWith srt fuel l).map Prod.fst, _, _, fun l => ih l,
        List.Perm.refl _, List.Perm.refl _, ?_⟩
      rw [ShortRegexpStringFuelWith_general, generalCaseWith_eq_ord]

/-! ## Claims that hold for every reverse sort -/

/-- C6: whatever rearrangement the reverse sort of line 73 leaves, for two or
more arguments the call ends (in a pattern or a panic), and a returned pattern
is at most as long as the plain alternation of the escaped arguments: the sum
of the lengths of the escaped arguments plus one separator less than there are
arguments. -/
theorem length_at_most_naive_cost (srt : List Str → List Str) (hsrt : ∀ l, (srt l).Perm l)
    (vs : List Str) (h2 : 2 ≤ vs.length) :
    ShortRegexpStringWith srt vs ≠ .outOfFuel ∧
    ∀ r : Str, ShortRegexpStringWith srt vs = .ok r →
      (r.length : Int) ≤
        ((vs.map fun v => (QuoteMeta v).length).sum : Nat) + ((vs.length : Int) - 1) := by
  refine ⟨ShortRegexpStringWith_ne_outOfFuel srt hsrt vs, fun r hr => ?_⟩
  rw [← naiveCost_eq]
  unfold ShortRegexpStringWith at hr
  rw [Outcome.map_eq_ok] at hr
  obtain ⟨⟨r1, m⟩, h, hr1⟩ := hr
  simp only at hr1
  subst hr1
  match vs, h2, h with
  | a :: b :: t, _, h =>
    rw [ShortRegexpStringFuelWith_general] at h
    exact generalCaseWith_length srt hsrt _ _ _ _ (by simp) h

/-- C6 with the insertion sort at the arguments `abc`, `abd`, `abe`: the
pattern `ab(c|d|e)` has 9 bytes, the baseline is 11. -/
theorem length_at_most_naive_cost_witness :
    (∀ l : List Str, (goSort reverseStrings.Less l).Perm l) ∧
    2 ≤ [ascii "abc", ascii "abd", ascii "abe"].length ∧
    ShortRegexpStringWith (goSort reverseStrings.Less) [ascii "abc", ascii "abd", ascii "abe"] =
      .ok (ascii "ab(c|d|e)") ∧
    (ShortRegexpStringWith (goSort reverseStrings.Less)
        [ascii "abc", ascii "abd", ascii "abe"] ≠ .outOfFuel ∧
      ∀ r : Str, ShortRegexpStringWith (goSort reverseStrings.Less)
          [ascii "abc", ascii "abd", ascii "abe"] = .ok r →
        (r.length : Int) ≤
          (([ascii "abc", ascii "abd", ascii "abe"].map fun v => (QuoteMeta v).length).sum : Nat) +
            ((([ascii "abc", ascii "abd", ascii "abe"] : List Str).length : Int) - 1)) :=
  ⟨goSort_perm reverseStrings.Less, by decide, by decide,
    length_at_most_naive_cost (goSort reverseStrings.Less) (goSort_perm reverseStrings.Less)
      [ascii "abc", ascii "abd", ascii "abe"] (by decide)⟩

/-- C14: whatever rearrangement the reverse sort of line 73 leaves, every
recursive call of `ShortRegexpString` (on the elements before the range, after
the range, and on the range with the affixes cut off) is on a list of smaller
weight (number of strings plus total length) than the arguments; the body
consults the recursive call only on such lists; so the recursion ends for
every input: with any budget above the weight the embedding gives the same
outcome, never an exhausted budget, and it satisfies the recursion equation. -/
theorem recursion_is_well_founded (srt : List Str → List Str) (hsrt : ∀ l, (srt l).Perm l)
    (vs : List Str) :
    (∀ e ∈ commonSuffixes (suffixViewWith srt vs) 2, ∀ pfx : Str,
      CallsShrink vs (suffixViewWith srt vs) e.2.start e.2.stop pfx e.1) ∧
    (∀ e ∈ commonPrefixes (prefixViewWith srt vs) 2, ∀ sfx : Str,
      CallsShrink vs (prefixViewWith srt vs) e.2.start e.2.stop e.1 sfx) ∧
    (∀ self1 self2 : List Str → Outcome Str,
      (∀ l, weight l < weight vs → self1 l = self2 l) →
        generalCaseWith srt self1 vs = generalCaseWith srt self2 vs) ∧
    (∀ fuel, weight vs < fuel →
      (ShortRegexpStringFuelWith srt fuel vs).map Prod.fst = ShortRegexpStringWith srt vs) ∧
    ShortRegexpStringWith srt vs ≠ .outOfFuel ∧
    (2 ≤ vs.length →
      ShortRegexpStringWith srt vs =
        (generalCaseWith srt (ShortRegexpStringWith srt) vs).map Prod.fst) := by
  refine ⟨?_, ?_, fun s1 s2 h => generalCaseWith_congr_weight srt hsrt s1 s2 vs h,
    fun fuel h => ShortRegexpStringWith_of_fuel srt hsrt fuel vs h,
    ShortRegexpStringWith_ne_outOfFuel srt hsrt vs, ShortRegexpStringWith_unfold srt hsrt vs⟩
  · intro e he pfx
    obtain ⟨g1, g2, g3⟩ := commonSuffixes_good _ 2 e he
    exact callsShrink_of_good vs _ (weight_suffixViewWith srt hsrt vs) _ _ _ _ g3 g2 (by omega)
  · intro e he sfx
    obtain ⟨g1, g2, g3⟩ := commonPrefixes_good _ 2 e he
    exact callsShrink_of_good vs _ (weight_prefixViewWith srt hsrt vs) _ _ _ _ g3 g2 (by omega)

/-- C14 with the insertion sort at the arguments `abxcd`, `abycd`, `efxcd`,
`efzcd`: the suffix candidates are `xcd` with the range 0..2 and `cd` with
0..4, the prefix candidates `ab` with 0..2 and `ef` with 2..4, and the call
returns `(abx|aby|efx|efz)cd`. -/
theorem recursion_is_well_founded_witness :
    (∀ l : List Str, (goSort reverseStrings.Less l).Perm l) ∧
    commonSuffixes (suffixViewWith (goSort reverseStrings.Less)
        [ascii "abxcd", ascii "abycd", ascii "efxcd", ascii "efzcd"]) 2 =
      [(ascii "xcd", ⟨0, 2⟩), (ascii "cd", ⟨0, 4⟩)] ∧
    commonPrefixes (prefixViewWith (goSort reverseStrings.Less)
        [ascii "abxcd", ascii "abycd", ascii "efxcd", ascii "efzcd"]) 2 =
      [(ascii "ab", ⟨0, 2⟩), (ascii "ef", ⟨2, 4⟩)] ∧
    ShortRegexpStringWith (goSort reverseStrings.Less)
        [ascii "abxcd", ascii "abycd", ascii "efxcd", ascii "efzcd"] =
      .ok (ascii "(abx|aby|efx|efz)cd") ∧
    ShortRegexpStringWith (goSort reverseStrings.Less)
        [ascii "abxcd", ascii "abycd", ascii "efxcd", ascii "efzcd"] ≠ .outOfFuel :=
  ⟨goSort_perm reverseStrings.Less, by decide, by decide, by decide,
    (recursion_is_well_founded (goSort reverseStrings.Less) (goSort_perm reverseStrings.Less)
      [ascii "abxcd", ascii "abycd", ascii "efxcd", ascii "efzcd"]).2.2.2.2.1⟩

/-- C13: whatever rearrangement the reverse sort of line 73 leaves, for two or
more arguments and every order `cs`, `cp` in which the entries of the suffix
candidate map and of the prefix candidate map are visited, the call gives the
outcome of `ShortRegexpString` (also when the nested calls visit their maps in
any order); and it returns the pattern `r` exactly when all candidate
fragments are computed without a panic and `r` is the one least by (length,
then bytes) among those shorter than the naive cost, or the plain alternation
of the escaped arguments when none is shorter. -/
theorem result_independent_of_map_order (srt : List Str → List Str)
    (hsrt : ∀ l, (srt l).Perm l) (vs : List Str) (h2 : 2 ≤ vs.length)
    (cs cp : List (Str × commonSs))
    (hcs : cs.Perm (commonSuffixes (suffixViewWith srt vs) 2))
    (hcp : cp.Perm (commonPrefixes (prefixViewWith srt vs) 2)) :
    (generalCaseOrdWith srt (ShortRegexpStringWith srt) vs cs cp).map Prod.fst =
      ShortRegexpStringWith srt vs ∧
    (∀ fuel o, weight vs < fuel → ShortRegexpStringAny srt fuel vs o →
      o = ShortRegexpStringWith srt vs) ∧
    (∀ fuel, ∃ o, ShortRegexpStringAny srt fuel vs o) ∧
    (∀ r, ShortRegexpStringWith srt vs = .ok r ↔
      ∃ fs1 fs2,
        evalAll (suffixFragment (ShortRegexpStringWith srt) (suffixViewWith srt vs)) cs =
          .ok fs1 ∧
        evalAll (prefixFragment (ShortRegexpStringWith srt) (prefixViewWith srt vs)) cp =
          .ok fs2 ∧
        IsBestOf (naiveCost vs) (fs1 ++ fs2)
          (joinBar ((prefixViewWith srt vs).map QuoteMeta)) r) := by
  have h1 := generalCaseOrdWith_any_order srt hsrt vs h2 cs cp hcs hcp
  refine ⟨h1, fun fuel o hf ho => ShortRegexpStringAny_unique srt hsrt fuel vs o hf ho,
    fun fuel => ⟨_, ShortRegexpStringAny_exists srt fuel vs⟩, fun r => ?_⟩
  rw [← h1, generalCaseOrdWith_eq]
  cases e1 : evalAll (suffixFragment (ShortRegexpStringWith srt) (suffixViewWith srt vs)) cs with
  | ok fs1 =>
    cases e2 : evalAll (prefixFragment (ShortRegexpStringWith srt)
        (prefixViewWith srt vs)) cp with
    | ok fs2 =>
      simp only [Outcome.bind, finishWith_fst, isBestOf_iff]
      constructor
      · intro h
        exact ⟨fs1, fs2, rfl, rfl, (Outcome.ok.inj h).symm⟩
      · rintro ⟨g1, g2, e3, e4, hr⟩
        cases e3
        cases e4
        rw [hr]
    | panic => simp [Outcome.bind, Outcome.map]
    | outOfFuel => simp [Outcome.bind, Outcome.map]
  | panic => simp [Outcome.bind, Outcome.map]
  | outOfFuel => simp [Outcome.bind, Outcome.map]

/-- C13 with the insertion sort at the arguments `abxcd`, `abycd`, `efxcd`,
`efzcd`, with both candidate maps (suffixes `xcd`, `cd`; prefixes `ab`, `ef`)
visited in the order opposite to insertion: the outcome is that of
`ShortRegexpString`, the pattern `(abx|aby|efx|efz)cd`. -/
theorem result_independent_of_map_order_witness :
    (∀ l : List Str, (goSort reverseStrings.Less l).Perm l) ∧
    2 ≤ [ascii "abxcd", ascii "abycd", ascii "efxcd", ascii "efzcd"].length ∧
    [(ascii "cd", (⟨0, 4⟩ : commonSs)), (ascii "xcd", ⟨0, 2⟩)].Perm
      (commonSuffixes (suffixViewWith (goSort reverseStrings.Less)
        [ascii "abxcd", ascii "abycd", ascii "efxcd", ascii "efzcd"]) 2) ∧
    [(ascii "ef", (⟨2, 4⟩ : commonSs)), (ascii "ab", ⟨0, 2⟩)].Perm
      (commonPrefixes (prefixViewWith (goSort reverseStrings.Less)
        [ascii "abxcd", ascii "abycd", ascii "efxcd", ascii "efzcd"]) 2) ∧
    (generalCaseOrdWith (goSort reverseStrings.Less)
        (ShortRegexpStringWith (goSort reverseStrings.Less))
        [ascii "abxcd", ascii "abycd", ascii "efxcd", ascii "efzcd"]
        [(ascii "cd", ⟨0, 4⟩), (ascii "xcd", ⟨0, 2⟩)]
        [(ascii "ef", ⟨2, 4⟩), (ascii "ab", ⟨0, 2⟩)]).map Prod.fst =
      ShortRegexpStringWith (goSort reverseStrings.Less)
        [ascii "abxcd", ascii "abycd", ascii "efxcd", ascii "efzcd"] ∧
    ShortRegexpStringWith (goSort reverseStrings.Less)
        [ascii "abxcd", ascii "abycd", ascii "efxcd", ascii "efzcd"] =
      .ok (ascii "(abx|aby|efx|efz)cd") :=
  have hs : [(ascii "cd", (⟨0, 4⟩ : commonSs)), (ascii "xcd", ⟨0, 2⟩)].Perm
      (commonSuffixes (suffixViewWith (goSort reverseStrings.Less)
        [ascii "abxcd", ascii "abycd", ascii "efxcd", ascii "efzcd"]) 2) := by
    decide
  have hp : [(ascii "ef", (⟨2, 4⟩ : commonSs)), (ascii "ab", ⟨0, 2⟩)].Perm
      (commonPrefixes (prefixViewWith (goSort reverseStrings.Less)
        [ascii "abxcd", ascii "abycd", ascii "efxcd", ascii "efzcd"]) 2) := by
    decide
  ⟨goSort_perm reverseStrings.Less, by decide, hs, hp,
    (result_independent_of_map_order (goSort reverseStrings.Less)
      (goSort_perm reverseStrings.Less) _ (by decide) _ _ hs hp).1, by decide⟩

end SortOrder
